import Mathlib

/-!
Verification of docker-dupe: replication of a manifest and its layers between two registries

Shallow embedding of `dupe/dupe.go` and `main.go`.

* `Copy`, `copyLayer` and `copyManifest` are embedded as a small-step
  transition system over `State`: the main goroutine running `Copy` and the
  worker goroutines spawned by it each have a program counter, the `tasks`
  channel is a bounded FIFO buffer of capacity 64, the `sync.WaitGroup` is a
  counter, and `log.Fatalf` is a program point whose next step is `os.Exit(1)`.
  An execution is a schedule: a list of labels, each naming the goroutine that
  moves.
* Registry calls are external: the answer of each call is supplied by the
  label of the step that performs it, and every call is recorded in the trace.
* `New` and `main` are embedded as functions; `main` computes the process
  exit code from the outcome of argument parsing and of `New` followed by
  `Copy`.

The properties are proved for all schedules and all answers through the
invariant `Inv`. Executions are of bounded length (`run_bounded`) and, with
at least one thread, never stuck before `Copy` returns or the process exits
(`copy_progress`).
-/

namespace DockerDupe

/-! ## Data model -/

/-- Content address of a blob (`layer.BlobSum`). -/
abbrev Digest := String

/-- Go `error` values returned by the registry client. -/
abbrev Err := String

/-- Identity of an `io.ReadCloser` handed out by `DownloadLayerLength`. -/
abbrev Reader := Nat

/-- Layer reference `manifest.FSLayer`. -/
structure FSLayer where
  BlobSum : Digest
deriving DecidableEq, Repr

/-- Signed manifest `manifest.SignedManifest`: the ordered layer references and
the remaining signed content, which the program never inspects. -/
structure SignedManifest where
  FSLayers : List FSLayer
  Raw : String
deriving DecidableEq, Repr

/-- Registry handle `*registry.Registry`. -/
structure Registry where
  URL : String
  Username : String
  Password : String
deriving DecidableEq, Repr

/-- Struct `Dupe` (logger fields omitted: they only print; `fromReg` and `toReg`
are the fields `from` and `to`). -/
structure Dupe where
  manifestName : String
  manifestTag : String
  manifest : Option SignedManifest
  fromReg : Registry
  toReg : Registry
  threads : Int
deriving DecidableEq, Repr

/-- Struct `DupeConfig`. -/
structure DupeConfig where
  UrlFrom : String
  UrlTo : String
  UserFrom : String
  UserTo : String
  PasswordFrom : String
  PasswordTo : String
  Threads : Int
  Debug : Bool
deriving DecidableEq, Repr

/-- Struct `worker`: one item of the `tasks` channel. -/
structure worker where
  index : Nat
  layer : FSLayer
deriving DecidableEq, Repr

/-- Outcome of a registry call that returns `(value, error)`. -/
inductive Result (α : Type) where
  | ok (a : α)
  | error (e : Err)
deriving DecidableEq, Repr

/-- Function `New`: connects to both registries (`connect` stands for
`registry.New`), a failed connection ends in `log.Fatalf`, that is exit code 1;
otherwise the job keeps `config.Threads` as it is. -/
def New (connect : String → String → String → Result Registry) (config : DupeConfig) :
    Except Nat Dupe :=
  match connect config.UrlFrom config.UserFrom config.PasswordFrom with
  | .error _ => .error 1
  | .ok fromReg =>
    match connect config.UrlTo config.UserTo config.PasswordTo with
    | .error _ => .error 1
    | .ok toReg =>
      .ok { manifestName := "", manifestTag := "", manifest := none,
            fromReg := fromReg, toReg := toReg, threads := config.Threads }

/-! ## Observable events -/

/-- Calls made by `Copy`, `copyLayer` and `copyManifest`, in the order in which
they happen. Events of `copyLayer` carry the index of the work item. -/
inductive Event where
  | Manifest (name tag : String) (res : Result SignedManifest)
  | copyLayer (index : Nat) (layer : FSLayer)
  | HasLayer (index : Nat) (name : String) (digest : Digest) (res : Result Bool)
  | DownloadLayerLength (index : Nat) (name : String) (digest : Digest)
      (reader : Option Reader) (len : Int) (err : Option Err)
  | UploadLayer (index : Nat) (name : String) (digest : Digest) (reader : Reader)
      (err : Option Err)
  | Close (index : Nat) (reader : Reader)
  | copyLayerReturn (index : Nat)
  | PutManifest (name tag : String) (manifest : SignedManifest) (err : Option Err)
deriving DecidableEq, Repr

/-- Work item index of an event of `copyLayer`, `none` for the events of the
main goroutine. -/
def Event.index? : Event → Option Nat
  | .Manifest _ _ _ => none
  | .copyLayer i _ => some i
  | .HasLayer i _ _ _ => some i
  | .DownloadLayerLength i _ _ _ _ _ => some i
  | .UploadLayer i _ _ _ _ => some i
  | .Close i _ => some i
  | .copyLayerReturn i => some i
  | .PutManifest _ _ _ _ => none

/-- Recognises a destination `PutManifest` call. -/
def Event.isPutManifest : Event → Bool
  | .PutManifest _ _ _ _ => true
  | _ => false

/-- Recognises a destination `UploadLayer` call. -/
def Event.isUploadLayer : Event → Bool
  | .UploadLayer _ _ _ _ _ => true
  | _ => false

/-- Recognises a source `DownloadLayerLength` call. -/
def Event.isDownload : Event → Bool
  | .DownloadLayerLength _ _ _ _ _ _ => true
  | _ => false

/-- Recognises a destination `HasLayer` call. -/
def Event.isHasLayer : Event → Bool
  | .HasLayer _ _ _ _ => true
  | _ => false

/-- Recognises a `Close` of a source reader. -/
def Event.isClose : Event → Bool
  | .Close _ _ => true
  | _ => false

/-- A registry call that returned an error (or, for `DownloadLayerLength`, no
reader). -/
def Event.failed : Event → Bool
  | .Manifest _ _ (.error _) => true
  | .HasLayer _ _ _ (.error _) => true
  | .DownloadLayerLength _ _ _ none _ _ => true
  | .DownloadLayerLength _ _ _ _ _ (some _) => true
  | .UploadLayer _ _ _ _ (some _) => true
  | .PutManifest _ _ _ (some _) => true
  | _ => false

/-- Events of the work item with index `i`, in order. -/
def layerEvents (i : Nat) (tr : List Event) : List Event :=
  tr.filter (fun e => e.index? == some i)

/-- Events of the main goroutine, in order. -/
def mainEvents (tr : List Event) : List Event :=
  tr.filter (fun e => e.index? == none)

/-! ## Transition system -/

/-- Program points of the main goroutine inside `Copy`. -/
inductive CopyPc where
  | fetch
  | fetchFatal
  | spawn (i : Nat)
  | send (k : Nat)
  | close
  | wait
  | put
  | putFatal
  | done
deriving DecidableEq, Repr

/-- Program points of a worker goroutine: the `range tasks` loop head, the
calls inside `copyLayer`, the deferred `Close`, the two `log.Fatalf` sites and
the end of the goroutine after `wg.Done()`. -/
inductive WorkerPc where
  | recv
  | hasLayer (task : worker)
  | download (task : worker)
  | upload (task : worker) (src_reader : Reader) (src_len : Int)
  | closing (task : worker) (src_reader : Reader)
  | hasFatal (task : worker)
  | readerFatal (task : worker)
  | exited
deriving DecidableEq, Repr

/-- Work item a worker is currently inside `copyLayer` with. -/
def WorkerPc.task? : WorkerPc → Option worker
  | .recv => none
  | .hasLayer t => some t
  | .download t => some t
  | .upload t _ _ => some t
  | .closing t _ => some t
  | .hasFatal t => some t
  | .readerFatal t => some t
  | .exited => none

/-- Worker goroutines that have not yet called `wg.Done()`. -/
def WorkerPc.running : WorkerPc → Bool
  | .exited => false
  | _ => true

/-- Answer of the environment to the call made by a step (`tick` for a step
that makes no registry call). -/
inductive Resp where
  | tick
  | Manifest (res : Result SignedManifest)
  | HasLayer (res : Result Bool)
  | DownloadLayerLength (reader : Option Reader) (len : Int) (err : Option Err)
  | UploadLayer (err : Option Err)
  | PutManifest (err : Option Err)
deriving DecidableEq, Repr

/-- Scheduling choice: which goroutine moves, and what the environment
answers. -/
inductive Label where
  | main (r : Resp)
  | worker (j : Nat) (r : Resp)
deriving DecidableEq, Repr

/-- An answer of the environment that reports a failure. -/
def Resp.failed : Resp → Bool
  | .Manifest (.error _) => true
  | .HasLayer (.error _) => true
  | .DownloadLayerLength none _ _ => true
  | .DownloadLayerLength _ _ (some _) => true
  | .UploadLayer (some _) => true
  | .PutManifest (some _) => true
  | _ => false

/-- A step whose registry call reports a failure. -/
def Label.failed : Label → Bool
  | .main r => r.failed
  | .worker _ r => r.failed

/-- Process state during `Copy`. -/
structure State where
  dupe : Dupe
  pc : CopyPc
  tasks : List worker
  closed : Bool
  wg : Nat
  workers : List WorkerPc
  exit : Option Nat
  trace : List Event
deriving DecidableEq, Repr

/-- Capacity of the `tasks` channel: `make(chan *worker, 64)`. -/
def tasksCap : Nat := 64

/-- Layer references of the fetched manifest (`dupe.manifest.FSLayers`). -/
def State.layers (s : State) : List FSLayer :=
  match s.dupe.manifest with
  | some m => m.FSLayers
  | none => []

/-- State at the entry of `Copy(manifest_name, manifest_tag)`. -/
def Copy (d : Dupe) (manifest_name manifest_tag : String) : State :=
  { dupe := { d with manifestName := manifest_name, manifestTag := manifest_tag },
    pc := .fetch, tasks := [], closed := false, wg := 0, workers := [],
    exit := none, trace := [] }

/-- Function `copyManifest`: the call `dupe.to.PutManifest(dupe.manifestName,
dupe.manifestTag, dupe.manifest)` with the manifest as fetched; an error leads
to `log.Fatalf`, otherwise `Copy` logs and returns. -/
def copyManifest (s : State) (err : Option Err) : Option State :=
  match s.dupe.manifest with
  | none => none
  | some m =>
    let ev := Event.PutManifest s.dupe.manifestName s.dupe.manifestTag m err
    match err with
    | none => some { s with pc := .done, trace := s.trace ++ [ev] }
    | some _ => some { s with pc := .putFatal, trace := s.trace ++ [ev] }

/-- One step of the main goroutine in `Copy`: the manifest fetch, the loop
that spawns `dupe.threads` workers (`wg.Add(1)` and `go`), the loop that sends
one work item per entry of `FSLayers` (blocking while the channel is full),
`close(tasks)`, `wg.Wait()` (blocking while the counter is not zero),
`copyManifest`, and `os.Exit(1)` at the end of a `log.Fatalf`. -/
def stepMain (s : State) (r : Resp) : Option State :=
  match s.pc, r with
  | .fetch, .Manifest res =>
    let ev := Event.Manifest s.dupe.manifestName s.dupe.manifestTag res
    match res with
    | .ok m =>
      some { s with dupe := { s.dupe with manifest := some m }, pc := .spawn 0,
                    trace := s.trace ++ [ev] }
    | .error _ =>
      some { s with dupe := { s.dupe with manifest := none }, pc := .fetchFatal,
                    trace := s.trace ++ [ev] }
  | .fetchFatal, .tick => some { s with exit := some 1 }
  | .spawn i, .tick =>
    if (i : Int) < s.dupe.threads then
      some { s with wg := s.wg + 1, workers := s.workers ++ [.recv], pc := .spawn (i + 1) }
    else
      some { s with pc := .send 0 }
  | .send k, .tick =>
    match s.layers[k]? with
    | some layer =>
      if s.tasks.length < tasksCap then
        some { s with tasks := s.tasks ++ [{ index := k, layer := layer }], pc := .send (k + 1) }
      else none
    | none => some { s with pc := .close }
  | .close, .tick => some { s with closed := true, pc := .wait }
  | .wait, .tick => if s.wg = 0 then some { s with pc := .put } else none
  | .put, .PutManifest err => copyManifest s err
  | .putFatal, .tick => some { s with exit := some 1 }
  | _, _ => none

/-- Function `copyLayer`, one step of the call that worker `j` is making at
program point `w`: `HasLayer` (an error is fatal, `true` skips the layer and
returns), `DownloadLayerLength` (without a reader both branches are fatal;
with a reader its `Close` is deferred and the error is not looked at),
`UploadLayer` (its result is discarded), the deferred `Close` at the return,
and `os.Exit(1)` at the end of a `log.Fatalf`. -/
def copyLayer (s : State) (j : Nat) : WorkerPc → Resp → Option State
  | .hasLayer t, .HasLayer res =>
    let ev := Event.HasLayer t.index s.dupe.manifestName t.layer.BlobSum res
    match res with
    | .error _ =>
      some { s with workers := s.workers.set j (.hasFatal t), trace := s.trace ++ [ev] }
    | .ok true =>
      some { s with workers := s.workers.set j .recv,
                    trace := s.trace ++ [ev, .copyLayerReturn t.index] }
    | .ok false =>
      some { s with workers := s.workers.set j (.download t), trace := s.trace ++ [ev] }
  | .download t, .DownloadLayerLength reader len err =>
    let ev := Event.DownloadLayerLength t.index s.dupe.manifestName t.layer.BlobSum reader len err
    match reader with
    | some rd =>
      some { s with workers := s.workers.set j (.upload t rd len), trace := s.trace ++ [ev] }
    | none =>
      some { s with workers := s.workers.set j (.readerFatal t), trace := s.trace ++ [ev] }
  | .upload t rd _, .UploadLayer err =>
    some { s with workers := s.workers.set j (.closing t rd),
                  trace := s.trace ++
                    [.UploadLayer t.index s.dupe.manifestName t.layer.BlobSum rd err] }
  | .closing t rd, .tick =>
    some { s with workers := s.workers.set j .recv,
                  trace := s.trace ++ [.Close t.index rd, .copyLayerReturn t.index] }
  | .hasFatal _, .tick => some { s with exit := some 1 }
  | .readerFatal _, .tick => some { s with exit := some 1 }
  | _, _ => none

/-- One step of worker `j`, the goroutine `for task := range tasks
{ dupe.copyLayer(task.index, task.layer) }; wg.Done()`: at the loop head it
takes the oldest item of the channel and enters `copyLayer`, or ends with
`wg.Done()` when the channel is empty and closed, or blocks; inside
`copyLayer` it takes a step of that call. The counter is positive when
`wg.Done()` runs (`CtlInv.wg`). -/
def stepWorker (s : State) (j : Nat) (r : Resp) : Option State :=
  match s.workers[j]? with
  | none => none
  | some .exited => none
  | some .recv =>
    match r with
    | .tick =>
      match s.tasks with
      | t :: q =>
        some { s with tasks := q, workers := s.workers.set j (.hasLayer t),
                      trace := s.trace ++ [.copyLayer t.index t.layer] }
      | [] =>
        if s.closed then
          some { s with wg := s.wg - 1, workers := s.workers.set j .exited }
        else none
    | _ => none
  | some w => copyLayer s j w r

/-- One step of the process: nothing moves once `os.Exit` has been called. -/
def step (s : State) (l : Label) : Option State :=
  match s.exit with
  | some _ => none
  | none =>
    match l with
    | .main r => stepMain s r
    | .worker j r => stepWorker s j r

/-- Execution along a schedule. -/
def run (s : State) : List Label → Option State
  | [] => some s
  | l :: ls =>
    match step s l with
    | some s' => run s' ls
    | none => none

/-! ## The steps as a relation -/

/-- Transition relation: one constructor for each branch of `stepMain` and
`stepWorker`. -/
inductive Step : State → State → Prop where
  | fetchOk (s : State) (m : SignedManifest) (hx : s.exit = none) (hpc : s.pc = .fetch) :
      Step s { s with dupe := { s.dupe with manifest := some m }, pc := .spawn 0,
                      trace := s.trace ++
                        [.Manifest s.dupe.manifestName s.dupe.manifestTag (.ok m)] }
  | fetchErr (s : State) (e : Err) (hx : s.exit = none) (hpc : s.pc = .fetch) :
      Step s { s with dupe := { s.dupe with manifest := none }, pc := .fetchFatal,
                      trace := s.trace ++
                        [.Manifest s.dupe.manifestName s.dupe.manifestTag (.error e)] }
  | fetchExit (s : State) (hx : s.exit = none) (hpc : s.pc = .fetchFatal) :
      Step s { s with exit := some 1 }
  | spawnGo (s : State) (i : Nat) (hx : s.exit = none) (hpc : s.pc = .spawn i)
      (hlt : (i : Int) < s.dupe.threads) :
      Step s { s with wg := s.wg + 1, workers := s.workers ++ [.recv], pc := .spawn (i + 1) }
  | spawnEnd (s : State) (i : Nat) (hx : s.exit = none) (hpc : s.pc = .spawn i)
      (hge : ¬ (i : Int) < s.dupe.threads) :
      Step s { s with pc := .send 0 }
  | sendGo (s : State) (k : Nat) (layer : FSLayer) (hx : s.exit = none) (hpc : s.pc = .send k)
      (hl : s.layers[k]? = some layer) (hcap : s.tasks.length < tasksCap) :
      Step s { s with tasks := s.tasks ++ [{ index := k, layer := layer }], pc := .send (k + 1) }
  | sendEnd (s : State) (k : Nat) (hx : s.exit = none) (hpc : s.pc = .send k)
      (hl : s.layers[k]? = none) :
      Step s { s with pc := .close }
  | close (s : State) (hx : s.exit = none) (hpc : s.pc = .close) :
      Step s { s with closed := true, pc := .wait }
  | wait (s : State) (hx : s.exit = none) (hpc : s.pc = .wait) (hwg : s.wg = 0) :
      Step s { s with pc := .put }
  | putOk (s : State) (m : SignedManifest) (hx : s.exit = none) (hpc : s.pc = .put)
      (hm : s.dupe.manifest = some m) :
      Step s { s with pc := .done, trace := s.trace ++
                 [.PutManifest s.dupe.manifestName s.dupe.manifestTag m none] }
  | putErr (s : State) (m : SignedManifest) (e : Err) (hx : s.exit = none) (hpc : s.pc = .put)
      (hm : s.dupe.manifest = some m) :
      Step s { s with pc := .putFatal, trace := s.trace ++
                 [.PutManifest s.dupe.manifestName s.dupe.manifestTag m (some e)] }
  | putExit (s : State) (hx : s.exit = none) (hpc : s.pc = .putFatal) :
      Step s { s with exit := some 1 }
  | recvGo (s : State) (j : Nat) (t : worker) (q : List worker) (hx : s.exit = none)
      (hw : s.workers[j]? = some .recv) (ht : s.tasks = t :: q) :
      Step s { s with tasks := q, workers := s.workers.set j (.hasLayer t),
                      trace := s.trace ++ [.copyLayer t.index t.layer] }
  | recvEnd (s : State) (j : Nat) (hx : s.exit = none)
      (hw : s.workers[j]? = some .recv) (ht : s.tasks = []) (hc : s.closed = true) :
      Step s { s with wg := s.wg - 1, workers := s.workers.set j .exited }
  | hasErr (s : State) (j : Nat) (t : worker) (e : Err) (hx : s.exit = none)
      (hw : s.workers[j]? = some (.hasLayer t)) :
      Step s { s with workers := s.workers.set j (.hasFatal t),
                      trace := s.trace ++
                        [.HasLayer t.index s.dupe.manifestName t.layer.BlobSum (.error e)] }
  | hasTrue (s : State) (j : Nat) (t : worker) (hx : s.exit = none)
      (hw : s.workers[j]? = some (.hasLayer t)) :
      Step s { s with workers := s.workers.set j .recv,
                      trace := s.trace ++
                        [.HasLayer t.index s.dupe.manifestName t.layer.BlobSum (.ok true),
                         .copyLayerReturn t.index] }
  | hasFalse (s : State) (j : Nat) (t : worker) (hx : s.exit = none)
      (hw : s.workers[j]? = some (.hasLayer t)) :
      Step s { s with workers := s.workers.set j (.download t),
                      trace := s.trace ++
                        [.HasLayer t.index s.dupe.manifestName t.layer.BlobSum (.ok false)] }
  | dlSome (s : State) (j : Nat) (t : worker) (rd : Reader) (len : Int) (err : Option Err)
      (hx : s.exit = none) (hw : s.workers[j]? = some (.download t)) :
      Step s { s with workers := s.workers.set j (.upload t rd len),
                      trace := s.trace ++
                        [.DownloadLayerLength t.index s.dupe.manifestName t.layer.BlobSum
                          (some rd) len err] }
  | dlNone (s : State) (j : Nat) (t : worker) (len : Int) (err : Option Err)
      (hx : s.exit = none) (hw : s.workers[j]? = some (.download t)) :
      Step s { s with workers := s.workers.set j (.readerFatal t),
                      trace := s.trace ++
                        [.DownloadLayerLength t.index s.dupe.manifestName t.layer.BlobSum
                          none len err] }
  | upload (s : State) (j : Nat) (t : worker) (rd : Reader) (len : Int) (err : Option Err)
      (hx : s.exit = none) (hw : s.workers[j]? = some (.upload t rd len)) :
      Step s { s with workers := s.workers.set j (.closing t rd),
                      trace := s.trace ++
                        [.UploadLayer t.index s.dupe.manifestName t.layer.BlobSum rd err] }
  | closing (s : State) (j : Nat) (t : worker) (rd : Reader) (hx : s.exit = none)
      (hw : s.workers[j]? = some (.closing t rd)) :
      Step s { s with workers := s.workers.set j .recv,
                      trace := s.trace ++ [.Close t.index rd, .copyLayerReturn t.index] }
  | hasExit (s : State) (j : Nat) (t : worker) (hx : s.exit = none)
      (hw : s.workers[j]? = some (.hasFatal t)) :
      Step s { s with exit := some 1 }
  | readerExit (s : State) (j : Nat) (t : worker) (hx : s.exit = none)
      (hw : s.workers[j]? = some (.readerFatal t)) :
      Step s { s with exit := some 1 }

/-- States reachable from `s` by steps of the relation. -/
inductive Reach (s : State) : State → Prop where
  | refl : Reach s s
  | tail (s1 s2 : State) (h : Reach s s1) (hs : Step s1 s2) : Reach s s2

/-! ## Shape of the events of one work item -/

/-- Events of a completed `copyLayer` call that found the layer at the
destination. -/
def skippedEvents (name : String) (t : worker) : List Event :=
  [.copyLayer t.index t.layer,
   .HasLayer t.index name t.layer.BlobSum (.ok true),
   .copyLayerReturn t.index]

/-- Events of a completed `copyLayer` call that transferred the layer through
the reader `rd`. -/
def copiedEvents (name : String) (t : worker) (rd : Reader) (len : Int)
    (err uerr : Option Err) : List Event :=
  [.copyLayer t.index t.layer,
   .HasLayer t.index name t.layer.BlobSum (.ok false),
   .DownloadLayerLength t.index name t.layer.BlobSum (some rd) len err,
   .UploadLayer t.index name t.layer.BlobSum rd uerr,
   .Close t.index rd,
   .copyLayerReturn t.index]

/-- Events of a work item whose `copyLayer` call is at program point `w`. -/
def Form (name : String) : WorkerPc → List Event → Prop
  | .recv, _ => True
  | .exited, _ => True
  | .hasLayer t, evs => evs = [.copyLayer t.index t.layer]
  | .download t, evs =>
    evs = [.copyLayer t.index t.layer, .HasLayer t.index name t.layer.BlobSum (.ok false)]
  | .upload t rd len, evs =>
    ∃ err, evs = [.copyLayer t.index t.layer,
      .HasLayer t.index name t.layer.BlobSum (.ok false),
      .DownloadLayerLength t.index name t.layer.BlobSum (some rd) len err]
  | .closing t rd, evs =>
    ∃ len err uerr, evs = [.copyLayer t.index t.layer,
      .HasLayer t.index name t.layer.BlobSum (.ok false),
      .DownloadLayerLength t.index name t.layer.BlobSum (some rd) len err,
      .UploadLayer t.index name t.layer.BlobSum rd uerr]
  | .hasFatal t, evs =>
    ∃ e, evs = [.copyLayer t.index t.layer,
      .HasLayer t.index name t.layer.BlobSum (.error e)]
  | .readerFatal t, evs =>
    ∃ len err, evs = [.copyLayer t.index t.layer,
      .HasLayer t.index name t.layer.BlobSum (.ok false),
      .DownloadLayerLength t.index name t.layer.BlobSum none len err]

/-- Events of a work item whose `copyLayer` call has returned. -/
def Retired (name : String) (t : worker) (evs : List Event) : Prop :=
  evs = skippedEvents name t ∨
    ∃ rd len err uerr, evs = copiedEvents name t rd len err uerr

/-- Invariant relating the work items to their events: `a` items have been
taken from the channel so far; an item not yet taken has no event, an item
held by a worker has the events of that worker's program point, distinct
workers hold distinct items, and every other taken item has returned. -/
structure LayerInv (name : String) (a : Nat) (L : List FSLayer) (ws : List WorkerPc)
    (tr : List Event) : Prop where
  pending : ∀ i, a ≤ i → layerEvents i tr = []
  held : ∀ (j : Nat) (w : WorkerPc) (t : worker), ws[j]? = some w → w.task? = some t →
    t.index < a ∧ L[t.index]? = some t.layer ∧ Form name w (layerEvents t.index tr)
  distinct : ∀ (j j' : Nat) (w w' : WorkerPc) (t t' : worker),
    ws[j]? = some w → ws[j']? = some w' →
    w.task? = some t → w'.task? = some t' → t.index = t'.index → j = j'
  retired : ∀ i, i < a →
    (∃ (j : Nat) (w : WorkerPc) (t : worker),
      ws[j]? = some w ∧ w.task? = some t ∧ t.index = i) ∨
    (∃ l, L[i]? = some l ∧ Retired name { index := i, layer := l } (layerEvents i tr))

/-! ## Invariant of the control state -/

/-- Number of work items the producer loop of `Copy` has sent so far. -/
def sent (s : State) : Nat :=
  match s.pc with
  | .fetch => 0
  | .fetchFatal => 0
  | .spawn _ => 0
  | .send k => k
  | _ => s.layers.length

/-- Number of work items the workers have taken from the channel so far. -/
def taken (s : State) : Nat := sent s - s.tasks.length

/-- Program points after `close(tasks)`. -/
def CopyPc.pastClose : CopyPc → Bool
  | .wait => true
  | .put => true
  | .putFatal => true
  | .done => true
  | _ => false

/-- Program points after `wg.Wait()`. -/
def CopyPc.pastWait : CopyPc → Bool
  | .put => true
  | .putFatal => true
  | .done => true
  | _ => false

/-- Number `n` of spawned workers at each program point of `Copy` for a job
with `T` threads. -/
def NWorkers (T : Int) : CopyPc → Nat → Prop
  | .fetch, n => n = 0
  | .fetchFatal, n => n = 0
  | .spawn i, n => n = i ∧ (i = 0 ∨ (i : Int) ≤ T)
  | _, n => (n : Int) = max T 0

/-- Events `mev` of the main goroutine and value `man` of `dupe.manifest` at
each program point of `Copy`. -/
def MainForm (name tag : String) (man : Option SignedManifest) (mev : List Event) :
    CopyPc → Prop
  | .fetch => mev = []
  | .fetchFatal => ∃ e, mev = [.Manifest name tag (.error e)]
  | .putFatal => ∃ m e, man = some m ∧
      mev = [.Manifest name tag (.ok m), .PutManifest name tag m (some e)]
  | .done => ∃ m, man = some m ∧
      mev = [.Manifest name tag (.ok m), .PutManifest name tag m none]
  | _ => ∃ m, man = some m ∧ mev = [.Manifest name tag (.ok m)]

/-- Some goroutine is inside `log.Fatalf`. -/
def Fatal (s : State) : Prop :=
  s.pc = .fetchFatal ∨ s.pc = .putFatal ∨
    ∃ (j : Nat) (t : worker),
      s.workers[j]? = some (.hasFatal t) ∨ s.workers[j]? = some (.readerFatal t)

/-- Invariant of the channel, the wait group, the worker pool and the main
goroutine, for a job with `T` threads copying `name:tag`. -/
structure CtlInv (T : Int) (name tag : String) (s : State) : Prop where
  hthreads : s.dupe.threads = T
  hname : s.dupe.manifestName = name
  htag : s.dupe.manifestTag = tag
  queueLen : s.tasks.length ≤ sent s
  sentLe : sent s ≤ s.layers.length
  queueIdx : s.tasks.map (fun t => t.index) = List.range' (taken s) s.tasks.length
  queueLayer : ∀ t ∈ s.tasks, s.layers[t.index]? = some t.layer
  wg : s.wg = s.workers.countP WorkerPc.running
  closed : s.closed = s.pc.pastClose
  exitedEmpty : ∀ (j : Nat), s.workers[j]? = some .exited → s.tasks = [] ∧ s.closed = true
  barrier : s.pc.pastWait = true → s.wg = 0
  nworkers : NWorkers T s.pc s.workers.length
  mainForm : MainForm name tag s.dupe.manifest (mainEvents s.trace) s.pc
  exitOne : ∀ c, s.exit = some c → c = 1 ∧ Fatal s

/-- Invariant of every reachable state of `Copy`. -/
structure Inv (T : Int) (name tag : String) (s : State) : Prop where
  ctl : CtlInv T name tag s
  layer : LayerInv name (taken s) s.layers s.workers s.trace

/-- State of a job that has spawned no worker: nothing has been taken from
the channel, no `copyLayer` event has happened, and the channel holds at most
its capacity. -/
structure NoWorkers (s : State) : Prop where
  workers : s.workers = []
  taken : taken s = 0
  events : ∀ e ∈ s.trace, e.index? = none
  cap : s.tasks.length ≤ tasksCap

/-! ## Bound on the length of executions -/

/-- Steps a worker can still take before it takes a new item or ends. -/
def WorkerPc.rank : WorkerPc → Nat
  | .recv => 1
  | .hasLayer _ => 6
  | .download _ => 5
  | .upload _ _ _ => 4
  | .closing _ _ => 3
  | .hasFatal _ => 0
  | .readerFatal _ => 0
  | .exited => 0

/-- Steps the main goroutine can still take, counting two for every worker
still to be spawned, for a job with `T` threads and `N` layer references. -/
def CopyPc.rank (T N : Nat) : CopyPc → Nat
  | .fetch => 2 * T + N + 6
  | .fetchFatal => 0
  | .spawn i => 2 * (T - i) + N + 5
  | .send k => (N - k) + 4
  | .close => 3
  | .wait => 2
  | .put => 1
  | .putFatal => 0
  | .done => 0

/-- Upper bound on the number of steps the process can still take. -/
def fuel (s : State) : Nat :=
  s.pc.rank s.dupe.threads.toNat s.layers.length + 6 * (s.layers.length - taken s) +
    (s.workers.map WorkerPc.rank).sum + (if s.exit = none then 1 else 0)

/-! ## Counting calls -/

/-- Number of `UploadLayer` calls made for the work item with index `i`. -/
def uploadsOf (i : Nat) (tr : List Event) : Nat :=
  (layerEvents i tr).countP Event.isUploadLayer

/-- Number of `DownloadLayerLength` calls made for the work item with index `i`. -/
def downloadsOf (i : Nat) (tr : List Event) : Nat :=
  (layerEvents i tr).countP Event.isDownload

/-- Number of `HasLayer` calls made for the work item with index `i`. -/
def checksOf (i : Nat) (tr : List Event) : Nat :=
  (layerEvents i tr).countP Event.isHasLayer

/-- Number of `Close` calls made on readers of the work item with index `i`. -/
def closesOf (i : Nat) (tr : List Event) : Nat :=
  (layerEvents i tr).countP Event.isClose

/-! ## A destination that keeps what is uploaded

The registries are external. Idempotence is stated against a destination that
answers `HasLayer` from the set of blobs it holds and holds a blob once an
`UploadLayer` call for it has succeeded; `destRun` checks a trace against such
a destination. -/

/-- Effect of one call on a destination holding the blobs `D`: a `HasLayer`
answer must agree with `D`, a successful `UploadLayer` adds its digest, every
other call leaves `D` as it is. -/
def destStep (D : List Digest) : Event → Option (List Digest)
  | .HasLayer _ _ dg (.ok b) => if decide (dg ∈ D) = b then some D else none
  | .UploadLayer _ _ dg _ none => some (dg :: D)
  | _ => some D

/-- Destination after the calls of a trace, `none` when some `HasLayer` answer
disagrees with the blobs held at that moment. -/
def destRun (D : List Digest) : List Event → Option (List Digest)
  | [] => some D
  | e :: es =>
    match destStep D e with
    | some D' => destRun D' es
    | none => none

/-! ## The command line -/

/-- Kinds of `flags.Error`: only `flags.ErrHelp` is told apart by `main`. -/
inductive ErrorType where
  | ErrHelp
  | other (code : Nat)
deriving DecidableEq, Repr

/-- Variable `opts` of `main.go` as filled in by `flags.Parse`. -/
structure Opts where
  Debug : Bool
  DoVersion : Bool
  Source : String
  Destination : String
  ManifestName : String
  ManifestTag : String
  Concurrency : Int
deriving DecidableEq, Repr

/-- Configuration that `main` passes to `dupe.New`. -/
def mainConfig (opts : Opts) : DupeConfig :=
  { UrlFrom := opts.Source, UrlTo := opts.Destination, UserFrom := "", UserTo := "",
    PasswordFrom := "", PasswordTo := "", Threads := opts.Concurrency, Debug := opts.Debug }

/-- Part of `main` after the handling of the parse error: the version flag,
then `dupe.New` and `Copy` run along the schedule `ls`. The result is the exit
code, `none` while the process is still running. -/
def mainRest (opts : Opts) (connect : String → String → String → Result Registry)
    (ls : List Label) : Option Nat :=
  if opts.DoVersion = true then some 10
  else
    match New connect (mainConfig opts) with
    | .error c => some c
    | .ok d =>
      match run (Copy d opts.ManifestName opts.ManifestTag) ls with
      | some s => if s.pc = .done then some 0 else s.exit
      | none => none

/-- Function `main`: `err` is the error returned by `flags.Parse`, if any. -/
def main (err : Option ErrorType) (opts : Opts)
    (connect : String → String → String → Result Registry) (ls : List Label) : Option Nat :=
  match err with
  | some typ =>
    if typ = .ErrHelp then some 0
    else if !opts.DoVersion then some 1
    else mainRest opts connect ls
  | none => mainRest opts connect ls

/-! ## Concrete jobs and schedules -/

/-- Registry connection that always succeeds. -/
def connectOk (url user password : String) : Result Registry :=
  .ok { URL := url, Username := user, Password := password }

/-- Job with the given number of threads between two example registries. -/
def exampleJob (threads : Int) : Dupe :=
  { manifestName := "", manifestTag := "", manifest := none,
    fromReg := { URL := "https://src.example", Username := "", Password := "" },
    toReg := { URL := "https://dst.example", Username := "", Password := "" },
    threads := threads }

/-- Manifest listing the layers `A`, `B`, `C`. -/
def manifestABC : SignedManifest :=
  { FSLayers := [{ BlobSum := "A" }, { BlobSum := "B" }, { BlobSum := "C" }], Raw := "sig" }

/-- Manifest listing the single layer `A`. -/
def manifestA : SignedManifest :=
  { FSLayers := [{ BlobSum := "A" }], Raw := "sig" }

/-- Manifest listing the layer `A` twice. -/
def manifestAA : SignedManifest :=
  { FSLayers := [{ BlobSum := "A" }, { BlobSum := "A" }], Raw := "sig" }

/-- Manifest with 65 layer references, one more than the channel holds. -/
def manifest65 : SignedManifest :=
  { FSLayers := List.replicate 65 { BlobSum := "A" }, Raw := "sig" }

/-- Start of every schedule with two threads: fetch of `manifestABC`, two
spawns, three sends, close. -/
def schedStart2 : List Label :=
  [.main (.Manifest (.ok manifestABC)), .main .tick, .main .tick, .main .tick,
   .main .tick, .main .tick, .main .tick, .main .tick, .main .tick]

/-- Two workers copy `A` and `C` and skip `B`, which the destination holds;
the uploads of `A` and `C` overlap. -/
def schedABC : List Label :=
  schedStart2 ++
  [.worker 0 .tick, .worker 1 .tick,
   .worker 0 (.HasLayer (.ok false)), .worker 1 (.HasLayer (.ok true)),
   .worker 1 .tick,
   .worker 0 (.DownloadLayerLength (some 1) 100 none),
   .worker 1 (.HasLayer (.ok false)),
   .worker 1 (.DownloadLayerLength (some 2) 200 none),
   .worker 0 (.UploadLayer none), .worker 1 (.UploadLayer none),
   .worker 1 .tick, .worker 0 .tick, .worker 0 .tick, .worker 1 .tick,
   .main .tick, .main (.PutManifest none)]

/-- Second run against the same destination: every layer is found. -/
def schedABCAgain : List Label :=
  schedStart2 ++
  [.worker 0 .tick, .worker 1 .tick,
   .worker 0 (.HasLayer (.ok true)), .worker 1 (.HasLayer (.ok true)),
   .worker 1 .tick, .worker 1 (.HasLayer (.ok true)),
   .worker 0 .tick, .worker 1 .tick,
   .main .tick, .main (.PutManifest none)]

/-- The existence check of `B` fails while `A` is being transferred. -/
def schedHasLayerFails : List Label :=
  schedStart2 ++
  [.worker 0 .tick, .worker 1 .tick,
   .worker 0 (.HasLayer (.ok false)), .worker 1 (.HasLayer (.error "transport")),
   .worker 0 (.DownloadLayerLength (some 1) 100 none)]

/-- One worker transfers `A`, the upload returns an error, and the schedule
runs on to the end of `Copy`. -/
def schedUploadFails : List Label :=
  [.main (.Manifest (.ok manifestA)), .main .tick, .main .tick, .main .tick, .main .tick,
   .main .tick,
   .worker 0 .tick, .worker 0 (.HasLayer (.ok false)),
   .worker 0 (.DownloadLayerLength (some 7) 10 none),
   .worker 0 (.UploadLayer (some "unexpected EOF")),
   .worker 0 .tick, .worker 0 .tick, .main .tick, .main (.PutManifest none)]

/-- Same run as `schedUploadFails` with an upload that succeeds. -/
def schedUploadOk : List Label :=
  [.main (.Manifest (.ok manifestA)), .main .tick, .main .tick, .main .tick, .main .tick,
   .main .tick,
   .worker 0 .tick, .worker 0 (.HasLayer (.ok false)),
   .worker 0 (.DownloadLayerLength (some 8) 10 none),
   .worker 0 (.UploadLayer none),
   .worker 0 .tick, .worker 0 .tick, .main .tick, .main (.PutManifest none)]

/-- One worker and the manifest `[A, A]`, no call failing: the first reference
finds `A` absent and transfers it, the second finds `A` present and skips. -/
def schedAA : List Label :=
  [.main (.Manifest (.ok manifestAA)), .main .tick, .main .tick, .main .tick, .main .tick,
   .main .tick, .main .tick,
   .worker 0 .tick, .worker 0 (.HasLayer (.ok false)),
   .worker 0 (.DownloadLayerLength (some 1) 100 none),
   .worker 0 (.UploadLayer none), .worker 0 .tick,
   .worker 0 .tick, .worker 0 (.HasLayer (.ok true)),
   .worker 0 .tick, .main .tick, .main (.PutManifest none)]

/-- Schedule of a job without workers: fetch of `manifestA`, one send, close,
wait, upload of the manifest. -/
def schedNoWorkers : List Label :=
  [.main (.Manifest (.ok manifestA)), .main .tick, .main .tick, .main .tick, .main .tick,
   .main .tick, .main (.PutManifest none)]

/-- State a schedule leads to, the entry state when the schedule cannot run. -/
def finalState (d : Dupe) (name tag : String) (ls : List Label) : State :=
  (run (Copy d name tag) ls).getD (Copy d name tag)

/-- Configuration with concurrency 0. -/
def configZero : DupeConfig :=
  { UrlFrom := "https://src.example", UrlTo := "https://dst.example", UserFrom := "",
    UserTo := "", PasswordFrom := "", PasswordTo := "", Threads := 0, Debug := false }

/-- Options as parsed from a command line that asks for the version and gives
none of the required options. -/
def optsVersionOnly : Opts :=
  { Debug := false, DoVersion := true, Source := "", Destination := "",
    ManifestName := "", ManifestTag := "", Concurrency := 4 }

/-- Options of a complete command line with concurrency 1. -/
def optsCopy : Opts :=
  { Debug := false, DoVersion := false, Source := "https://src.example",
    Destination := "https://dst.example", ManifestName := "app", ManifestTag := "v1",
    Concurrency := 1 }

/-- Job that `New` returns for the options `opts` when both connections
succeed. -/
def exampleJobOf (opts : Opts) : Dupe :=
  { manifestName := "", manifestTag := "", manifest := none,
    fromReg := { URL := opts.Source, Username := "", Password := "" },
    toReg := { URL := opts.Destination, Username := "", Password := "" },
    threads := opts.Concurrency }

/-! ## Soundness of the relation -/

theorem copyManifest_sound {s s' : State} {err : Option Err} (hx : s.exit = none)
    (hpc : s.pc = .put) (h : copyManifest s err = some s') : Step s s' := by
  unfold copyManifest at h
  split at h
  · cases h
  · rename_i m hm
    split at h <;> (injection h with h; subst h)
    · exact Step.putOk s m hx hpc hm
    · exact Step.putErr s m _ hx hpc hm

theorem stepMain_sound {s s' : State} {r : Resp} (hx : s.exit = none)
    (h : stepMain s r = some s') : Step s s' := by
  unfold stepMain at h
  split at h
  · rename_i res hpc
    split at h <;> (injection h with h; subst h)
    · exact Step.fetchOk s _ hx hpc
    · exact Step.fetchErr s _ hx hpc
  · rename_i hpc
    injection h with h; subst h
    exact Step.fetchExit s hx hpc
  · rename_i i hpc
    split at h <;> (injection h with h; subst h)
    · rename_i hlt
      exact Step.spawnGo s i hx hpc hlt
    · rename_i hge
      exact Step.spawnEnd s i hx hpc hge
  · rename_i k hpc
    split at h
    · rename_i layer hl
      split at h
      · rename_i hcap
        injection h with h; subst h
        exact Step.sendGo s k layer hx hpc hl hcap
      · cases h
    · rename_i hl
      injection h with h; subst h
      exact Step.sendEnd s k hx hpc hl
  · rename_i hpc
    injection h with h; subst h
    exact Step.close s hx hpc
  · rename_i hpc
    split at h
    · rename_i hwg
      injection h with h; subst h
      exact Step.wait s hx hpc hwg
    · cases h
  · rename_i err hpc
    exact copyManifest_sound hx hpc h
  · rename_i hpc
    injection h with h; subst h
    exact Step.putExit s hx hpc
  · cases h

theorem copyLayer_sound {s s' : State} {j : Nat} {w : WorkerPc} {r : Resp}
    (hx : s.exit = none) (hw : s.workers[j]? = some w)
    (h : copyLayer s j w r = some s') : Step s s' := by
  unfold copyLayer at h
  split at h
  · rename_i t res
    split at h <;> (injection h with h; subst h)
    · exact Step.hasErr s j t _ hx hw
    · exact Step.hasTrue s j t hx hw
    · exact Step.hasFalse s j t hx hw
  · rename_i t reader len err
    split at h <;> (injection h with h; subst h)
    · exact Step.dlSome s j t _ len err hx hw
    · exact Step.dlNone s j t len err hx hw
  · rename_i t rd len err
    injection h with h; subst h
    exact Step.upload s j t rd len err hx hw
  · rename_i t rd
    injection h with h; subst h
    exact Step.closing s j t rd hx hw
  · rename_i t
    injection h with h; subst h
    exact Step.hasExit s j t hx hw
  · rename_i t
    injection h with h; subst h
    exact Step.readerExit s j t hx hw
  · cases h

theorem stepWorker_sound {s s' : State} {j : Nat} {r : Resp} (hx : s.exit = none)
    (h : stepWorker s j r = some s') : Step s s' := by
  unfold stepWorker at h
  split at h
  · cases h
  · cases h
  · rename_i hw
    split at h
    · split at h
      · rename_i t q ht
        injection h with h; subst h
        exact Step.recvGo s j t q hx hw ht
      · rename_i ht
        split at h
        · rename_i hc
          injection h with h; subst h
          exact Step.recvEnd s j hx hw ht hc
        · cases h
    · cases h
  · rename_i w _ _ hw
    exact copyLayer_sound hx hw h

theorem step_sound {s s' : State} {l : Label} (h : step s l = some s') : Step s s' := by
  unfold step at h
  split at h
  · cases h
  · rename_i hx
    cases l with
    | main r => exact stepMain_sound hx h
    | worker j r => exact stepWorker_sound hx h

theorem run_reach {s s' : State} {ls : List Label} (h : run s ls = some s') : Reach s s' := by
  suffices H : ∀ (ls : List Label) (s0 s1 s2 : State), Reach s0 s1 → run s1 ls = some s2 →
      Reach s0 s2 from H ls s s s' Reach.refl h
  intro ls
  induction ls with
  | nil =>
    intro s0 s1 s2 h1 h2
    simp only [run] at h2
    injection h2 with h2
    subst h2
    exact h1
  | cons l ls ih =>
    intro s0 s1 s2 h1 h2
    simp only [run] at h2
    split at h2
    · rename_i s3 h3
      exact ih s0 s3 s2 (Reach.tail s1 s3 h1 (step_sound h3)) h2
    · cases h2

/-! ## Events of one work item -/

theorem layerEvents_append (i : Nat) (tr evs : List Event) :
    layerEvents i (tr ++ evs) = layerEvents i tr ++ layerEvents i evs := by
  simp [layerEvents, List.filter_append]

theorem layerEvents_same {k : Nat} {evs : List Event}
    (h : ∀ e ∈ evs, e.index? = some k) : layerEvents k evs = evs := by
  unfold layerEvents
  rw [List.filter_eq_self]
  intro e he
  simp [h e he]

theorem layerEvents_other {i k : Nat} {evs : List Event}
    (h : ∀ e ∈ evs, e.index? = some k) (hik : i ≠ k) : layerEvents i evs = [] := by
  unfold layerEvents
  rw [List.filter_eq_nil_iff]
  intro e he
  simp [h e he]
  exact fun hh => hik hh.symm

theorem layerEvents_main {i : Nat} {e : Event} (h : e.index? = none) :
    layerEvents i [e] = [] := by
  simp [layerEvents, List.filter, h]

theorem mem_layerEvents {i : Nat} {tr : List Event} {e : Event} :
    e ∈ layerEvents i tr ↔ e ∈ tr ∧ e.index? = some i := by
  simp [layerEvents]

theorem set_getElem? {ws : List WorkerPc} {j j' : Nat} {w w' w'' : WorkerPc}
    (hw : ws[j]? = some w) (h : (ws.set j w')[j']? = some w'') :
    (j = j' ∧ w'' = w') ∨ (j ≠ j' ∧ ws[j']? = some w'') := by
  rw [List.getElem?_set] at h
  by_cases hj : j = j'
  · left
    have hlt : j < ws.length := by
      rcases List.getElem?_eq_some.mp hw with ⟨hlt, _⟩
      exact hlt
    simp [hj] at h
    rw [← hj] at h
    exact ⟨hj, (h.2).symm⟩
  · right
    simp [hj] at h
    exact ⟨hj, h⟩

theorem set_getElem?_self {ws : List WorkerPc} {j : Nat} {w w' : WorkerPc}
    (hw : ws[j]? = some w) : (ws.set j w')[j]? = some w' := by
  have hlt : j < ws.length := by
    rcases List.getElem?_eq_some.mp hw with ⟨hlt, _⟩
    exact hlt
  rw [List.getElem?_set]
  simp [hlt]

theorem LayerInv.congr {name : String} {a : Nat} {L : List FSLayer} {ws : List WorkerPc}
    {tr tr' : List Event} (h : LayerInv name a L ws tr)
    (heq : ∀ i, layerEvents i tr' = layerEvents i tr) : LayerInv name a L ws tr' := by
  refine ⟨?_, ?_, h.distinct, ?_⟩
  · intro i hi
    rw [heq]
    exact h.pending i hi
  · intro j w t hw ht
    rw [heq]
    exact h.held j w t hw ht
  · intro i hi
    rw [heq]
    exact h.retired i hi

theorem LayerInv.mainEvent {name : String} {a : Nat} {L : List FSLayer} {ws : List WorkerPc}
    {tr : List Event} (h : LayerInv name a L ws tr) {e : Event} (he : e.index? = none) :
    LayerInv name a L ws (tr ++ [e]) := by
  apply h.congr
  intro i
  rw [layerEvents_append, layerEvents_main he, List.append_nil]

theorem LayerInv.start {name : String} {L : List FSLayer} {tr : List Event}
    (h : ∀ i, layerEvents i tr = []) : LayerInv name 0 L [] tr := by
  refine ⟨fun i _ => h i, ?_, ?_, ?_⟩
  · intro j w t hw
    simp at hw
  · intro j j' w w' t t' hw
    simp at hw
  · intro i hi
    omega

theorem LayerInv.spawn {name : String} {a : Nat} {L : List FSLayer} {ws : List WorkerPc}
    {tr : List Event} (h : LayerInv name a L ws tr) :
    LayerInv name a L (ws ++ [.recv]) tr := by
  have key : ∀ (j : Nat) (w : WorkerPc) (t : worker),
      (ws ++ [WorkerPc.recv])[j]? = some w → w.task? = some t →
      ws[j]? = some w := by
    intro j w t hw ht
    by_cases hj : j < ws.length
    · rw [List.getElem?_append_left hj] at hw
      exact hw
    · rw [List.getElem?_append_right (by omega)] at hw
      by_cases h0 : j - ws.length = 0
      · rw [h0] at hw
        simp at hw
        subst hw
        simp [WorkerPc.task?] at ht
      · have : ([WorkerPc.recv] : List WorkerPc)[j - ws.length]? = none := by
          apply List.getElem?_eq_none
          simp
          omega
        rw [this] at hw
        cases hw
  refine ⟨h.pending, ?_, ?_, ?_⟩
  · intro j w t hw ht
    exact h.held j w t (key j w t hw ht) ht
  · intro j j' w w' t t' hw hw' ht ht' hidx
    exact h.distinct j j' w w' t t' (key j w t hw ht) (key j' w' t' hw' ht') ht ht' hidx
  · intro i hi
    rcases h.retired i hi with ⟨j, w, t, hw, ht, hidx⟩ | hr
    · left
      refine ⟨j, w, t, ?_, ht, hidx⟩
      have hlt : j < ws.length := by
        rcases List.getElem?_eq_some.mp hw with ⟨hlt, _⟩
        exact hlt
      rw [List.getElem?_append_left hlt]
      exact hw
    · right
      exact hr

theorem LayerInv.idle {name : String} {a : Nat} {L : List FSLayer} {ws : List WorkerPc}
    {tr : List Event} (h : LayerInv name a L ws tr) {j : Nat} {w w' : WorkerPc}
    (hw : ws[j]? = some w) (ht : w.task? = none) (ht' : w'.task? = none) :
    LayerInv name a L (ws.set j w') tr := by
  have key : ∀ (j1 : Nat) (w1 : WorkerPc) (t1 : worker),
      (ws.set j w')[j1]? = some w1 → w1.task? = some t1 →
      j ≠ j1 ∧ ws[j1]? = some w1 := by
    intro j1 w1 t1 h1 ht1
    rcases set_getElem? hw h1 with ⟨_, hw1⟩ | hne
    · subst hw1
      rw [ht'] at ht1
      cases ht1
    · exact hne
  refine ⟨h.pending, ?_, ?_, ?_⟩
  · intro j1 w1 t1 h1 ht1
    exact h.held j1 w1 t1 (key j1 w1 t1 h1 ht1).2 ht1
  · intro j1 j2 w1 w2 t1 t2 h1 h2 ht1 ht2 hidx
    exact h.distinct j1 j2 w1 w2 t1 t2 (key j1 w1 t1 h1 ht1).2 (key j2 w2 t2 h2 ht2).2
      ht1 ht2 hidx
  · intro i hi
    rcases h.retired i hi with ⟨j0, w0, t0, hw0, ht0, hidx⟩ | hr
    · left
      refine ⟨j0, w0, t0, ?_, ht0, hidx⟩
      have hne : j ≠ j0 := by
        intro hjj
        subst hjj
        rw [hw] at hw0
        injection hw0 with hw0
        subst hw0
        rw [ht] at ht0
        cases ht0
      rw [List.getElem?_set_ne hne]
      exact hw0
    · right
      exact hr

theorem LayerInv.local {name : String} {a : Nat} {L : List FSLayer} {ws : List WorkerPc}
    {tr : List Event} (h : LayerInv name a L ws tr) {j : Nat} {w w' : WorkerPc} {t : worker}
    {evs : List Event} (hw : ws[j]? = some w) (ht : w.task? = some t)
    (hevs : ∀ e ∈ evs, e.index? = some t.index)
    (hnext : (w'.task? = some t ∧ Form name w' (layerEvents t.index tr ++ evs)) ∨
      (w'.task? = none ∧ Retired name t (layerEvents t.index tr ++ evs))) :
    LayerInv name a L (ws.set j w') (tr ++ evs) := by
  obtain ⟨hta, htl, _⟩ := h.held j w t hw ht
  have hsame : layerEvents t.index (tr ++ evs) = layerEvents t.index tr ++ evs := by
    rw [layerEvents_append, layerEvents_same hevs]
  have hother : ∀ i, i ≠ t.index → layerEvents i (tr ++ evs) = layerEvents i tr := by
    intro i hi
    rw [layerEvents_append, layerEvents_other hevs hi, List.append_nil]
  have key : ∀ (j1 : Nat) (w1 : WorkerPc) (t1 : worker),
      (ws.set j w')[j1]? = some w1 → w1.task? = some t1 →
      (j = j1 ∧ w1 = w' ∧ t1 = t) ∨ (j ≠ j1 ∧ ws[j1]? = some w1 ∧ t1.index ≠ t.index) := by
    intro j1 w1 t1 h1 ht1
    rcases set_getElem? hw h1 with ⟨hj, hw1⟩ | ⟨hj, hw1⟩
    · left
      subst hw1
      rcases hnext with ⟨hn, _⟩ | ⟨hn, _⟩
      · rw [hn] at ht1
        injection ht1 with ht1
        exact ⟨hj, rfl, ht1.symm⟩
      · rw [hn] at ht1
        cases ht1
    · right
      refine ⟨hj, hw1, ?_⟩
      intro hidx
      exact hj (h.distinct j j1 w w1 t t1 hw hw1 ht ht1 hidx.symm)
  refine ⟨?_, ?_, ?_, ?_⟩
  · intro i hi
    rw [hother i (by omega)]
    exact h.pending i hi
  · intro j1 w1 t1 h1 ht1
    rcases key j1 w1 t1 h1 ht1 with ⟨_, hw1, htt⟩ | ⟨_, hw1, hne⟩
    · subst hw1
      subst htt
      refine ⟨hta, htl, ?_⟩
      rw [hsame]
      rcases hnext with ⟨_, hf⟩ | ⟨hn, _⟩
      · exact hf
      · rw [hn] at ht1
        cases ht1
    · rw [hother _ hne]
      exact h.held j1 w1 t1 hw1 ht1
  · intro j1 j2 w1 w2 t1 t2 h1 h2 ht1 ht2 hidx
    rcases key j1 w1 t1 h1 ht1 with ⟨hj1, _, htt1⟩ | ⟨_, hw1, hne1⟩
    · rcases key j2 w2 t2 h2 ht2 with ⟨hj2, _, _⟩ | ⟨_, _, hne2⟩
      · omega
      · exfalso
        apply hne2
        rw [← hidx, htt1]
    · rcases key j2 w2 t2 h2 ht2 with ⟨_, _, htt2⟩ | ⟨_, hw2, _⟩
      · exfalso
        apply hne1
        rw [hidx, htt2]
      · exact h.distinct j1 j2 w1 w2 t1 t2 hw1 hw2 ht1 ht2 hidx
  · intro i hi
    by_cases hit : i = t.index
    · rcases hnext with ⟨hn, _⟩ | ⟨_, hr⟩
      · left
        exact ⟨j, w', t, set_getElem?_self hw, hn, hit.symm⟩
      · right
        refine ⟨t.layer, ?_, ?_⟩
        · rw [hit]
          exact htl
        · rw [hit, hsame]
          exact hr
    · rcases h.retired i hi with ⟨j0, w0, t0, hw0, ht0, hidx⟩ | hr
      · left
        refine ⟨j0, w0, t0, ?_, ht0, hidx⟩
        have hne : j ≠ j0 := by
          intro hjj
          subst hjj
          rw [hw] at hw0
          injection hw0 with hw0
          subst hw0
          rw [ht] at ht0
          injection ht0 with ht0
          subst ht0
          exact hit hidx.symm
        rw [List.getElem?_set_ne hne]
        exact hw0
      · right
        rw [hother i hit]
        exact hr

theorem LayerInv.recv {name : String} {a : Nat} {L : List FSLayer} {ws : List WorkerPc}
    {tr : List Event} (h : LayerInv name a L ws tr) {j : Nat} {l : FSLayer}
    (hw : ws[j]? = some .recv) (hl : L[a]? = some l) :
    LayerInv name (a + 1) L (ws.set j (.hasLayer { index := a, layer := l }))
      (tr ++ [.copyLayer a l]) := by
  have hevs : ∀ e ∈ [Event.copyLayer a l], e.index? = some a := by
    intro e he
    simp at he
    subst he
    rfl
  have hsame : layerEvents a (tr ++ [.copyLayer a l]) = [.copyLayer a l] := by
    rw [layerEvents_append, layerEvents_same hevs, h.pending a (Nat.le_refl a)]
    rfl
  have hother : ∀ i, i ≠ a → layerEvents i (tr ++ [.copyLayer a l]) = layerEvents i tr := by
    intro i hi
    rw [layerEvents_append, layerEvents_other hevs hi, List.append_nil]
  have key : ∀ (j1 : Nat) (w1 : WorkerPc) (t1 : worker),
      (ws.set j (.hasLayer { index := a, layer := l }))[j1]? = some w1 →
      w1.task? = some t1 →
      (j = j1 ∧ w1 = .hasLayer { index := a, layer := l } ∧ t1 = { index := a, layer := l }) ∨
      (j ≠ j1 ∧ ws[j1]? = some w1 ∧ t1.index < a) := by
    intro j1 w1 t1 h1 ht1
    rcases set_getElem? hw h1 with ⟨hj, hw1⟩ | ⟨hj, hw1⟩
    · left
      subst hw1
      simp [WorkerPc.task?] at ht1
      exact ⟨hj, rfl, ht1.symm⟩
    · right
      exact ⟨hj, hw1, (h.held j1 w1 t1 hw1 ht1).1⟩
  refine ⟨?_, ?_, ?_, ?_⟩
  · intro i hi
    rw [hother i (by omega)]
    exact h.pending i (by omega)
  · intro j1 w1 t1 h1 ht1
    rcases key j1 w1 t1 h1 ht1 with ⟨_, hw1, htt⟩ | ⟨_, hw1, hlt⟩
    · subst hw1
      subst htt
      refine ⟨Nat.lt_succ_self a, hl, ?_⟩
      show layerEvents a (tr ++ [Event.copyLayer a l]) = [Event.copyLayer a l]
      exact hsame
    · obtain ⟨h1a, h1b, h1c⟩ := h.held j1 w1 t1 hw1 ht1
      refine ⟨by omega, h1b, ?_⟩
      rw [hother _ (by omega)]
      exact h1c
  · intro j1 j2 w1 w2 t1 t2 h1 h2 ht1 ht2 hidx
    rcases key j1 w1 t1 h1 ht1 with ⟨hj1, _, htt1⟩ | ⟨_, hw1, hlt1⟩
    · rcases key j2 w2 t2 h2 ht2 with ⟨hj2, _, _⟩ | ⟨_, _, hlt2⟩
      · omega
      · exfalso
        rw [htt1] at hidx
        simp at hidx
        omega
    · rcases key j2 w2 t2 h2 ht2 with ⟨_, _, htt2⟩ | ⟨_, hw2, _⟩
      · exfalso
        rw [htt2] at hidx
        simp at hidx
        omega
      · exact h.distinct j1 j2 w1 w2 t1 t2 hw1 hw2 ht1 ht2 hidx
  · intro i hi
    by_cases hia : i = a
    · left
      exact ⟨j, _, { index := a, layer := l }, set_getElem?_self hw, rfl, hia.symm⟩
    · rcases h.retired i (by omega) with ⟨j0, w0, t0, hw0, ht0, hidx⟩ | hr
      · left
        refine ⟨j0, w0, t0, ?_, ht0, hidx⟩
        have hne : j ≠ j0 := by
          intro hjj
          subst hjj
          rw [hw] at hw0
          injection hw0 with hw0
          subst hw0
          simp [WorkerPc.task?] at ht0
        rw [List.getElem?_set_ne hne]
        exact hw0
      · right
        rw [hother i hia]
        exact hr

/-! ## Preservation of the invariant -/

theorem countP_set_add (p : WorkerPc → Bool) (ws : List WorkerPc) (j : Nat) (w w' : WorkerPc)
    (hw : ws[j]? = some w) :
    (ws.set j w').countP p + (if p w then 1 else 0) =
      ws.countP p + (if p w' then 1 else 0) := by
  induction ws generalizing j with
  | nil => simp at hw
  | cons x xs ih =>
    cases j with
    | zero =>
      simp at hw
      subst hw
      simp only [List.set_cons_zero, List.countP_cons]
      omega
    | succ j =>
      simp at hw
      have := ih j hw
      simp only [List.set_cons_succ, List.countP_cons]
      omega

theorem mainEvents_append (tr evs : List Event) :
    mainEvents (tr ++ evs) = mainEvents tr ++ mainEvents evs := by
  simp [mainEvents, List.filter_append]

theorem mainEvents_layer {evs : List Event} {k : Nat}
    (h : ∀ e ∈ evs, e.index? = some k) : mainEvents evs = [] := by
  unfold mainEvents
  rw [List.filter_eq_nil_iff]
  intro e he
  simp [h e he]

theorem step_static {T : Int} {name tag : String} {s s' : State}
    (h : CtlInv T name tag s) (hs : Step s s') :
    s'.dupe.threads = T ∧ s'.dupe.manifestName = name ∧ s'.dupe.manifestTag = tag := by
  cases hs <;> exact ⟨h.hthreads, h.hname, h.htag⟩

theorem sendEnd_all {T : Int} {name tag : String} {s : State} {k : Nat}
    (h : CtlInv T name tag s) (hpc : s.pc = .send k) (hl : s.layers[k]? = none) :
    k = s.layers.length := by
  have h1 := h.sentLe
  simp only [sent, hpc] at h1
  have h2 : s.layers.length ≤ k := by
    by_contra hc
    have hlt : k < s.layers.length := by omega
    rw [List.getElem?_eq_getElem hlt] at hl
    cases hl
  omega

theorem step_taken {T : Int} {name tag : String} {s s' : State}
    (h : CtlInv T name tag s) (hs : Step s s') :
    taken s' = taken s + (if s'.tasks.length < s.tasks.length then 1 else 0) := by
  have hq := h.queueLen
  have hle := h.sentLe
  cases hs
  case recvGo j t q hx hw ht =>
    show sent s - q.length = sent s - s.tasks.length + (if q.length < s.tasks.length then 1 else 0)
    rw [ht] at hq ⊢
    simp only [List.length_cons] at hq ⊢
    simp
    omega
  case sendGo k layer hx hpc hl hcap =>
    have e1 : sent s = k := by simp only [sent, hpc]
    show (k + 1) - (s.tasks ++ [_]).length = sent s - s.tasks.length +
      (if (s.tasks ++ [_]).length < s.tasks.length then 1 else 0)
    simp only [List.length_append, List.length_singleton]
    simp
    omega
  case sendEnd k hx hpc hl =>
    have e1 : sent s = k := by simp only [sent, hpc]
    have := sendEnd_all h hpc hl
    show s.layers.length - s.tasks.length = sent s - s.tasks.length +
      (if s.tasks.length < s.tasks.length then 1 else 0)
    simp
    omega
  case fetchOk m hx hpc =>
    have e1 : sent s = 0 := by simp only [sent, hpc]
    show 0 - s.tasks.length = sent s - s.tasks.length +
      (if s.tasks.length < s.tasks.length then 1 else 0)
    simp
    omega
  case fetchErr e hx hpc =>
    have e1 : sent s = 0 := by simp only [sent, hpc]
    show 0 - s.tasks.length = sent s - s.tasks.length +
      (if s.tasks.length < s.tasks.length then 1 else 0)
    simp
    omega
  case spawnGo i hx hpc hlt =>
    have e1 : sent s = 0 := by simp only [sent, hpc]
    show 0 - s.tasks.length = sent s - s.tasks.length +
      (if s.tasks.length < s.tasks.length then 1 else 0)
    simp
    omega
  case spawnEnd i hx hpc hlt =>
    have e1 : sent s = 0 := by simp only [sent, hpc]
    show 0 - s.tasks.length = sent s - s.tasks.length +
      (if s.tasks.length < s.tasks.length then 1 else 0)
    simp
    omega
  case close hx hpc =>
    have e1 : sent s = s.layers.length := by simp only [sent, hpc]
    show s.layers.length - s.tasks.length = sent s - s.tasks.length +
      (if s.tasks.length < s.tasks.length then 1 else 0)
    simp
    omega
  case wait hx hpc hwg =>
    have e1 : sent s = s.layers.length := by simp only [sent, hpc]
    show s.layers.length - s.tasks.length = sent s - s.tasks.length +
      (if s.tasks.length < s.tasks.length then 1 else 0)
    simp
    omega
  case putOk m hx hpc hm =>
    have e1 : sent s = s.layers.length := by simp only [sent, hpc]
    show s.layers.length - s.tasks.length = sent s - s.tasks.length +
      (if s.tasks.length < s.tasks.length then 1 else 0)
    simp
    omega
  case putErr m e hx hpc hm =>
    have e1 : sent s = s.layers.length := by simp only [sent, hpc]
    show s.layers.length - s.tasks.length = sent s - s.tasks.length +
      (if s.tasks.length < s.tasks.length then 1 else 0)
    simp
    omega
  all_goals
    show taken s = taken s + (if s.tasks.length < s.tasks.length then 1 else 0)
    simp

theorem step_queueLen {T : Int} {name tag : String} {s s' : State}
    (h : CtlInv T name tag s) (hs : Step s s') :
    s'.tasks.length ≤ sent s' ∧ sent s' ≤ s'.layers.length := by
  have hq := h.queueLen
  have hle := h.sentLe
  cases hs
  case sendEnd k hx hpc hl =>
    have := sendEnd_all h hpc hl
    simp_all [sent, State.layers]
  case sendGo k layer hx hpc hl hcap =>
    have hlt : k < s.layers.length := by
      rcases List.getElem?_eq_some.mp hl with ⟨hlt, _⟩
      exact hlt
    simp_all [sent, State.layers]
    omega
  case recvGo j t q hx hw ht =>
    have e : sent s - 0 = sent s := rfl
    show q.length ≤ sent s ∧ sent s ≤ s.layers.length
    rw [ht] at hq
    simp only [List.length_cons] at hq
    omega
  all_goals simp_all [sent, State.layers]

theorem step_queueIdx {T : Int} {name tag : String} {s s' : State}
    (h : CtlInv T name tag s) (hs : Step s s') :
    s'.tasks.map (fun t => t.index) = List.range' (taken s') s'.tasks.length := by
  have hq := h.queueLen
  have hi := h.queueIdx
  have htk := step_taken h hs
  rw [htk]
  cases hs
  case recvGo j t q hx hw hts =>
    show q.map (fun (t : worker) => t.index) =
      List.range' (taken s + (if q.length < s.tasks.length then 1 else 0)) q.length
    rw [hts] at hi ⊢
    simp only [List.length_cons, List.map_cons, List.range'_succ] at hi ⊢
    simp
    injection hi
  case sendGo k layer hx hpc hl hcap =>
    have e1 : sent s = k := by simp only [sent, hpc]
    show (s.tasks ++ [_]).map (fun (t : worker) => t.index) =
      List.range' (taken s + (if (s.tasks ++ [_]).length < s.tasks.length then 1 else 0))
        (s.tasks ++ [_]).length
    simp only [List.length_append, List.length_singleton, List.map_append, List.map_cons,
      List.map_nil, List.range'_concat]
    simp
    rw [hi]
    simp [taken]
    omega
  all_goals
    simp
    exact hi

theorem step_queueLayer {T : Int} {name tag : String} {s s' : State}
    (h : CtlInv T name tag s) (hs : Step s s') :
    ∀ t ∈ s'.tasks, s'.layers[t.index]? = some t.layer := by
  have hq := h.queueLen
  have hi := h.queueLayer
  cases hs
  case recvGo j t q hx hw ht =>
    intro t' ht'
    exact hi t' (by rw [ht]; exact List.mem_cons_of_mem _ ht')
  case sendGo k layer hx hpc hl hcap =>
    intro t' ht'
    simp only [List.mem_append, List.mem_singleton] at ht'
    rcases ht' with ht' | ht'
    · exact hi t' ht'
    · subst ht'
      exact hl
  case fetchOk m hx hpc =>
    simp only [sent, hpc] at hq
    have : s.tasks = [] := List.eq_nil_of_length_eq_zero (by omega)
    intro t' ht'
    simp [this] at ht'
  case fetchErr e hx hpc =>
    simp only [sent, hpc] at hq
    have : s.tasks = [] := List.eq_nil_of_length_eq_zero (by omega)
    intro t' ht'
    simp [this] at ht'
  all_goals exact hi

theorem step_wg {T : Int} {name tag : String} {s s' : State}
    (h : CtlInv T name tag s) (hs : Step s s') :
    s'.wg = s'.workers.countP WorkerPc.running := by
  have hwg := h.wg
  cases hs
  case spawnGo i hx hpc hlt =>
    show s.wg + 1 = (s.workers ++ [WorkerPc.recv]).countP WorkerPc.running
    rw [List.countP_append, hwg]
    rfl
  case recvEnd j hx hw hts hc =>
    have := countP_set_add WorkerPc.running s.workers j .recv .exited hw
    show s.wg - 1 = (s.workers.set j .exited).countP WorkerPc.running
    simp [WorkerPc.running] at this
    omega
  case recvGo j t q hx hw hts =>
    have := countP_set_add WorkerPc.running s.workers j _ (.hasLayer t) hw
    simp [WorkerPc.running] at this
    exact hwg.trans this.symm
  case hasErr j t e hx hw =>
    have := countP_set_add WorkerPc.running s.workers j _ (.hasFatal t) hw
    simp [WorkerPc.running] at this
    exact hwg.trans this.symm
  case hasTrue j t hx hw =>
    have := countP_set_add WorkerPc.running s.workers j _ .recv hw
    simp [WorkerPc.running] at this
    exact hwg.trans this.symm
  case hasFalse j t hx hw =>
    have := countP_set_add WorkerPc.running s.workers j _ (.download t) hw
    simp [WorkerPc.running] at this
    exact hwg.trans this.symm
  case dlSome j t rd len err hx hw =>
    have := countP_set_add WorkerPc.running s.workers j _ (.upload t rd len) hw
    simp [WorkerPc.running] at this
    exact hwg.trans this.symm
  case dlNone j t len err hx hw =>
    have := countP_set_add WorkerPc.running s.workers j _ (.readerFatal t) hw
    simp [WorkerPc.running] at this
    exact hwg.trans this.symm
  case upload j t rd len err hx hw =>
    have := countP_set_add WorkerPc.running s.workers j _ (.closing t rd) hw
    simp [WorkerPc.running] at this
    exact hwg.trans this.symm
  case closing j t rd hx hw =>
    have := countP_set_add WorkerPc.running s.workers j _ .recv hw
    simp [WorkerPc.running] at this
    exact hwg.trans this.symm
  all_goals exact hwg

theorem step_closed {T : Int} {name tag : String} {s s' : State}
    (h : CtlInv T name tag s) (hs : Step s s') :
    s'.closed = s'.pc.pastClose := by
  have hc := h.closed
  cases hs <;> simp_all [CopyPc.pastClose]

theorem step_barrier {T : Int} {name tag : String} {s s' : State}
    (h : CtlInv T name tag s) (hs : Step s s') :
    s'.pc.pastWait = true → s'.wg = 0 := by
  have hc := h.barrier
  cases hs <;> simp_all [CopyPc.pastWait]

theorem step_nworkers {T : Int} {name tag : String} {s s' : State}
    (h : CtlInv T name tag s) (hs : Step s s') :
    NWorkers T s'.pc s'.workers.length := by
  have hn := h.nworkers
  have hT := h.hthreads
  cases hs
  case spawnGo i hx hpc hlt =>
    simp only [hpc, NWorkers] at hn
    simp only [NWorkers, List.length_append, List.length_singleton]
    omega
  case spawnEnd i hx hpc hlt =>
    simp only [hpc, NWorkers] at hn
    simp only [NWorkers]
    omega
  all_goals simp_all [NWorkers]

theorem step_exitOne {T : Int} {name tag : String} {s s' : State}
    (_h : CtlInv T name tag s) (hs : Step s s') :
    ∀ c, s'.exit = some c → c = 1 ∧ Fatal s' := by
  intro c hc
  cases hs
  case fetchExit hx hpc =>
    injection hc with hc
    exact ⟨hc.symm, Or.inl hpc⟩
  case putExit hx hpc =>
    injection hc with hc
    exact ⟨hc.symm, Or.inr (Or.inl hpc)⟩
  case hasExit j t hx hw =>
    injection hc with hc
    exact ⟨hc.symm, Or.inr (Or.inr ⟨j, t, Or.inl hw⟩)⟩
  case readerExit j t hx hw =>
    injection hc with hc
    exact ⟨hc.symm, Or.inr (Or.inr ⟨j, t, Or.inr hw⟩)⟩
  all_goals simp_all

theorem step_exitedEmpty {T : Int} {name tag : String} {s s' : State}
    (h : CtlInv T name tag s) (hs : Step s s') :
    ∀ (j : Nat), s'.workers[j]? = some .exited → s'.tasks = [] ∧ s'.closed = true := by
  have he := h.exitedEmpty
  have hc := h.closed
  have key : ∀ (j j' : Nat) (w w' : WorkerPc), s.workers[j]? = some w → w' ≠ .exited →
      (s.workers.set j w')[j']? = some .exited → s.workers[j']? = some .exited := by
    intro j j' w w' hw hne hj
    rcases set_getElem? hw hj with ⟨_, h1⟩ | ⟨_, h1⟩
    · exact absurd h1.symm hne
    · exact h1
  intro j' hj'
  cases hs
  case spawnGo i hx hpc hlt =>
    have : s.workers[j']? = some .exited := by
      by_cases hlt' : j' < s.workers.length
      · rw [List.getElem?_append_left hlt'] at hj'
        exact hj'
      · rw [List.getElem?_append_right (by omega)] at hj'
        by_cases h0 : j' - s.workers.length = 0
        · rw [h0] at hj'
          simp at hj'
        · have hnone : ([WorkerPc.recv] : List WorkerPc)[j' - s.workers.length]? = none := by
            apply List.getElem?_eq_none
            simp
            omega
          rw [hnone] at hj'
          cases hj'
    exact he j' this
  case sendGo k layer hx hpc hl hcap =>
    have := (he j' hj').2
    rw [hc, hpc] at this
    simp [CopyPc.pastClose] at this
  case recvGo j t q hx hw hts =>
    have := (he j' (key j j' _ _ hw (by simp) hj')).1
    rw [hts] at this
    cases this
  case recvEnd j hx hw hts hcl => exact ⟨hts, hcl⟩
  case close hx hpc => exact ⟨(he j' hj').1, rfl⟩
  case hasErr j t e hx hw => exact he j' (key j j' _ _ hw (by simp) hj')
  case hasTrue j t hx hw => exact he j' (key j j' _ _ hw (by simp) hj')
  case hasFalse j t hx hw => exact he j' (key j j' _ _ hw (by simp) hj')
  case dlSome j t rd len err hx hw => exact he j' (key j j' _ _ hw (by simp) hj')
  case dlNone j t len err hx hw => exact he j' (key j j' _ _ hw (by simp) hj')
  case upload j t rd len err hx hw => exact he j' (key j j' _ _ hw (by simp) hj')
  case closing j t rd hx hw => exact he j' (key j j' _ _ hw (by simp) hj')
  all_goals exact he j' hj'

theorem step_mainForm {T : Int} {name tag : String} {s s' : State}
    (h : CtlInv T name tag s) (hs : Step s s') :
    MainForm name tag s'.dupe.manifest (mainEvents s'.trace) s'.pc := by
  have hm := h.mainForm
  have hname := h.hname
  have htag := h.htag
  have hlayer : ∀ (evs : List Event) (k : Nat), (∀ e ∈ evs, e.index? = some k) →
      MainForm name tag s.dupe.manifest (mainEvents (s.trace ++ evs)) s.pc := by
    intro evs k hk
    rw [mainEvents_append, mainEvents_layer hk, List.append_nil]
    exact hm
  cases hs
  case fetchOk m hx hpc =>
    rw [hpc] at hm
    simp only [MainForm] at hm ⊢
    refine ⟨m, rfl, ?_⟩
    rw [mainEvents_append, hm, hname, htag]
    rfl
  case fetchErr e hx hpc =>
    rw [hpc] at hm
    simp only [MainForm] at hm ⊢
    refine ⟨e, ?_⟩
    rw [mainEvents_append, hm, hname, htag]
    rfl
  case putOk m hx hpc hman =>
    rw [hpc] at hm
    simp only [MainForm] at hm ⊢
    obtain ⟨m', hm1, hm2⟩ := hm
    rw [hman] at hm1
    injection hm1 with hm1
    subst hm1
    refine ⟨m, hman, ?_⟩
    rw [mainEvents_append, hm2, hname, htag]
    rfl
  case putErr m e hx hpc hman =>
    rw [hpc] at hm
    simp only [MainForm] at hm ⊢
    obtain ⟨m', hm1, hm2⟩ := hm
    rw [hman] at hm1
    injection hm1 with hm1
    subst hm1
    refine ⟨m, e, hman, ?_⟩
    rw [mainEvents_append, hm2, hname, htag]
    rfl
  case recvGo j t q hx hw hts =>
    exact hlayer _ t.index (by simp [Event.index?])
  case hasErr j t e hx hw =>
    exact hlayer _ t.index (by simp [Event.index?])
  case hasTrue j t hx hw =>
    exact hlayer _ t.index (by simp [Event.index?])
  case hasFalse j t hx hw =>
    exact hlayer _ t.index (by simp [Event.index?])
  case dlSome j t rd len err hx hw =>
    exact hlayer _ t.index (by simp [Event.index?])
  case dlNone j t len err hx hw =>
    exact hlayer _ t.index (by simp [Event.index?])
  case upload j t rd len err hx hw =>
    exact hlayer _ t.index (by simp [Event.index?])
  case closing j t rd hx hw =>
    exact hlayer _ t.index (by simp [Event.index?])
  case spawnGo i hx hpc hlt =>
    rw [hpc] at hm
    exact hm
  case spawnEnd i hx hpc hlt =>
    rw [hpc] at hm
    exact hm
  case sendGo k layer hx hpc hl hcap =>
    rw [hpc] at hm
    exact hm
  case sendEnd k hx hpc hl =>
    rw [hpc] at hm
    exact hm
  case close hx hpc =>
    rw [hpc] at hm
    exact hm
  case wait hx hpc hwg =>
    rw [hpc] at hm
    exact hm
  all_goals exact hm

theorem step_layerInv {T : Int} {name tag : String} {s s' : State}
    (h : Inv T name tag s) (hs : Step s s') :
    LayerInv name (taken s') s'.layers s'.workers s'.trace := by
  have hl := h.layer
  have hname := h.ctl.hname
  have htk := step_taken h.ctl hs
  have hq := h.ctl.queueLen
  have hn := h.ctl.nworkers
  have hqi := h.ctl.queueIdx
  have hql := h.ctl.queueLayer
  subst hname
  cases hs
  case fetchOk m hx hpc =>
    have e : taken _ = taken s := htk.trans (by simp)
    rw [e]
    simp only [sent, hpc] at hq
    simp only [hpc, NWorkers] at hn
    have hw : s.workers = [] := List.eq_nil_of_length_eq_zero hn
    have ha : taken s = 0 := by
      simp only [taken, sent, hpc]
      omega
    rw [ha] at hl ⊢
    show LayerInv _ 0 _ s.workers _
    rw [hw]
    apply LayerInv.start
    intro i
    have hm : ∀ ev : Event, ev.index? = none → layerEvents i (s.trace ++ [ev]) = [] := by
      intro ev hev
      rw [layerEvents_append, layerEvents_main hev, List.append_nil]
      exact hl.pending i (Nat.zero_le i)
    exact hm _ rfl
  case fetchErr e hx hpc =>
    have e : taken _ = taken s := htk.trans (by simp)
    rw [e]
    simp only [sent, hpc] at hq
    simp only [hpc, NWorkers] at hn
    have hw : s.workers = [] := List.eq_nil_of_length_eq_zero hn
    have ha : taken s = 0 := by
      simp only [taken, sent, hpc]
      omega
    rw [ha] at hl ⊢
    show LayerInv _ 0 _ s.workers _
    rw [hw]
    apply LayerInv.start
    intro i
    have hm : ∀ ev : Event, ev.index? = none → layerEvents i (s.trace ++ [ev]) = [] := by
      intro ev hev
      rw [layerEvents_append, layerEvents_main hev, List.append_nil]
      exact hl.pending i (Nat.zero_le i)
    exact hm _ rfl
  case putOk m hx hpc hman =>
    have e : taken _ = taken s := htk.trans (by simp)
    rw [e]
    exact hl.mainEvent rfl
  case putErr m e hx hpc hman =>
    have e : taken _ = taken s := htk.trans (by simp)
    rw [e]
    exact hl.mainEvent rfl
  case spawnGo i hx hpc hlt =>
    have e : taken _ = taken s := htk.trans (by simp)
    rw [e]
    exact hl.spawn
  case recvGo j t q hx hw hts =>
    have e : taken _ = taken s + 1 := htk.trans (by simp [hts])
    rw [e]
    rw [hts] at hqi
    simp only [List.length_cons, List.map_cons, List.range'_succ] at hqi
    injection hqi with hidx _
    have hlay := hql t (by rw [hts]; exact List.mem_cons_self _ _)
    rw [hidx] at hlay
    have := hl.recv hw hlay
    rw [← hidx] at this ⊢
    exact this
  case recvEnd j hx hw hts hc =>
    have e : taken _ = taken s := htk.trans (by simp)
    rw [e]
    exact hl.idle hw rfl rfl
  case hasErr j t e hx hw =>
    have e : taken _ = taken s := htk.trans (by simp)
    rw [e]
    obtain ⟨_, _, hf⟩ := hl.held j _ t hw rfl
    simp only [Form] at hf
    refine hl.local hw rfl (by simp [Event.index?]) (Or.inl ⟨rfl, ?_⟩)
    rw [hf]
    exact ⟨_, rfl⟩
  case hasTrue j t hx hw =>
    have e : taken _ = taken s := htk.trans (by simp)
    rw [e]
    obtain ⟨_, _, hf⟩ := hl.held j _ t hw rfl
    simp only [Form] at hf
    refine hl.local hw rfl (by simp [Event.index?]) (Or.inr ⟨rfl, ?_⟩)
    rw [hf]
    exact Or.inl rfl
  case hasFalse j t hx hw =>
    have e : taken _ = taken s := htk.trans (by simp)
    rw [e]
    obtain ⟨_, _, hf⟩ := hl.held j _ t hw rfl
    simp only [Form] at hf
    refine hl.local hw rfl (by simp [Event.index?]) (Or.inl ⟨rfl, ?_⟩)
    rw [hf]
    rfl
  case dlSome j t rd len err hx hw =>
    have e : taken _ = taken s := htk.trans (by simp)
    rw [e]
    obtain ⟨_, _, hf⟩ := hl.held j _ t hw rfl
    simp only [Form] at hf
    refine hl.local hw rfl (by simp [Event.index?]) (Or.inl ⟨rfl, ?_⟩)
    rw [hf]
    exact ⟨_, rfl⟩
  case dlNone j t len err hx hw =>
    have e : taken _ = taken s := htk.trans (by simp)
    rw [e]
    obtain ⟨_, _, hf⟩ := hl.held j _ t hw rfl
    simp only [Form] at hf
    refine hl.local hw rfl (by simp [Event.index?]) (Or.inl ⟨rfl, ?_⟩)
    rw [hf]
    exact ⟨_, _, rfl⟩
  case upload j t rd len err hx hw =>
    have e : taken _ = taken s := htk.trans (by simp)
    rw [e]
    obtain ⟨_, _, hf⟩ := hl.held j _ t hw rfl
    simp only [Form] at hf
    obtain ⟨derr, hf⟩ := hf
    refine hl.local hw rfl (by simp [Event.index?]) (Or.inl ⟨rfl, ?_⟩)
    rw [hf]
    exact ⟨_, _, _, rfl⟩
  case closing j t rd hx hw =>
    have e : taken _ = taken s := htk.trans (by simp)
    rw [e]
    obtain ⟨_, _, hf⟩ := hl.held j _ t hw rfl
    simp only [Form] at hf
    obtain ⟨len, derr, uerr, hf⟩ := hf
    refine hl.local hw rfl (by simp [Event.index?]) (Or.inr ⟨rfl, ?_⟩)
    rw [hf]
    exact Or.inr ⟨_, _, _, _, rfl⟩
  all_goals
    have e : taken _ = taken s := htk.trans (by simp)
    rw [e]
    exact hl

theorem step_inv {T : Int} {name tag : String} {s s' : State}
    (h : Inv T name tag s) (hs : Step s s') : Inv T name tag s' := by
  have hst := step_static h.ctl hs
  have hq := step_queueLen h.ctl hs
  refine ⟨⟨hst.1, hst.2.1, hst.2.2, hq.1, hq.2, step_queueIdx h.ctl hs,
    step_queueLayer h.ctl hs, step_wg h.ctl hs, step_closed h.ctl hs,
    step_exitedEmpty h.ctl hs, step_barrier h.ctl hs, step_nworkers h.ctl hs,
    step_mainForm h.ctl hs, step_exitOne h.ctl hs⟩, step_layerInv h hs⟩

theorem inv_Copy (d : Dupe) (name tag : String) : Inv d.threads name tag (Copy d name tag) := by
  refine ⟨⟨rfl, rfl, rfl, ?_, ?_, ?_, ?_, ?_, ?_, ?_, ?_, ?_, ?_, ?_⟩, ?_⟩
  · simp [Copy, sent]
  · simp [Copy, sent]
  · simp [Copy, taken, sent]
  · simp [Copy]
  · simp [Copy]
  · simp [Copy, CopyPc.pastClose]
  · simp [Copy]
  · simp [Copy, CopyPc.pastWait]
  · simp [Copy, NWorkers]
  · simp [Copy, MainForm, mainEvents]
  · simp [Copy]
  · have : taken (Copy d name tag) = 0 := by simp [Copy, taken, sent]
    rw [this]
    apply LayerInv.start
    intro i
    simp [Copy, layerEvents]

theorem reach_inv {T : Int} {name tag : String} {s0 s : State}
    (h0 : Inv T name tag s0) (h : Reach s0 s) : Inv T name tag s := by
  induction h with
  | refl => exact h0
  | tail s1 s2 _ hs ih => exact step_inv ih hs

theorem run_inv {d : Dupe} {name tag : String} {ls : List Label} {s : State}
    (h : run (Copy d name tag) ls = some s) : Inv d.threads name tag s :=
  reach_inv (inv_Copy d name tag) (run_reach h)

/-! ## Consequences of the invariant -/

theorem all_exited_of_wg {T : Int} {name tag : String} {s : State}
    (h : CtlInv T name tag s) (hwg : s.wg = 0) :
    ∀ (j : Nat) (w : WorkerPc), s.workers[j]? = some w → w = .exited := by
  intro j w hw
  have hc := h.wg
  rw [hwg] at hc
  have hz := List.countP_eq_zero.mp hc.symm w (List.mem_iff_getElem?.mpr ⟨j, hw⟩)
  cases w <;> simp [WorkerPc.running] at hz ⊢

theorem sent_pastWait {s : State} (hp : s.pc.pastWait = true) : sent s = s.layers.length := by
  unfold sent
  cases hpc : s.pc <;> simp [hpc, CopyPc.pastWait] at hp ⊢

theorem nworkers_pastWait {T : Int} {name tag : String} {s : State}
    (h : CtlInv T name tag s) (hp : s.pc.pastWait = true) :
    (s.workers.length : Int) = max T 0 := by
  have hn := h.nworkers
  cases hpc : s.pc <;> simp [hpc, CopyPc.pastWait, NWorkers] at hp hn ⊢ <;> exact hn

/-- After the barrier every taken work item has returned. -/
theorem retired_pastWait {T : Int} {name tag : String} {s : State}
    (h : Inv T name tag s) (hp : s.pc.pastWait = true) :
    ∀ i, i < taken s → ∃ l, s.layers[i]? = some l ∧
      Retired name { index := i, layer := l } (layerEvents i s.trace) := by
  intro i hi
  have hall := all_exited_of_wg h.ctl (h.ctl.barrier hp)
  rcases h.layer.retired i hi with ⟨j, w, t, hw, ht, _⟩ | hr
  · have := hall j w hw
    subst this
    simp [WorkerPc.task?] at ht
  · exact hr

/-- With at least one thread, every work item has been taken once the barrier
is passed. -/
theorem taken_pastWait {T : Int} {name tag : String} {s : State}
    (h : Inv T name tag s) (hT : 1 ≤ T) (hp : s.pc.pastWait = true) :
    taken s = s.layers.length := by
  have hall := all_exited_of_wg h.ctl (h.ctl.barrier hp)
  have hn := nworkers_pastWait h.ctl hp
  have hlen : 0 < s.workers.length := by omega
  have hw0 : s.workers[0]? = some (s.workers[0]) := List.getElem?_eq_getElem hlen
  have hex := hall 0 _ hw0
  rw [hex] at hw0
  have hempty := (h.ctl.exitedEmpty 0 hw0).1
  unfold taken
  rw [hempty, sent_pastWait hp]
  rfl

theorem mem_trace_of_layerEvents {i : Nat} {tr : List Event} {e : Event}
    (h : e ∈ layerEvents i tr) : e ∈ tr := (mem_layerEvents.mp h).1

/-- Shape of the events of any work item in a reachable state. -/
theorem layerEvents_cases {T : Int} {name tag : String} {s : State}
    (h : Inv T name tag s) (i : Nat) :
    layerEvents i s.trace = [] ∨
    ∃ l, s.layers[i]? = some l ∧
      (Retired name { index := i, layer := l } (layerEvents i s.trace) ∨
       ∃ (j : Nat) (w : WorkerPc), s.workers[j]? = some w ∧
         w.task? = some { index := i, layer := l } ∧ Form name w (layerEvents i s.trace)) := by
  by_cases hi : i < taken s
  · right
    rcases h.layer.retired i hi with ⟨j, w, t, hw, ht, hidx⟩ | ⟨l, hl, hr⟩
    · obtain ⟨_, htl, hf⟩ := h.layer.held j w t hw ht
      subst hidx
      exact ⟨t.layer, htl, Or.inr ⟨j, w, hw, ht, hf⟩⟩
    · exact ⟨l, hl, Or.inl hr⟩
  · left
    exact h.layer.pending i (by omega)

/-! ## Ordering of the manifest upload after the layers -/

theorem step_trace {s s' : State} (hs : Step s s') :
    ∃ evs, s'.trace = s.trace ++ evs ∧
      ∀ e ∈ evs, e.isPutManifest = true →
        s.pc = .put ∧ evs = [e] ∧ ∃ m err, s.dupe.manifest = some m ∧
          e = .PutManifest s.dupe.manifestName s.dupe.manifestTag m err := by
  cases hs
  case putOk m hx hpc hman =>
    refine ⟨[_], rfl, ?_⟩
    intro e he _
    simp only [List.mem_singleton] at he
    subst he
    exact ⟨hpc, rfl, m, none, hman, rfl⟩
  case putErr m e hx hpc hman =>
    refine ⟨[_], rfl, ?_⟩
    intro e' he _
    simp only [List.mem_singleton] at he
    subst he
    exact ⟨hpc, rfl, m, some e, hman, rfl⟩
  case fetchOk m hx hpc =>
    exact ⟨[_], rfl, by simp [Event.isPutManifest]⟩
  case fetchErr e hx hpc =>
    exact ⟨[_], rfl, by simp [Event.isPutManifest]⟩
  case recvGo j t q hx hw hts =>
    exact ⟨[_], rfl, by simp [Event.isPutManifest]⟩
  case hasErr j t e hx hw =>
    exact ⟨[_], rfl, by simp [Event.isPutManifest]⟩
  case hasTrue j t hx hw =>
    exact ⟨[_, _], rfl, by simp [Event.isPutManifest]⟩
  case hasFalse j t hx hw =>
    exact ⟨[_], rfl, by simp [Event.isPutManifest]⟩
  case dlSome j t rd len err hx hw =>
    exact ⟨[_], rfl, by simp [Event.isPutManifest]⟩
  case dlNone j t len err hx hw =>
    exact ⟨[_], rfl, by simp [Event.isPutManifest]⟩
  case upload j t rd len err hx hw =>
    exact ⟨[_], rfl, by simp [Event.isPutManifest]⟩
  case closing j t rd hx hw =>
    exact ⟨[_, _], rfl, by simp [Event.isPutManifest]⟩
  all_goals exact ⟨[], (List.append_nil _).symm, by simp⟩

theorem mem_of_mainEvents {tr : List Event} {e : Event} (h : e ∈ mainEvents tr) : e ∈ tr := by
  unfold mainEvents at h
  exact (List.mem_filter.mp h).1

/-- At the `PutManifest` call site of a job with at least one thread, the
manifest has been fetched and every layer reference has been retired. -/
theorem retired_at_put {T : Int} {name tag : String} {s : State} {m : SignedManifest}
    (h : Inv T name tag s) (hT : 1 ≤ T) (hpc : s.pc = .put) (hm : s.dupe.manifest = some m) :
    Event.Manifest name tag (.ok m) ∈ s.trace ∧
    ∀ (i : Nat) (layer : FSLayer), m.FSLayers[i]? = some layer →
      Retired name { index := i, layer := layer } (layerEvents i s.trace) := by
  have hp : s.pc.pastWait = true := by simp [hpc, CopyPc.pastWait]
  constructor
  · have hmf := h.ctl.mainForm
    rw [hpc] at hmf
    simp only [MainForm] at hmf
    obtain ⟨m', hm1, hm2⟩ := hmf
    rw [hm] at hm1
    injection hm1 with hm1
    subst hm1
    apply mem_of_mainEvents
    rw [hm2]
    exact List.mem_singleton.mpr rfl
  · intro i layer hl
    have hlay : s.layers = m.FSLayers := by simp [State.layers, hm]
    have hi : i < taken s := by
      rw [taken_pastWait h hT hp, hlay]
      rcases List.getElem?_eq_some.mp hl with ⟨hlt, _⟩
      exact hlt
    obtain ⟨l, hl', hr⟩ := retired_pastWait h hp i hi
    rw [hlay, hl] at hl'
    injection hl' with hl'
    subst hl'
    exact hr

theorem put_order {d : Dupe} {name tag : String} {s : State} (hT : 1 ≤ d.threads)
    (h : Reach (Copy d name tag) s) :
    ∀ (pre post : List Event) (n t : String) (m : SignedManifest) (err : Option Err),
      s.trace = pre ++ Event.PutManifest n t m err :: post →
      Event.Manifest name tag (.ok m) ∈ pre ∧
      ∀ (i : Nat) (layer : FSLayer), m.FSLayers[i]? = some layer →
        Retired name { index := i, layer := layer } (layerEvents i pre) := by
  induction h with
  | refl =>
    intro pre post n t m err htr
    simp [Copy] at htr
  | tail s1 s2 hr hs ih =>
    intro pre post n t m err htr
    have hinv := reach_inv (inv_Copy d name tag) hr
    obtain ⟨evs, hevs, hput⟩ := step_trace hs
    rw [hevs] at htr
    have hnew : Event.PutManifest n t m err ∈ evs → pre = s1.trace →
        Event.Manifest name tag (.ok m) ∈ pre ∧
        ∀ (i : Nat) (layer : FSLayer), m.FSLayers[i]? = some layer →
          Retired name { index := i, layer := layer } (layerEvents i pre) := by
      intro hmem hpre
      obtain ⟨hpc, _, m', err', hm', he⟩ := hput _ hmem rfl
      injection he with _ _ hmm _
      subst hmm
      rw [hpre]
      exact retired_at_put hinv hT hpc hm'
    rcases List.append_eq_append_iff.mp htr with ⟨a', ha1, ha2⟩ | ⟨c', hc1, hc2⟩
    · have hmem : Event.PutManifest n t m err ∈ evs := by
        rw [ha2]
        simp
      apply hnew hmem
      obtain ⟨_, hone, _⟩ := hput _ hmem rfl
      rw [hone] at ha2
      have hlen := congrArg List.length ha2
      simp only [List.length_append, List.length_cons, List.length_nil] at hlen
      have ha' : a' = [] := List.eq_nil_of_length_eq_zero (by omega)
      rw [ha1, ha', List.append_nil]
    · cases c' with
      | nil =>
        have hmem : Event.PutManifest n t m err ∈ evs := by
          simp at hc2
          rw [← hc2]
          exact List.mem_cons_self _ _
        apply hnew hmem
        rw [hc1, List.append_nil]
      | cons x c'' =>
        simp at hc2
        obtain ⟨hx, _⟩ := hc2
        subst hx
        exact ih pre c'' n t m err hc1

/-! ## Existence-check failures -/

theorem retired_mem {name : String} {t : worker} {evs : List Event}
    (h : Retired name t evs) :
    Event.copyLayer t.index t.layer ∈ evs ∧ Event.copyLayerReturn t.index ∈ evs := by
  rcases h with h | ⟨rd, len, err, uerr, h⟩
  · subst h
    simp [skippedEvents]
  · subst h
    simp [copiedEvents]

/-- A failed `HasLayer` call leaves its worker inside `log.Fatalf`. -/
theorem hasLayer_error_worker {T : Int} {name tag : String} {s : State} {i : Nat}
    {n : String} {dg : Digest} {e : Err} (h : Inv T name tag s)
    (herr : Event.HasLayer i n dg (.error e) ∈ s.trace) :
    ∃ (j : Nat) (t : worker), s.workers[j]? = some (.hasFatal t) ∧ t.index = i ∧
      layerEvents i s.trace =
        [.copyLayer t.index t.layer, .HasLayer t.index name t.layer.BlobSum (.error e)] := by
  have hmem : Event.HasLayer i n dg (.error e) ∈ layerEvents i s.trace :=
    mem_layerEvents.mpr ⟨herr, rfl⟩
  rcases layerEvents_cases h i with hnil | ⟨l, _, hr | ⟨j, w, hw, ht, hf⟩⟩
  · rw [hnil] at hmem
    cases hmem
  · rcases hr with hr | ⟨rd, len, err, uerr, hr⟩
    · rw [hr] at hmem
      simp [skippedEvents] at hmem
    · rw [hr] at hmem
      simp [copiedEvents] at hmem
  · cases w with
    | recv => simp [WorkerPc.task?] at ht
    | exited => simp [WorkerPc.task?] at ht
    | hasLayer t =>
      simp only [Form] at hf
      rw [hf] at hmem
      simp at hmem
    | download t =>
      simp only [Form] at hf
      rw [hf] at hmem
      simp at hmem
    | upload t rd len =>
      simp only [Form] at hf
      obtain ⟨err, hf⟩ := hf
      rw [hf] at hmem
      simp at hmem
    | closing t rd =>
      simp only [Form] at hf
      obtain ⟨len, err, uerr, hf⟩ := hf
      rw [hf] at hmem
      simp at hmem
    | readerFatal t =>
      simp only [Form] at hf
      obtain ⟨len, err, hf⟩ := hf
      rw [hf] at hmem
      simp at hmem
    | hasFatal t =>
      simp only [Form] at hf
      obtain ⟨e', hf⟩ := hf
      simp only [WorkerPc.task?, Option.some.injEq] at ht
      have hidx : t.index = i := by rw [ht]
      rw [hf] at hmem
      simp at hmem
      refine ⟨j, t, hw, hidx, ?_⟩
      rw [hf, hmem.2.2.2]

/-- A worker that has not called `wg.Done()` keeps `Copy` before the barrier. -/
theorem not_pastWait_of_running {T : Int} {name tag : String} {s : State} {j : Nat}
    {w : WorkerPc} (h : CtlInv T name tag s) (hw : s.workers[j]? = some w)
    (hr : w.running = true) : s.pc.pastWait = false := by
  by_contra hp
  have hp' : s.pc.pastWait = true := by
    cases hb : s.pc.pastWait
    · exact absurd hb hp
    · rfl
  have := all_exited_of_wg h (h.barrier hp') j w hw
  subst this
  simp [WorkerPc.running] at hr

/-- No `PutManifest` call has been made before the barrier is passed. -/
theorem no_put_before_barrier {T : Int} {name tag : String} {s : State}
    (h : CtlInv T name tag s) (hp : s.pc.pastWait = false) :
    ∀ e ∈ s.trace, e.isPutManifest = false := by
  intro e he
  cases hput : e.isPutManifest
  · rfl
  · exfalso
    have hidx : e.index? = none := by
      cases e <;> simp [Event.isPutManifest] at hput
      rfl
    have hmem : e ∈ mainEvents s.trace := by
      unfold mainEvents
      exact List.mem_filter.mpr ⟨he, by simp [hidx]⟩
    have hmf := h.mainForm
    have hdefault : (∃ m, s.dupe.manifest = some m ∧
        mainEvents s.trace = [Event.Manifest name tag (.ok m)]) → False := by
      rintro ⟨m, _, hm⟩
      rw [hm] at hmem
      simp at hmem
      subst hmem
      simp [Event.isPutManifest] at hput
    cases hpc : s.pc
    case fetch =>
      rw [hpc] at hmf
      simp only [MainForm] at hmf
      rw [hmf] at hmem
      cases hmem
    case fetchFatal =>
      rw [hpc] at hmf
      simp only [MainForm] at hmf
      obtain ⟨e', hmf⟩ := hmf
      rw [hmf] at hmem
      simp at hmem
      subst hmem
      simp [Event.isPutManifest] at hput
    case spawn i =>
      rw [hpc] at hmf
      exact hdefault hmf
    case send k =>
      rw [hpc] at hmf
      exact hdefault hmf
    case close =>
      rw [hpc] at hmf
      exact hdefault hmf
    case wait =>
      rw [hpc] at hmf
      exact hdefault hmf
    case put =>
      rw [hpc] at hp
      simp [CopyPc.pastWait] at hp
    case putFatal =>
      rw [hpc] at hp
      simp [CopyPc.pastWait] at hp
    case done =>
      rw [hpc] at hp
      simp [CopyPc.pastWait] at hp

/-! ## Manifest upload and reader release -/

theorem filter_isPut_main (tr : List Event) :
    tr.filter Event.isPutManifest = (mainEvents tr).filter Event.isPutManifest := by
  unfold mainEvents
  rw [List.filter_filter]
  apply List.filter_congr
  intro e _
  cases e <;> simp [Event.isPutManifest, Event.index?]

/-- Events of the main goroutine once `Copy` has returned. -/
theorem mainEvents_done {T : Int} {name tag : String} {s : State}
    (h : CtlInv T name tag s) (hdone : s.pc = .done) :
    ∃ m, s.dupe.manifest = some m ∧
      mainEvents s.trace = [.Manifest name tag (.ok m), .PutManifest name tag m none] := by
  have hmf := h.mainForm
  rw [hdone] at hmf
  simpa only [MainForm] using hmf

/-- Events of a work item for which a reader has been obtained. -/
theorem reader_cases {T : Int} {name tag : String} {s : State} {i : Nat} {n : String}
    {dg : Digest} {rd : Reader} {len : Int} {err : Option Err} (h : Inv T name tag s)
    (hdl : Event.DownloadLayerLength i n dg (some rd) len err ∈ s.trace) :
    ∃ (layer : FSLayer) (uerr : Option Err), s.layers[i]? = some layer ∧
      (layerEvents i s.trace = (copiedEvents name { index := i, layer := layer } rd len err uerr).take 3 ∨
       layerEvents i s.trace = (copiedEvents name { index := i, layer := layer } rd len err uerr).take 4 ∨
       layerEvents i s.trace = copiedEvents name { index := i, layer := layer } rd len err uerr) := by
  have hmem : Event.DownloadLayerLength i n dg (some rd) len err ∈ layerEvents i s.trace :=
    mem_layerEvents.mpr ⟨hdl, rfl⟩
  rcases layerEvents_cases h i with hnil | ⟨l, hl, hr | ⟨j, w, hw, ht, hf⟩⟩
  · rw [hnil] at hmem
    cases hmem
  · rcases hr with hr | ⟨rd', len', err', uerr', hr⟩
    · rw [hr] at hmem
      simp [skippedEvents] at hmem
    · rw [hr] at hmem
      simp [copiedEvents] at hmem
      obtain ⟨_, _, h3, h4, h5⟩ := hmem
      subst h3 h4 h5
      exact ⟨l, uerr', hl, Or.inr (Or.inr hr)⟩
  · cases w with
    | recv => simp [WorkerPc.task?] at ht
    | exited => simp [WorkerPc.task?] at ht
    | hasLayer t =>
      simp only [Form] at hf
      rw [hf] at hmem
      simp at hmem
    | download t =>
      simp only [Form] at hf
      rw [hf] at hmem
      simp at hmem
    | hasFatal t =>
      simp only [Form] at hf
      obtain ⟨e', hf⟩ := hf
      rw [hf] at hmem
      simp at hmem
    | readerFatal t =>
      simp only [Form] at hf
      obtain ⟨len', err', hf⟩ := hf
      rw [hf] at hmem
      simp at hmem
    | upload t rd' len' =>
      simp only [Form] at hf
      obtain ⟨err', hf⟩ := hf
      simp only [WorkerPc.task?, Option.some.injEq] at ht
      subst ht
      rw [hf] at hmem
      simp at hmem
      obtain ⟨_, _, h3, h4, h5⟩ := hmem
      subst h3 h4 h5
      exact ⟨l, none, hl, Or.inl hf⟩
    | closing t rd' =>
      simp only [Form] at hf
      obtain ⟨len', err', uerr', hf⟩ := hf
      simp only [WorkerPc.task?, Option.some.injEq] at ht
      subst ht
      rw [hf] at hmem
      simp at hmem
      obtain ⟨_, _, h3, h4, h5⟩ := hmem
      subst h3 h4 h5
      exact ⟨l, uerr', hl, Or.inr (Or.inl hf)⟩

/-! ## Which layers are transferred -/

/-- All shapes the events of a work item can have: none, a completed call
(skipped or copied), or, while some worker is still running, the beginning of
a call. -/
theorem layerEvents_shape {T : Int} {name tag : String} {s : State}
    (h : Inv T name tag s) (i : Nat) :
    layerEvents i s.trace = [] ∨
    ∃ (l : FSLayer) (rd : Reader) (len : Int) (err uerr : Option Err) (e : Err),
      s.layers[i]? = some l ∧
      ((layerEvents i s.trace = skippedEvents name { index := i, layer := l } ∨
        layerEvents i s.trace = copiedEvents name { index := i, layer := l } rd len err uerr) ∨
       (s.pc.pastWait = false ∧
        (layerEvents i s.trace =
            (copiedEvents name { index := i, layer := l } rd len err uerr).take 1 ∨
         layerEvents i s.trace =
            (copiedEvents name { index := i, layer := l } rd len err uerr).take 2 ∨
         layerEvents i s.trace =
            (copiedEvents name { index := i, layer := l } rd len err uerr).take 3 ∨
         layerEvents i s.trace =
            (copiedEvents name { index := i, layer := l } rd len err uerr).take 4 ∨
         layerEvents i s.trace =
            [.copyLayer i l, .HasLayer i name l.BlobSum (.error e)] ∨
         layerEvents i s.trace =
            [.copyLayer i l, .HasLayer i name l.BlobSum (.ok false),
             .DownloadLayerLength i name l.BlobSum none len err]))) := by
  rcases layerEvents_cases h i with hnil | ⟨l, hl, hr | ⟨j, w, hw, ht, hf⟩⟩
  · exact Or.inl hnil
  · right
    rcases hr with hr | ⟨rd, len, err, uerr, hr⟩
    · exact ⟨l, 0, 0, none, none, "", hl, Or.inl (Or.inl hr)⟩
    · exact ⟨l, rd, len, err, uerr, "", hl, Or.inl (Or.inr hr)⟩
  · right
    cases w with
    | recv => simp [WorkerPc.task?] at ht
    | exited => simp [WorkerPc.task?] at ht
    | hasLayer t =>
      have hp := not_pastWait_of_running h.ctl hw (by simp [WorkerPc.running])
      simp only [WorkerPc.task?, Option.some.injEq] at ht
      subst ht
      simp only [Form] at hf
      exact ⟨l, 0, 0, none, none, "", hl, Or.inr ⟨hp, Or.inl hf⟩⟩
    | download t =>
      have hp := not_pastWait_of_running h.ctl hw (by simp [WorkerPc.running])
      simp only [WorkerPc.task?, Option.some.injEq] at ht
      subst ht
      simp only [Form] at hf
      exact ⟨l, 0, 0, none, none, "", hl, Or.inr ⟨hp, Or.inr (Or.inl hf)⟩⟩
    | upload t rd len =>
      have hp := not_pastWait_of_running h.ctl hw (by simp [WorkerPc.running])
      simp only [WorkerPc.task?, Option.some.injEq] at ht
      subst ht
      simp only [Form] at hf
      obtain ⟨err, hf⟩ := hf
      exact ⟨l, rd, len, err, none, "", hl, Or.inr ⟨hp, Or.inr (Or.inr (Or.inl hf))⟩⟩
    | closing t rd =>
      have hp := not_pastWait_of_running h.ctl hw (by simp [WorkerPc.running])
      simp only [WorkerPc.task?, Option.some.injEq] at ht
      subst ht
      simp only [Form] at hf
      obtain ⟨len, err, uerr, hf⟩ := hf
      exact ⟨l, rd, len, err, uerr, "", hl,
        Or.inr ⟨hp, Or.inr (Or.inr (Or.inr (Or.inl hf)))⟩⟩
    | hasFatal t =>
      have hp := not_pastWait_of_running h.ctl hw (by simp [WorkerPc.running])
      simp only [WorkerPc.task?, Option.some.injEq] at ht
      subst ht
      simp only [Form] at hf
      obtain ⟨e, hf⟩ := hf
      exact ⟨l, 0, 0, none, none, e, hl,
        Or.inr ⟨hp, Or.inr (Or.inr (Or.inr (Or.inr (Or.inl hf))))⟩⟩
    | readerFatal t =>
      have hp := not_pastWait_of_running h.ctl hw (by simp [WorkerPc.running])
      simp only [WorkerPc.task?, Option.some.injEq] at ht
      subst ht
      simp only [Form] at hf
      obtain ⟨len, err, hf⟩ := hf
      exact ⟨l, 0, len, err, none, "", hl,
        Or.inr ⟨hp, Or.inr (Or.inr (Or.inr (Or.inr (Or.inr hf))))⟩⟩

/-- An `UploadLayer` call is made only for a layer of the manifest whose
`HasLayer` call answered false. -/
theorem upload_has_false {T : Int} {name tag : String} {s : State} {i : Nat} {n : String}
    {dg : Digest} {rd : Reader} {uerr : Option Err} (h : Inv T name tag s)
    (hup : Event.UploadLayer i n dg rd uerr ∈ s.trace) :
    ∃ l, s.layers[i]? = some l ∧ n = name ∧ dg = l.BlobSum ∧
      Event.HasLayer i name l.BlobSum (.ok false) ∈ s.trace := by
  have hmem : Event.UploadLayer i n dg rd uerr ∈ layerEvents i s.trace :=
    mem_layerEvents.mpr ⟨hup, rfl⟩
  rcases layerEvents_shape h i with hnil | ⟨l, rd', len, err, uerr', e, hl, hs⟩
  · rw [hnil] at hmem
    cases hmem
  · refine ⟨l, hl, ?_⟩
    rcases hs with (hs | hs) | ⟨_, hs | hs | hs | hs | hs | hs⟩ <;> rw [hs] at hmem <;>
      simp [skippedEvents, copiedEvents] at hmem
    all_goals
      refine ⟨hmem.1, hmem.2.1, ?_⟩
      apply mem_trace_of_layerEvents (i := i)
      rw [hs]
      simp [copiedEvents]

/-- A `DownloadLayerLength` call is made only for a layer of the manifest
whose `HasLayer` call answered false. -/
theorem download_has_false {T : Int} {name tag : String} {s : State} {i : Nat} {n : String}
    {dg : Digest} {ord : Option Reader} {len : Int} {err : Option Err}
    (h : Inv T name tag s)
    (hdl : Event.DownloadLayerLength i n dg ord len err ∈ s.trace) :
    ∃ l, s.layers[i]? = some l ∧ n = name ∧ dg = l.BlobSum ∧
      Event.HasLayer i name l.BlobSum (.ok false) ∈ s.trace := by
  have hmem : Event.DownloadLayerLength i n dg ord len err ∈ layerEvents i s.trace :=
    mem_layerEvents.mpr ⟨hdl, rfl⟩
  rcases layerEvents_shape h i with hnil | ⟨l, rd', len', err', uerr', e, hl, hs⟩
  · rw [hnil] at hmem
    cases hmem
  · refine ⟨l, hl, ?_⟩
    rcases hs with (hs | hs) | ⟨_, hs | hs | hs | hs | hs | hs⟩ <;> rw [hs] at hmem <;>
      simp [skippedEvents, copiedEvents] at hmem
    all_goals
      refine ⟨hmem.1, hmem.2.1, ?_⟩
      apply mem_trace_of_layerEvents (i := i)
      rw [hs]
      simp [copiedEvents]

/-- A `HasLayer` call that answered true ends the `copyLayer` call: the layer
is skipped. -/
theorem has_true_skipped {T : Int} {name tag : String} {s : State} {i : Nat} {n : String}
    {dg : Digest} (h : Inv T name tag s)
    (hh : Event.HasLayer i n dg (.ok true) ∈ s.trace) :
    ∃ l, s.layers[i]? = some l ∧ n = name ∧ dg = l.BlobSum ∧
      layerEvents i s.trace = skippedEvents name { index := i, layer := l } := by
  have hmem : Event.HasLayer i n dg (.ok true) ∈ layerEvents i s.trace :=
    mem_layerEvents.mpr ⟨hh, rfl⟩
  rcases layerEvents_shape h i with hnil | ⟨l, rd', len', err', uerr', e, hl, hs⟩
  · rw [hnil] at hmem
    cases hmem
  · refine ⟨l, hl, ?_⟩
    rcases hs with (hs | hs) | ⟨_, hs | hs | hs | hs | hs | hs⟩ <;> rw [hs] at hmem <;>
      simp [skippedEvents, copiedEvents] at hmem
    exact ⟨hmem.1, hmem.2, hs⟩

/-- After the barrier, a layer whose `HasLayer` call answered false has been
copied. -/
theorem has_false_copied {T : Int} {name tag : String} {s : State} {i : Nat} {n : String}
    {dg : Digest} (h : Inv T name tag s) (hp : s.pc.pastWait = true)
    (hh : Event.HasLayer i n dg (.ok false) ∈ s.trace) :
    ∃ l rd len err uerr, s.layers[i]? = some l ∧ n = name ∧ dg = l.BlobSum ∧
      layerEvents i s.trace = copiedEvents name { index := i, layer := l } rd len err uerr := by
  have hmem : Event.HasLayer i n dg (.ok false) ∈ layerEvents i s.trace :=
    mem_layerEvents.mpr ⟨hh, rfl⟩
  rcases layerEvents_shape h i with hnil | ⟨l, rd', len', err', uerr', e, hl, hs⟩
  · rw [hnil] at hmem
    cases hmem
  · rcases hs with (hs | hs) | ⟨hp', _⟩
    · rw [hs] at hmem
      simp [skippedEvents] at hmem
    · refine ⟨l, rd', len', err', uerr', hl, ?_⟩
      rw [hs] at hmem
      simp [copiedEvents] at hmem
      exact ⟨hmem.1, hmem.2, hs⟩
    · rw [hp] at hp'
      cases hp'

/-! ## Jobs without workers -/

theorem step_noWorkers {T : Int} {name tag : String} {s s' : State} (hT : T ≤ 0)
    (h : Inv T name tag s) (hn : NoWorkers s) (hs : Step s s') : NoWorkers s' := by
  have htk := step_taken h.ctl hs
  have hthreads := h.ctl.hthreads
  have hw := hn.workers
  have hev := hn.events
  have hcap' := hn.cap
  have hnone : ∀ (j : Nat) (w : WorkerPc), s.workers[j]? = some w → False := by
    intro j w hj
    rw [hw] at hj
    simp at hj
  cases hs
  case spawnGo i hx hpc hlt =>
    exfalso
    rw [hthreads] at hlt
    omega
  case recvGo j t q hx hwj hts => exact (hnone j _ hwj).elim
  case recvEnd j hx hwj hts hc => exact (hnone j _ hwj).elim
  case hasErr j t e hx hwj => exact (hnone j _ hwj).elim
  case hasTrue j t hx hwj => exact (hnone j _ hwj).elim
  case hasFalse j t hx hwj => exact (hnone j _ hwj).elim
  case dlSome j t rd len err hx hwj => exact (hnone j _ hwj).elim
  case dlNone j t len err hx hwj => exact (hnone j _ hwj).elim
  case upload j t rd len err hx hwj => exact (hnone j _ hwj).elim
  case closing j t rd hx hwj => exact (hnone j _ hwj).elim
  case hasExit j t hx hwj => exact (hnone j _ hwj).elim
  case readerExit j t hx hwj => exact (hnone j _ hwj).elim
  case sendGo k layer hx hpc hl hcap =>
    refine ⟨hw, ?_, hev, ?_⟩
    · rw [htk, hn.taken]
      simp
    · simp only [List.length_append, List.length_singleton]
      omega
  case fetchOk m hx hpc =>
    refine ⟨hw, ?_, ?_, hcap'⟩
    · rw [htk, hn.taken]
      simp
    · intro e he
      simp only [List.mem_append, List.mem_singleton] at he
      rcases he with he | he
      · exact hev e he
      · subst he
        rfl
  case fetchErr e hx hpc =>
    refine ⟨hw, ?_, ?_, hcap'⟩
    · rw [htk, hn.taken]
      simp
    · intro e he
      simp only [List.mem_append, List.mem_singleton] at he
      rcases he with he | he
      · exact hev e he
      · subst he
        rfl
  case putOk m hx hpc hman =>
    refine ⟨hw, ?_, ?_, hcap'⟩
    · rw [htk, hn.taken]
      simp
    · intro e he
      simp only [List.mem_append, List.mem_singleton] at he
      rcases he with he | he
      · exact hev e he
      · subst he
        rfl
  case putErr m e hx hpc hman =>
    refine ⟨hw, ?_, ?_, hcap'⟩
    · rw [htk, hn.taken]
      simp
    · intro e he
      simp only [List.mem_append, List.mem_singleton] at he
      rcases he with he | he
      · exact hev e he
      · subst he
        rfl
  all_goals
    refine ⟨hw, ?_, hev, hcap'⟩
    rw [htk, hn.taken]
    simp

theorem reach_noWorkers {d : Dupe} {name tag : String} {s : State} (hT : d.threads ≤ 0)
    (h : Reach (Copy d name tag) s) : NoWorkers s := by
  induction h with
  | refl =>
    refine ⟨rfl, ?_, ?_, ?_⟩
    · simp [Copy, taken, sent]
    · simp [Copy]
    · simp [Copy]
  | tail s1 s2 hr hs ih =>
    exact step_noWorkers hT (reach_inv (inv_Copy d name tag) hr) ih hs

/-- Without workers the channel holds everything that has been sent. -/
theorem noWorkers_tasks {T : Int} {name tag : String} {s : State}
    (h : CtlInv T name tag s) (hn : NoWorkers s) : s.tasks.length = sent s := by
  have h1 := h.queueLen
  have h2 := hn.taken
  unfold taken at h2
  omega

/-- Without workers no `UploadLayer`, `DownloadLayerLength` or `HasLayer` call
is made. -/
theorem noWorkers_calls {s : State} (hn : NoWorkers s) :
    s.trace.countP Event.isUploadLayer = 0 ∧ s.trace.countP Event.isDownload = 0 ∧
    s.trace.countP Event.isHasLayer = 0 := by
  refine ⟨?_, ?_, ?_⟩ <;>
  · rw [List.countP_eq_zero]
    intro e he hpe
    have := hn.events e he
    cases e <;> simp [Event.isUploadLayer, Event.isDownload, Event.isHasLayer,
      Event.index?] at hpe this

/-! ## A destination that keeps what is uploaded -/

theorem destStep_mono {D D' : List Digest} {e : Event} (h : destStep D e = some D') :
    ∀ dg, dg ∈ D → dg ∈ D' := by
  intro dg hdg
  unfold destStep at h
  split at h
  · split at h
    · injection h with h
      subst h
      exact hdg
    · cases h
  · injection h with h
    subst h
    exact List.mem_cons_of_mem _ hdg
  · injection h with h
    subst h
    exact hdg

theorem destRun_mono {tr : List Event} : ∀ {D D' : List Digest}, destRun D tr = some D' →
    ∀ dg, dg ∈ D → dg ∈ D' := by
  induction tr with
  | nil =>
    intro D D' h dg hdg
    simp only [destRun] at h
    injection h with h
    subst h
    exact hdg
  | cons e es ih =>
    intro D D' h dg hdg
    simp only [destRun] at h
    split at h
    · rename_i D1 h1
      exact ih h dg (destStep_mono h1 dg hdg)
    · cases h

/-- A layer reported present, or uploaded successfully, is held afterwards. -/
theorem destRun_present {tr : List Event} : ∀ {D D' : List Digest}, destRun D tr = some D' →
    ∀ (i : Nat) (n : String) (dg : Digest),
      (Event.HasLayer i n dg (.ok true) ∈ tr ∨
        ∃ rd, Event.UploadLayer i n dg rd none ∈ tr) → dg ∈ D' := by
  induction tr with
  | nil =>
    intro D D' _ i n dg hmem
    rcases hmem with hmem | ⟨rd, hmem⟩ <;> cases hmem
  | cons e es ih =>
    intro D D' h i n dg hmem
    simp only [destRun] at h
    split at h
    · rename_i D1 h1
      have hhead : (e = Event.HasLayer i n dg (.ok true) ∨
          ∃ rd, e = Event.UploadLayer i n dg rd none) → dg ∈ D1 := by
        intro he
        rcases he with he | ⟨rd, he⟩
        · subst he
          simp only [destStep] at h1
          split at h1
          · rename_i hdec
            injection h1 with h1
            subst h1
            exact of_decide_eq_true hdec
          · cases h1
        · subst he
          simp only [destStep] at h1
          injection h1 with h1
          subst h1
          exact List.mem_cons_self _ _
      rcases hmem with hmem | ⟨rd, hmem⟩
      · rcases List.mem_cons.mp hmem with he | he
        · exact destRun_mono h dg (hhead (Or.inl he.symm))
        · exact ih h i n dg (Or.inl he)
      · rcases List.mem_cons.mp hmem with he | he
        · exact destRun_mono h dg (hhead (Or.inr ⟨rd, he.symm⟩))
        · exact ih h i n dg (Or.inr ⟨rd, he⟩)
    · cases h

/-- A layer reported absent was not held at the start. -/
theorem destRun_absent {tr : List Event} : ∀ {D D' : List Digest}, destRun D tr = some D' →
    ∀ (i : Nat) (n : String) (dg : Digest),
      Event.HasLayer i n dg (.ok false) ∈ tr → dg ∉ D := by
  induction tr with
  | nil =>
    intro D D' _ i n dg hmem
    cases hmem
  | cons e es ih =>
    intro D D' h i n dg hmem
    simp only [destRun] at h
    split at h
    · rename_i D1 h1
      rcases List.mem_cons.mp hmem with he | he
      · subst he
        simp only [destStep] at h1
        split at h1
        · rename_i hdec
          exact of_decide_eq_false hdec
        · cases h1
      · intro hdg
        exact ih h i n dg he (destStep_mono h1 dg hdg)
    · cases h

/-- The manifest a run has fetched is the one held in `dupe.manifest`. -/
theorem manifest_of_fetch {T : Int} {name tag : String} {s : State} {m : SignedManifest}
    {n t : String} (h : CtlInv T name tag s)
    (hm : Event.Manifest n t (.ok m) ∈ s.trace) : s.dupe.manifest = some m := by
  have hmem : Event.Manifest n t (.ok m) ∈ mainEvents s.trace := by
    unfold mainEvents
    exact List.mem_filter.mpr ⟨hm, rfl⟩
  have hmf := h.mainForm
  have hdefault : (∃ m', s.dupe.manifest = some m' ∧
      mainEvents s.trace = [Event.Manifest name tag (.ok m')]) → s.dupe.manifest = some m := by
    rintro ⟨m', hm', hev⟩
    rw [hev] at hmem
    simp at hmem
    rw [hm', hmem.2.2]
  cases hpc : s.pc <;> rw [hpc] at hmf <;> simp only [MainForm] at hmf
  case fetch =>
    rw [hmf] at hmem
    cases hmem
  case fetchFatal =>
    obtain ⟨e, hev⟩ := hmf
    rw [hev] at hmem
    simp at hmem
  case putFatal =>
    obtain ⟨m', e, hm', hev⟩ := hmf
    rw [hev] at hmem
    simp at hmem
    rw [hm', hmem.2.2]
  case done =>
    obtain ⟨m', hm', hev⟩ := hmf
    rw [hev] at hmem
    simp at hmem
    rw [hm', hmem.2.2]
  all_goals exact hdefault hmf

/-- A completed run has made exactly one `PutManifest` call. -/
theorem put_count_done {T : Int} {name tag : String} {s : State}
    (h : CtlInv T name tag s) (hdone : s.pc = .done) :
    s.trace.countP Event.isPutManifest = 1 := by
  obtain ⟨m, _, hev⟩ := mainEvents_done h hdone
  rw [List.countP_eq_length_filter, filter_isPut_main, hev]
  rfl

/-- After a completed run with at least one thread in which no call failed,
the destination holds every layer of the manifest. -/
theorem dest_holds_layers {T : Int} {name tag : String} {s : State} {D0 D1 : List Digest}
    (h : Inv T name tag s) (hT : 1 ≤ T) (hdone : s.pc = .done)
    (hok : ∀ e ∈ s.trace, e.failed = false) (hdest : destRun D0 s.trace = some D1) :
    ∀ (i : Nat) (layer : FSLayer), s.layers[i]? = some layer → layer.BlobSum ∈ D1 := by
  intro i layer hl
  have hp : s.pc.pastWait = true := by simp [hdone, CopyPc.pastWait]
  have hi : i < taken s := by
    rw [taken_pastWait h hT hp]
    rcases List.getElem?_eq_some.mp hl with ⟨hlt, _⟩
    exact hlt
  obtain ⟨l, hl', hr⟩ := retired_pastWait h hp i hi
  rw [hl] at hl'
  injection hl' with hl'
  subst hl'
  rcases hr with hr | ⟨rd, len, err, uerr, hr⟩
  · apply destRun_present hdest i name layer.BlobSum
    left
    apply mem_trace_of_layerEvents (i := i)
    rw [hr]
    simp [skippedEvents]
  · have hmem : Event.UploadLayer i name layer.BlobSum rd uerr ∈ s.trace := by
      apply mem_trace_of_layerEvents (i := i)
      rw [hr]
      simp [copiedEvents]
    have hnone : uerr = none := by
      have := hok _ hmem
      cases uerr with
      | none => rfl
      | some x => simp [Event.failed] at this
    subst hnone
    exact destRun_present hdest i name layer.BlobSum (Or.inr ⟨rd, hmem⟩)

/-! ## Runs of a job without workers -/

theorem run_append (s : State) (l1 l2 : List Label) :
    run s (l1 ++ l2) = match run s l1 with
      | some s' => run s' l2
      | none => none := by
  induction l1 generalizing s with
  | nil => rfl
  | cons l ls ih =>
    simp only [List.cons_append, run]
    cases step s l with
    | none => rfl
    | some s1 => exact ih s1

/-- The producer loop alone sends the remaining `n` work items when the
channel has room for them. -/
theorem send_loop (n : Nat) : ∀ (s : State) (k : Nat), s.exit = none → s.pc = .send k →
    k + n = s.layers.length → s.tasks.length + n ≤ tasksCap →
    ∃ (ls : List Label) (s' : State), run s ls = some s' ∧ s'.pc = .send s.layers.length ∧
      s'.trace = s.trace ∧ s'.workers = s.workers ∧ s'.wg = s.wg ∧ s'.dupe = s.dupe ∧
      s'.exit = none := by
  induction n with
  | zero =>
    intro s k hx hpc hk _
    refine ⟨[], s, rfl, ?_, rfl, rfl, rfl, rfl, hx⟩
    rw [hpc, ← hk]
    rfl
  | succ n ih =>
    intro s k hx hpc hk hcap
    have hlt : k < s.layers.length := by omega
    have hl : s.layers[k]? = some (s.layers[k]) := List.getElem?_eq_getElem hlt
    have hstep : step s (.main .tick) =
        some { s with tasks := s.tasks ++ [{ index := k, layer := s.layers[k] }],
                      pc := .send (k + 1) } := by
      have hc : s.tasks.length < tasksCap := by omega
      simp [step, hx, stepMain, hpc, hl, hc]
    obtain ⟨ls, s', hrun, h1, h2, h3, h4, h5, h6⟩ :=
      ih { s with tasks := s.tasks ++ [{ index := k, layer := s.layers[k] }],
                  pc := .send (k + 1) } (k + 1) hx rfl
        (by show k + 1 + n = s.layers.length; omega)
        (by simp only [List.length_append, List.length_singleton]; omega)
    refine ⟨.main .tick :: ls, s', ?_, h1, h2, h3, h4, h5, h6⟩
    simp only [run, hstep]
    exact hrun

/-- From the end of the producer loop, with the wait group at zero, `Copy`
closes the channel, passes the barrier and calls `PutManifest`. -/
theorem finish_run (s : State) (m : SignedManifest) (err : Option Err) (hx : s.exit = none)
    (hpc : s.pc = .send s.layers.length) (hwg : s.wg = 0) (hm : s.dupe.manifest = some m) :
    ∃ s', run s [.main .tick, .main .tick, .main .tick, .main (.PutManifest err)] = some s' ∧
      s'.trace = s.trace ++ [.PutManifest s.dupe.manifestName s.dupe.manifestTag m err] ∧
      s'.workers = s.workers ∧ s'.exit = none ∧
      s'.pc = (match err with
        | none => CopyPc.done
        | some _ => CopyPc.putFatal) := by
  have hl : s.layers[s.layers.length]? = none := List.getElem?_eq_none (Nat.le_refl _)
  cases err with
  | none =>
    refine ⟨{ s with closed := true, pc := .done,
                     trace := s.trace ++
                       [.PutManifest s.dupe.manifestName s.dupe.manifestTag m none] },
      ?_, rfl, rfl, hx, rfl⟩
    simp [run, step, hx, stepMain, copyManifest, hpc, hl, hwg, hm]
  | some e =>
    refine ⟨{ s with closed := true, pc := .putFatal,
                     trace := s.trace ++
                       [.PutManifest s.dupe.manifestName s.dupe.manifestTag m (some e)] },
      ?_, rfl, rfl, hx, rfl⟩
    simp [run, step, hx, stepMain, copyManifest, hpc, hl, hwg, hm]

/-- A job without threads copying a manifest of at most 64 layers has a run
that fetches the manifest and uploads it, with no event in between. -/
theorem noWorkers_run (d : Dupe) (name tag : String) (m : SignedManifest) (err : Option Err)
    (hT : d.threads ≤ 0) (hN : m.FSLayers.length ≤ tasksCap) :
    ∃ (ls : List Label) (s : State), run (Copy d name tag) ls = some s ∧
      s.trace = [.Manifest name tag (.ok m), .PutManifest name tag m err] ∧
      s.workers = [] ∧ s.exit = none ∧
      s.pc = (match err with
        | none => CopyPc.done
        | some _ => CopyPc.putFatal) := by
  let s2 : State :=
    { dupe := { d with manifestName := name, manifestTag := tag, manifest := some m },
      pc := .send 0, tasks := [], closed := false, wg := 0, workers := [],
      exit := none, trace := [.Manifest name tag (.ok m)] }
  have h2 : run (Copy d name tag) [.main (.Manifest (.ok m)), .main .tick] = some s2 := by
    have : ¬ (0 : Int) < d.threads := by omega
    simp [run, step, stepMain, Copy, this, s2]
  have hlay : s2.layers = m.FSLayers := rfl
  obtain ⟨ls, s3, hrun3, hpc3, htr3, hw3, hwg3, hd3, hx3⟩ :=
    send_loop m.FSLayers.length s2 0 rfl rfl (by rw [hlay]; omega)
      (by show 0 + m.FSLayers.length ≤ tasksCap; omega)
  have hlay3 : s3.layers = s2.layers := by simp [State.layers, hd3]
  have hm3 : s3.dupe.manifest = some m := by rw [hd3]
  obtain ⟨s4, hrun4, htr4, hw4, hx4, hpc4⟩ :=
    finish_run s3 m err hx3 (by rw [hpc3, hlay3]) hwg3 hm3
  refine ⟨[.main (.Manifest (.ok m)), .main .tick] ++ ls ++
      [.main .tick, .main .tick, .main .tick, .main (.PutManifest err)], s4, ?_, ?_, ?_, hx4,
    hpc4⟩
  · rw [run_append, run_append, h2]
    simp only [hrun3]
    exact hrun4
  · rw [htr4, htr3, hd3]
    rfl
  · rw [hw4, hw3]

/-- A job without threads never gets stuck between the fetch of a manifest of
at most 64 layers and the `PutManifest` call. -/
theorem noWorkers_progress {d : Dupe} {name tag : String} {s : State} {m : SignedManifest}
    (hT : d.threads ≤ 0) (hN : m.FSLayers.length ≤ tasksCap)
    (hr : Reach (Copy d name tag) s)
    (hm : Event.Manifest name tag (.ok m) ∈ s.trace)
    (hput : s.trace.countP Event.isPutManifest = 0) :
    ∃ (l : Label) (s' : State), step s l = some s' := by
  have hinv := reach_inv (inv_Copy d name tag) hr
  have hn := reach_noWorkers hT hr
  have hman := manifest_of_fetch hinv.ctl hm
  have hlay : s.layers = m.FSLayers := by simp [State.layers, hman]
  have hmf := hinv.ctl.mainForm
  have hnoput : ∀ e ∈ mainEvents s.trace, e.isPutManifest = false := by
    intro e he
    cases hp : e.isPutManifest
    · rfl
    · exact absurd hp (List.countP_eq_zero.mp hput e (mem_of_mainEvents he))
  have hx : s.exit = none := by
    cases hx : s.exit with
    | none => rfl
    | some c =>
      exfalso
      rcases (hinv.ctl.exitOne c hx).2 with hf | hf | ⟨j, t, hf | hf⟩
      · rw [hf] at hmf
        simp only [MainForm] at hmf
        obtain ⟨e, hev⟩ := hmf
        have : Event.Manifest name tag (.ok m) ∈ mainEvents s.trace := by
          unfold mainEvents
          exact List.mem_filter.mpr ⟨hm, rfl⟩
        rw [hev] at this
        simp at this
      · rw [hf] at hmf
        simp only [MainForm] at hmf
        obtain ⟨m', e, _, hev⟩ := hmf
        have := hnoput (.PutManifest name tag m' (some e)) (by rw [hev]; simp)
        simp [Event.isPutManifest] at this
      · rw [hn.workers] at hf
        simp at hf
      · rw [hn.workers] at hf
        simp at hf
  cases hpc : s.pc
  case fetch =>
    exact ⟨.main (.Manifest (.ok m)), _, by simp [step, hx, stepMain, hpc]; rfl⟩
  case fetchFatal =>
    exact ⟨.main .tick, _, by simp [step, hx, stepMain, hpc]; rfl⟩
  case spawn i =>
    by_cases hlt : (i : Int) < s.dupe.threads
    · exact ⟨.main .tick, _, by simp [step, hx, stepMain, hpc, hlt]; rfl⟩
    · exact ⟨.main .tick, _, by simp [step, hx, stepMain, hpc, hlt]; rfl⟩
  case send k =>
    cases hl : s.layers[k]? with
    | none => exact ⟨.main .tick, _, by simp [step, hx, stepMain, hpc, hl]; rfl⟩
    | some layer =>
      have hk : k < s.layers.length := by
        rcases List.getElem?_eq_some.mp hl with ⟨hlt, _⟩
        exact hlt
      have hlen := noWorkers_tasks hinv.ctl hn
      simp only [sent, hpc] at hlen
      have hc : s.tasks.length < tasksCap := by
        rw [hlay] at hk
        omega
      exact ⟨.main .tick, _, by simp [step, hx, stepMain, hpc, hl, hc]; rfl⟩
  case close =>
    exact ⟨.main .tick, _, by simp [step, hx, stepMain, hpc]; rfl⟩
  case wait =>
    have hwg : s.wg = 0 := by
      rw [hinv.ctl.wg, hn.workers]
      rfl
    exact ⟨.main .tick, _, by simp [step, hx, stepMain, hpc, hwg]; rfl⟩
  case put =>
    exact ⟨.main (.PutManifest none), _, by simp [step, hx, stepMain, copyManifest, hpc, hman]; rfl⟩
  case putFatal =>
    exact ⟨.main .tick, _, by simp [step, hx, stepMain, hpc]; rfl⟩
  case done =>
    exfalso
    rw [hpc] at hmf
    simp only [MainForm] at hmf
    obtain ⟨m', _, hev⟩ := hmf
    have := hnoput (.PutManifest name tag m' none) (by rw [hev]; simp)
    simp [Event.isPutManifest] at this

/-- A job without threads never calls `PutManifest` for a manifest with more
layers than the channel holds: the producer loop blocks. -/
theorem noWorkers_overflow {d : Dupe} {name tag : String} {s : State} {m : SignedManifest}
    (hT : d.threads ≤ 0) (hN : tasksCap < m.FSLayers.length)
    (hr : Reach (Copy d name tag) s)
    (hm : Event.Manifest name tag (.ok m) ∈ s.trace) :
    s.trace.countP Event.isPutManifest = 0 ∧ s.pc.pastClose = false := by
  have hinv := reach_inv (inv_Copy d name tag) hr
  have hn := reach_noWorkers hT hr
  have hman := manifest_of_fetch hinv.ctl hm
  have hlay : s.layers = m.FSLayers := by simp [State.layers, hman]
  have hlen := noWorkers_tasks hinv.ctl hn
  have hcap := hn.cap
  have hclose : s.pc.pastClose = false := by
    cases hpc : s.pc <;> simp [CopyPc.pastClose] <;>
      (simp only [sent, hpc] at hlen
       rw [hlay] at hlen
       omega)
  refine ⟨?_, hclose⟩
  have hp : s.pc.pastWait = false := by
    cases hpc : s.pc <;> simp [CopyPc.pastWait] <;> simp [hpc, CopyPc.pastClose] at hclose
  rw [List.countP_eq_zero]
  intro e he hpe
  have := no_put_before_barrier hinv.ctl hp e he
  rw [this] at hpe
  cases hpe

/-! ## Executions are bounded and, with a worker, never stuck -/

theorem rank_set_add (ws : List WorkerPc) (j : Nat) (w w' : WorkerPc)
    (hw : ws[j]? = some w) :
    ((ws.set j w').map WorkerPc.rank).sum + w.rank = (ws.map WorkerPc.rank).sum + w'.rank := by
  induction ws generalizing j with
  | nil => simp at hw
  | cons x xs ih =>
    cases j with
    | zero =>
      simp at hw
      subst hw
      simp only [List.set_cons_zero, List.map_cons, List.sum_cons]
      omega
    | succ j =>
      simp at hw
      have := ih j hw
      simp only [List.set_cons_succ, List.map_cons, List.sum_cons]
      omega

/-- Every step after the manifest fetch uses up fuel. -/
theorem step_fuel {T : Int} {name tag : String} {s s' : State}
    (h : Inv T name tag s) (hpc : s.pc ≠ .fetch) (hs : Step s s') :
    fuel s' < fuel s ∧ s'.pc ≠ .fetch ∧ s'.dupe = s.dupe := by
  have htk := step_taken h.ctl hs
  have hq := h.ctl.queueLen
  have hle := h.ctl.sentLe
  have hth := h.ctl.hthreads
  cases hs
  case fetchOk m hx hpc' => exact absurd hpc' hpc
  case fetchErr e hx hpc' => exact absurd hpc' hpc
  case fetchExit hx hpc' =>
    refine ⟨?_, by simp [hpc'], rfl⟩
    have e : taken _ = taken s := htk.trans (by simp)
    simp only [fuel, e, State.layers, hx]
    simp
  case putExit hx hpc' =>
    refine ⟨?_, by simp [hpc'], rfl⟩
    have e : taken _ = taken s := htk.trans (by simp)
    simp only [fuel, e, State.layers, hx]
    simp
  case hasExit j t hx hw =>
    refine ⟨?_, hpc, rfl⟩
    have e : taken _ = taken s := htk.trans (by simp)
    simp only [fuel, e, State.layers, hx]
    simp
  case readerExit j t hx hw =>
    refine ⟨?_, hpc, rfl⟩
    have e : taken _ = taken s := htk.trans (by simp)
    simp only [fuel, e, State.layers, hx]
    simp
  case spawnGo i hx hpc' hlt =>
    refine ⟨?_, by simp, rfl⟩
    have e : taken _ = taken s := htk.trans (by simp)
    have hi : i < s.dupe.threads.toNat := by omega
    simp only [fuel, e, State.layers, hpc', CopyPc.rank, List.map_append, List.sum_append,
      List.map_cons, List.map_nil, List.sum_cons, List.sum_nil, WorkerPc.rank]
    omega
  case spawnEnd i hx hpc' hge =>
    refine ⟨?_, by simp, rfl⟩
    have e : taken _ = taken s := htk.trans (by simp)
    simp only [fuel, e, State.layers, hpc', CopyPc.rank]
    omega
  case sendGo k layer hx hpc' hl hcap =>
    refine ⟨?_, by simp, rfl⟩
    have e : taken _ = taken s := htk.trans (by simp)
    have hk : k < s.layers.length := by
      rcases List.getElem?_eq_some.mp hl with ⟨hlt, _⟩
      exact hlt
    simp only [State.layers] at hk
    simp only [fuel, e, State.layers, hpc', CopyPc.rank]
    omega
  case sendEnd k hx hpc' hl =>
    refine ⟨?_, by simp, rfl⟩
    have e : taken _ = taken s := htk.trans (by simp)
    simp only [fuel, e, State.layers, hpc', CopyPc.rank]
    omega
  case close hx hpc' =>
    refine ⟨?_, by simp, rfl⟩
    have e : taken _ = taken s := htk.trans (by simp)
    simp only [fuel, e, State.layers, hpc', CopyPc.rank]
    omega
  case wait hx hpc' hwg =>
    refine ⟨?_, by simp, rfl⟩
    have e : taken _ = taken s := htk.trans (by simp)
    simp only [fuel, e, State.layers, hpc', CopyPc.rank]
    omega
  case putOk m hx hpc' hm =>
    refine ⟨?_, by simp, rfl⟩
    have e : taken _ = taken s := htk.trans (by simp)
    simp only [fuel, e, State.layers, hpc', CopyPc.rank]
    omega
  case putErr m e hx hpc' hm =>
    refine ⟨?_, by simp, rfl⟩
    have e : taken _ = taken s := htk.trans (by simp)
    simp only [fuel, e, State.layers, hpc', CopyPc.rank]
    omega
  case recvGo j t q hx hw hts =>
    refine ⟨?_, hpc, rfl⟩
    have e : taken _ = taken s + 1 := htk.trans (by simp [hts])
    have hr := rank_set_add s.workers j _ (.hasLayer t) hw
    have hlt : taken s < s.layers.length := by
      rw [hts] at hq
      simp only [List.length_cons] at hq
      unfold taken
      rw [hts]
      simp only [List.length_cons]
      omega
    simp only [State.layers] at hlt
    simp only [WorkerPc.rank] at hr
    simp only [fuel, e, State.layers]
    omega
  case recvEnd j hx hw hts hc =>
    refine ⟨?_, hpc, rfl⟩
    have e : taken _ = taken s := htk.trans (by simp)
    have hr := rank_set_add s.workers j _ .exited hw
    simp only [WorkerPc.rank] at hr
    simp only [fuel, e, State.layers]
    omega
  case hasErr j t e hx hw =>
    refine ⟨?_, hpc, rfl⟩
    have e : taken _ = taken s := htk.trans (by simp)
    have hr := rank_set_add s.workers j _ (.hasFatal t) hw
    simp only [WorkerPc.rank] at hr
    simp only [fuel, e, State.layers]
    omega
  case hasTrue j t hx hw =>
    refine ⟨?_, hpc, rfl⟩
    have e : taken _ = taken s := htk.trans (by simp)
    have hr := rank_set_add s.workers j _ .recv hw
    simp only [WorkerPc.rank] at hr
    simp only [fuel, e, State.layers]
    omega
  case hasFalse j t hx hw =>
    refine ⟨?_, hpc, rfl⟩
    have e : taken _ = taken s := htk.trans (by simp)
    have hr := rank_set_add s.workers j _ (.download t) hw
    simp only [WorkerPc.rank] at hr
    simp only [fuel, e, State.layers]
    omega
  case dlSome j t rd len err hx hw =>
    refine ⟨?_, hpc, rfl⟩
    have e : taken _ = taken s := htk.trans (by simp)
    have hr := rank_set_add s.workers j _ (.upload t rd len) hw
    simp only [WorkerPc.rank] at hr
    simp only [fuel, e, State.layers]
    omega
  case dlNone j t len err hx hw =>
    refine ⟨?_, hpc, rfl⟩
    have e : taken _ = taken s := htk.trans (by simp)
    have hr := rank_set_add s.workers j _ (.readerFatal t) hw
    simp only [WorkerPc.rank] at hr
    simp only [fuel, e, State.layers]
    omega
  case upload j t rd len err hx hw =>
    refine ⟨?_, hpc, rfl⟩
    have e : taken _ = taken s := htk.trans (by simp)
    have hr := rank_set_add s.workers j _ (.closing t rd) hw
    simp only [WorkerPc.rank] at hr
    simp only [fuel, e, State.layers]
    omega
  case closing j t rd hx hw =>
    refine ⟨?_, hpc, rfl⟩
    have e : taken _ = taken s := htk.trans (by simp)
    have hr := rank_set_add s.workers j _ .recv hw
    simp only [WorkerPc.rank] at hr
    simp only [fuel, e, State.layers]
    omega

theorem run_fuel {T : Int} {name tag : String} (ls : List Label) :
    ∀ (s s' : State), Inv T name tag s → s.pc ≠ .fetch → run s ls = some s' →
      fuel s' + ls.length ≤ fuel s ∧ s'.dupe = s.dupe := by
  induction ls with
  | nil =>
    intro s s' _ _ hrun
    simp only [run] at hrun
    injection hrun with hrun
    subst hrun
    exact ⟨Nat.le_refl _, rfl⟩
  | cons l ls ih =>
    intro s s' hinv hpc hrun
    simp only [run] at hrun
    split at hrun
    · rename_i s1 h1
      have hs := step_sound h1
      obtain ⟨hlt, hpc1, hd1⟩ := step_fuel hinv hpc hs
      obtain ⟨hle, hd⟩ := ih s1 s' (step_inv hinv hs) hpc1 hrun
      refine ⟨?_, hd.trans hd1⟩
      simp only [List.length_cons]
      omega
    · cases hrun

/-- Every execution of `Copy` is finite: its length is bounded in terms of
the number of threads and of layer references. -/
theorem run_bounded {d : Dupe} {name tag : String} {ls : List Label} {s : State}
    (hrun : run (Copy d name tag) ls = some s) :
    ls.length ≤ 2 * d.threads.toNat + 7 * s.layers.length + 7 := by
  cases ls with
  | nil => simp
  | cons l ls =>
    simp only [run] at hrun
    split at hrun
    · rename_i s1 h1
      have hs := step_sound h1
      have hinv1 := step_inv (inv_Copy d name tag) hs
      have key : s1.pc ≠ .fetch ∧
          fuel s1 ≤ 2 * d.threads.toNat + 7 * s1.layers.length + 6 := by
        have hnw : ∀ (j : Nat) (w : WorkerPc), (Copy d name tag).workers[j]? = some w →
            False := by
          intro j w hj
          simp [Copy] at hj
        cases hs
        case fetchOk m hx hpc =>
          refine ⟨by simp, ?_⟩
          simp [fuel, taken, sent, CopyPc.rank, State.layers, Copy]
          omega
        case fetchErr e hx hpc =>
          refine ⟨by simp, ?_⟩
          simp [fuel, taken, sent, CopyPc.rank, State.layers, Copy]
        case recvGo j t q hx hw hts => exact (hnw j _ hw).elim
        case recvEnd j hx hw hts hc => exact (hnw j _ hw).elim
        case hasErr j t e hx hw => exact (hnw j _ hw).elim
        case hasTrue j t hx hw => exact (hnw j _ hw).elim
        case hasFalse j t hx hw => exact (hnw j _ hw).elim
        case dlSome j t rd len err hx hw => exact (hnw j _ hw).elim
        case dlNone j t len err hx hw => exact (hnw j _ hw).elim
        case upload j t rd len err hx hw => exact (hnw j _ hw).elim
        case closing j t rd hx hw => exact (hnw j _ hw).elim
        case hasExit j t hx hw => exact (hnw j _ hw).elim
        case readerExit j t hx hw => exact (hnw j _ hw).elim
        case fetchExit hx hpc => simp [Copy] at hpc
        case spawnGo i hx hpc hlt => simp [Copy] at hpc
        case spawnEnd i hx hpc hge => simp [Copy] at hpc
        case sendGo k layer hx hpc hl hcap => simp [Copy] at hpc
        case sendEnd k hx hpc hl => simp [Copy] at hpc
        case close hx hpc => simp [Copy] at hpc
        case wait hx hpc hwg => simp [Copy] at hpc
        case putOk m hx hpc hm => simp [Copy] at hpc
        case putErr m e hx hpc hm => simp [Copy] at hpc
        case putExit hx hpc => simp [Copy] at hpc
      obtain ⟨hle, hd⟩ := run_fuel ls s1 s hinv1 key.1 hrun
      have hlay : s.layers = s1.layers := by simp [State.layers, hd]
      rw [hlay]
      simp only [List.length_cons]
      omega
    · cases hrun

/-- A worker that has not ended can take a step whenever it is not waiting on
an open, empty channel. -/
theorem worker_enabled {s : State} {j : Nat} {w : WorkerPc} (hx : s.exit = none)
    (hw : s.workers[j]? = some w) (hr : w.running = true)
    (hrecv : s.tasks ≠ [] ∨ s.closed = true) :
    ∃ (l : Label) (s' : State), step s l = some s' ∧ l.failed = false := by
  cases w with
  | exited => simp [WorkerPc.running] at hr
  | recv =>
    cases hts : s.tasks with
    | nil =>
      rcases hrecv with h | h
      · exact absurd hts h
      · exact ⟨.worker j .tick, _, by simp [step, hx, stepWorker, copyLayer, hw, hts, h]; rfl, rfl⟩
    | cons t q =>
      exact ⟨.worker j .tick, _, by simp [step, hx, stepWorker, copyLayer, hw, hts]; rfl, rfl⟩
  | hasLayer t =>
    exact ⟨.worker j (.HasLayer (.ok true)), _, by simp [step, hx, stepWorker, copyLayer, hw]; rfl, rfl⟩
  | download t =>
    exact ⟨.worker j (.DownloadLayerLength (some 0) 0 none), _,
      by simp [step, hx, stepWorker, copyLayer, hw]; rfl, rfl⟩
  | upload t rd len =>
    exact ⟨.worker j (.UploadLayer none), _, by simp [step, hx, stepWorker, copyLayer, hw]; rfl, rfl⟩
  | closing t rd =>
    exact ⟨.worker j .tick, _, by simp [step, hx, stepWorker, copyLayer, hw]; rfl, rfl⟩
  | hasFatal t =>
    exact ⟨.worker j .tick, _, by simp [step, hx, stepWorker, copyLayer, hw]; rfl, rfl⟩
  | readerFatal t =>
    exact ⟨.worker j .tick, _, by simp [step, hx, stepWorker, copyLayer, hw]; rfl, rfl⟩

/-- With at least one thread `Copy` is never stuck: as long as the process has
not exited and `Copy` has not returned, some goroutine can take a step, and
none of these steps needs a registry call to fail. -/
theorem copy_progress {d : Dupe} {name tag : String} {s : State} (hT : 1 ≤ d.threads)
    (hr : Reach (Copy d name tag) s) (hx : s.exit = none) (hpc : s.pc ≠ .done) :
    ∃ (l : Label) (s' : State), step s l = some s' ∧ l.failed = false := by
  have hinv := reach_inv (inv_Copy d name tag) hr
  have hmf := hinv.ctl.mainForm
  have hn := hinv.ctl.nworkers
  cases hp : s.pc
  case done => exact absurd hp hpc
  case fetch =>
    exact ⟨.main (.Manifest (.ok { FSLayers := [], Raw := "" })), _,
      by simp [step, hx, stepMain, hp]; rfl, rfl⟩
  case fetchFatal =>
    exact ⟨.main .tick, _, by simp [step, hx, stepMain, hp]; rfl, rfl⟩
  case putFatal =>
    exact ⟨.main .tick, _, by simp [step, hx, stepMain, hp]; rfl, rfl⟩
  case close =>
    exact ⟨.main .tick, _, by simp [step, hx, stepMain, hp]; rfl, rfl⟩
  case spawn i =>
    by_cases hlt : (i : Int) < s.dupe.threads
    · exact ⟨.main .tick, _, by simp [step, hx, stepMain, hp, hlt]; rfl, rfl⟩
    · exact ⟨.main .tick, _, by simp [step, hx, stepMain, hp, hlt]; rfl, rfl⟩
  case put =>
    rw [hp] at hmf
    simp only [MainForm] at hmf
    obtain ⟨m, hm, _⟩ := hmf
    exact ⟨.main (.PutManifest none), _, by simp [step, hx, stepMain, copyManifest, hp, hm]; rfl, rfl⟩
  case send k =>
    cases hl : s.layers[k]? with
    | none => exact ⟨.main .tick, _, by simp [step, hx, stepMain, hp, hl]; rfl, rfl⟩
    | some layer =>
      by_cases hc : s.tasks.length < tasksCap
      · exact ⟨.main .tick, _, by simp [step, hx, stepMain, hp, hl, hc]; rfl, rfl⟩
      · rw [hp] at hn
        simp only [NWorkers] at hn
        have hlen : 0 < s.workers.length := by omega
        have hw0 : s.workers[0]? = some (s.workers[0]) := List.getElem?_eq_getElem hlen
        have hne : s.tasks ≠ [] := by
          intro h0
          rw [h0] at hc
          simp [tasksCap] at hc
        have hrun0 : (s.workers[0]).running = true := by
          cases hw : s.workers[0] <;> simp [WorkerPc.running]
          rw [hw] at hw0
          exact hne (hinv.ctl.exitedEmpty 0 hw0).1
        exact worker_enabled hx hw0 hrun0 (Or.inl hne)
  case wait =>
    by_cases hwg : s.wg = 0
    · exact ⟨.main .tick, _, by simp [step, hx, stepMain, hp, hwg]; rfl, rfl⟩
    · have hcount : 0 < s.workers.countP WorkerPc.running := by
        rw [← hinv.ctl.wg]
        omega
      obtain ⟨w, hwmem, hwrun⟩ := List.countP_pos_iff.mp hcount
      obtain ⟨j, hj⟩ := List.mem_iff_getElem?.mp hwmem
      have hcl : s.closed = true := by
        rw [hinv.ctl.closed, hp]
        rfl
      exact worker_enabled hx hj hwrun (Or.inr hcl)

/-- A `DownloadLayerLength` call that returns no reader is fatal: no
`UploadLayer` call is made for that work item, no `PutManifest` call is made
and `Copy` does not return. -/
theorem reader_failure_fatal {d : Dupe} {name tag : String} {ls : List Label} {s : State}
    {i : Nat} {n : String} {dg : Digest} {len : Int} {err : Option Err}
    (hrun : run (Copy d name tag) ls = some s)
    (hdl : Event.DownloadLayerLength i n dg none len err ∈ s.trace) :
    uploadsOf i s.trace = 0 ∧ (∀ ev ∈ s.trace, ev.isPutManifest = false) ∧ s.pc ≠ .done := by
  have hinv := run_inv hrun
  have hmem : Event.DownloadLayerLength i n dg none len err ∈ layerEvents i s.trace :=
    mem_layerEvents.mpr ⟨hdl, rfl⟩
  rcases layerEvents_shape hinv i with hnil | ⟨l, rd', len', err', uerr', e, hl, hs⟩
  · rw [hnil] at hmem
    cases hmem
  · rcases hs with (hs | hs) | ⟨hp, hs | hs | hs | hs | hs | hs⟩ <;> rw [hs] at hmem <;>
      simp [skippedEvents, copiedEvents] at hmem
    refine ⟨by simp [uploadsOf, hs, Event.isUploadLayer], no_put_before_barrier hinv.ctl hp, ?_⟩
    intro hdone
    rw [hdone] at hp
    simp [CopyPc.pastWait] at hp

/-- A goroutine is inside `log.Fatalf` only after a call has failed. -/
theorem fatal_failed {T : Int} {name tag : String} {s : State} (h : Inv T name tag s)
    (hf : Fatal s) : ∃ e ∈ s.trace, e.failed = true := by
  have hmf := h.ctl.mainForm
  rcases hf with hf | hf | ⟨j, t, hf | hf⟩
  · rw [hf] at hmf
    simp only [MainForm] at hmf
    obtain ⟨e, hev⟩ := hmf
    refine ⟨.Manifest name tag (.error e), mem_of_mainEvents ?_, rfl⟩
    rw [hev]
    simp
  · rw [hf] at hmf
    simp only [MainForm] at hmf
    obtain ⟨m, e, _, hev⟩ := hmf
    refine ⟨.PutManifest name tag m (some e), mem_of_mainEvents ?_, rfl⟩
    rw [hev]
    simp
  · obtain ⟨_, _, hform⟩ := h.layer.held j _ t hf rfl
    simp only [Form] at hform
    obtain ⟨e, hev⟩ := hform
    refine ⟨.HasLayer t.index name t.layer.BlobSum (.error e),
      mem_trace_of_layerEvents (i := t.index) ?_, rfl⟩
    rw [hev]
    simp
  · obtain ⟨_, _, hform⟩ := h.layer.held j _ t hf rfl
    simp only [Form] at hform
    obtain ⟨len, err, hev⟩ := hform
    refine ⟨.DownloadLayerLength t.index name t.layer.BlobSum none len err,
      mem_trace_of_layerEvents (i := t.index) ?_, ?_⟩
    · rw [hev]
      simp
    · cases err <;> rfl

/-- With at least one thread, an execution in which no call has failed and
which cannot be continued has returned from `Copy`. -/
theorem done_of_terminal {d : Dupe} {name tag : String} {ls : List Label} {s : State}
    (hT : 1 ≤ d.threads) (hrun : run (Copy d name tag) ls = some s)
    (hstuck : ∀ l, step s l = none) (hok : ∀ e ∈ s.trace, e.failed = false) :
    s.pc = .done := by
  by_contra hpc
  cases hx : s.exit with
  | none =>
    obtain ⟨l, s', hstep, _⟩ := copy_progress hT (run_reach hrun) hx hpc
    rw [hstuck l] at hstep
    cases hstep
  | some c =>
    obtain ⟨e, he, hfail⟩ := fatal_failed (run_inv hrun) ((run_inv hrun).ctl.exitOne c hx).2
    rw [hok e he] at hfail
    cases hfail

/-- In a list whose digests are pairwise distinct, two positions holding the
same digest are the same position. -/
theorem nodup_index {ls : List FSLayer} (hnd : (ls.map FSLayer.BlobSum).Nodup)
    {i j : Nat} {a b : FSLayer} (ha : ls[i]? = some a) (hb : ls[j]? = some b)
    (hab : a.BlobSum = b.BlobSum) : i = j := by
  have hi : (ls.map FSLayer.BlobSum)[i]? = some a.BlobSum := by
    rw [List.getElem?_map, ha]; rfl
  have hj : (ls.map FSLayer.BlobSum)[j]? = some a.BlobSum := by
    rw [List.getElem?_map, hb, hab]; rfl
  have hil : i < (ls.map FSLayer.BlobSum).length := (List.getElem?_eq_some.mp hi).1
  have hjl : j < (ls.map FSLayer.BlobSum).length := (List.getElem?_eq_some.mp hj).1
  rw [List.nodup_iff_getElem?_ne_getElem?] at hnd
  rcases Nat.lt_trichotomy i j with h | h | h
  · exact absurd (hi.trans hj.symm) (hnd i j h hjl)
  · exact h
  · exact absurd (hj.trans hi.symm) (hnd j i h hil)

/-- Two runs in a row without a failing call: run `Copy(name, tag)` twice on
the same job against a destination that starts with the blobs `D0`, answers `HasLayer`
from the blobs it holds and holds a blob once its upload has succeeded. If
both runs fetch the manifest `m`, no registry call fails, and each run has
completed or, for a job with at least one thread, cannot be continued, then
both runs have returned from `Copy`, the second run makes no `UploadLayer` and
no `DownloadLayerLength` call, and each run makes exactly one `PutManifest`
call. -/
theorem second_run_skips_all (d : Dupe) (name tag : String) (m : SignedManifest)
    (D0 D1 D2 : List Digest) (ls1 ls2 : List Label) (s1 s2 : State)
    (hrun1 : run (Copy d name tag) ls1 = some s1)
    (hend1 : s1.pc = .done ∨ (1 ≤ d.threads ∧ ∀ l, step s1 l = none))
    (hok1 : ∀ e ∈ s1.trace, e.failed = false)
    (hm1 : Event.Manifest name tag (.ok m) ∈ s1.trace)
    (hdest1 : destRun D0 s1.trace = some D1)
    (hrun2 : run (Copy s1.dupe name tag) ls2 = some s2)
    (hend2 : s2.pc = .done ∨ (1 ≤ d.threads ∧ ∀ l, step s2 l = none))
    (hok2 : ∀ e ∈ s2.trace, e.failed = false)
    (hm2 : Event.Manifest name tag (.ok m) ∈ s2.trace)
    (hdest2 : destRun D1 s2.trace = some D2) :
    s1.pc = .done ∧ s2.pc = .done ∧
    s2.trace.countP Event.isUploadLayer = 0 ∧
    s2.trace.countP Event.isDownload = 0 ∧
    s1.trace.countP Event.isPutManifest = 1 ∧
    s2.trace.countP Event.isPutManifest = 1 := by
  have hinv1 := run_inv hrun1
  have hinv2 := run_inv hrun2
  have hth : s1.dupe.threads = d.threads := hinv1.ctl.hthreads
  have hdone1 : s1.pc = .done := by
    rcases hend1 with h | ⟨hT, hstuck⟩
    · exact h
    · exact done_of_terminal hT hrun1 hstuck hok1
  have hdone2 : s2.pc = .done := by
    rcases hend2 with h | ⟨hT, hstuck⟩
    · exact h
    · exact done_of_terminal (by rw [hth]; exact hT) hrun2 hstuck hok2
  have hman1 := manifest_of_fetch hinv1.ctl hm1
  have hman2 := manifest_of_fetch hinv2.ctl hm2
  have hlay1 : s1.layers = m.FSLayers := by simp [State.layers, hman1]
  have hlay2 : s2.layers = m.FSLayers := by simp [State.layers, hman2]
  refine ⟨hdone1, hdone2, ?_, ?_, put_count_done hinv1.ctl hdone1,
    put_count_done hinv2.ctl hdone2⟩
  · by_cases hT : 1 ≤ d.threads
    · have hheld := dest_holds_layers hinv1 hT hdone1 hok1 hdest1
      rw [List.countP_eq_zero]
      intro e he hpe
      cases e <;> simp [Event.isUploadLayer] at hpe
      rename_i i n dg rd err
      obtain ⟨l, hl, _, _, hh⟩ := upload_has_false hinv2 he
      rw [hlay2, ← hlay1] at hl
      exact destRun_absent hdest2 i name l.BlobSum hh (hheld i l hl)
    · have hn := reach_noWorkers (by rw [hth]; omega) (run_reach hrun2)
      exact (noWorkers_calls hn).1
  · by_cases hT : 1 ≤ d.threads
    · have hheld := dest_holds_layers hinv1 hT hdone1 hok1 hdest1
      rw [List.countP_eq_zero]
      intro e he hpe
      cases e <;> simp [Event.isDownload] at hpe
      rename_i i n dg rd len err
      obtain ⟨l, hl, _, _, hh⟩ := download_has_false hinv2 he
      rw [hlay2, ← hlay1] at hl
      exact destRun_absent hdest2 i name l.BlobSum hh (hheld i l hl)
    · have hn := reach_noWorkers (by rw [hth]; omega) (run_reach hrun2)
      exact (noWorkers_calls hn).2.1

/-- Example of `second_run_skips_all`: the destination holds `B`; the first run uploads `A` and
`C`, the second run finds all three layers. -/
theorem second_run_skips_all_example :
    (finalState (exampleJob 2) "app" "v1" schedABC).pc = .done ∧
    (finalState (finalState (exampleJob 2) "app" "v1" schedABC).dupe "app" "v1"
      schedABCAgain).pc = .done ∧
    (finalState (finalState (exampleJob 2) "app" "v1" schedABC).dupe "app" "v1"
      schedABCAgain).trace.countP Event.isUploadLayer = 0 ∧
    (finalState (finalState (exampleJob 2) "app" "v1" schedABC).dupe "app" "v1"
      schedABCAgain).trace.countP Event.isDownload = 0 ∧
    (finalState (exampleJob 2) "app" "v1" schedABC).trace.countP Event.isPutManifest = 1 ∧
    (finalState (finalState (exampleJob 2) "app" "v1" schedABC).dupe "app" "v1"
      schedABCAgain).trace.countP Event.isPutManifest = 1 :=
  second_run_skips_all (exampleJob 2) "app" "v1" manifestABC ["B"] ["C", "A", "B"] ["C", "A", "B"]
    schedABC schedABCAgain (finalState (exampleJob 2) "app" "v1" schedABC)
    (finalState (finalState (exampleJob 2) "app" "v1" schedABC).dupe "app" "v1" schedABCAgain)
    (by rfl) (Or.inl (by rfl)) (by decide) (by decide) (by decide) (by rfl)
    (Or.inl (by rfl)) (by decide) (by decide) (by decide)

/-! ## Properties of the specification -/

/-- C1 (layers before manifest): for a job with at least one thread, in every
execution of `Copy`, whatever precedes a `PutManifest` call in the trace
contains the fetch of the uploaded manifest and, for every entry
`(i, layer)` of its `FSLayers`, the invocation of `copyLayer i layer` and its
return; the events of that work item before the call are those of a
completed `copyLayer` call. -/
theorem C1_layers_before_manifest (d : Dupe) (name tag : String) (ls : List Label)
    (s : State) (pre post : List Event) (n t : String) (m : SignedManifest)
    (err : Option Err) (hthreads : 1 ≤ d.threads)
    (hrun : run (Copy d name tag) ls = some s)
    (htrace : s.trace = pre ++ Event.PutManifest n t m err :: post) :
    Event.Manifest name tag (.ok m) ∈ pre ∧
    ∀ (i : Nat) (layer : FSLayer), m.FSLayers[i]? = some layer →
      Event.copyLayer i layer ∈ pre ∧ Event.copyLayerReturn i ∈ pre ∧
      Retired name { index := i, layer := layer } (layerEvents i pre) := by
  obtain ⟨hm, hall⟩ := put_order hthreads (run_reach hrun) pre post n t m err htrace
  refine ⟨hm, ?_⟩
  intro i layer hl
  have hr := hall i layer hl
  obtain ⟨h1, h2⟩ := retired_mem hr
  exact ⟨mem_trace_of_layerEvents h1, mem_trace_of_layerEvents h2, hr⟩

/-- Witness of C1: two workers copy `A` and `C` and skip `B`; the sixteen
events before the `PutManifest` call contain all three calls and returns. -/
theorem C1_witness :
    (1 : Int) ≤ (exampleJob 2).threads ∧
    Event.Manifest "app" "v1" (.ok manifestABC) ∈
      (finalState (exampleJob 2) "app" "v1" schedABC).trace.take 16 ∧
    ∀ (i : Nat) (layer : FSLayer), manifestABC.FSLayers[i]? = some layer →
      Event.copyLayer i layer ∈ (finalState (exampleJob 2) "app" "v1" schedABC).trace.take 16 ∧
      Event.copyLayerReturn i ∈
        (finalState (exampleJob 2) "app" "v1" schedABC).trace.take 16 ∧
      Retired "app" { index := i, layer := layer }
        (layerEvents i ((finalState (exampleJob 2) "app" "v1" schedABC).trace.take 16)) :=
  ⟨by decide,
   C1_layers_before_manifest (exampleJob 2) "app" "v1" schedABC
     (finalState (exampleJob 2) "app" "v1" schedABC)
     ((finalState (exampleJob 2) "app" "v1" schedABC).trace.take 16) []
     "app" "v1" manifestABC none (by decide) (by rfl) (by rfl)⟩

/-- C2, counterexample: the manifest lists the digest `A` twice, the
destination is empty, one worker runs and no call fails. The existence check
of the first reference answers false and `A` is downloaded and uploaded; the
existence check of the second reference answers true, as the destination now
holds `A`. The run completes, so `A` is a digest for which `HasLayer` answered
true and for which the run issued a download and an `UploadLayer` call. -/
theorem C2_counterexample :
    (finalState (exampleJob 1) "app" "v1" schedAA).pc = .done ∧
    run (Copy (exampleJob 1) "app" "v1") schedAA =
      some (finalState (exampleJob 1) "app" "v1" schedAA) ∧
    (∀ e ∈ (finalState (exampleJob 1) "app" "v1" schedAA).trace, e.failed = false) ∧
    destRun [] (finalState (exampleJob 1) "app" "v1" schedAA).trace = some ["A"] ∧
    Event.HasLayer 1 "app" "A" (.ok true) ∈
      (finalState (exampleJob 1) "app" "v1" schedAA).trace ∧
    Event.DownloadLayerLength 0 "app" "A" (some 1) 100 none ∈
      (finalState (exampleJob 1) "app" "v1" schedAA).trace ∧
    Event.UploadLayer 0 "app" "A" 1 none ∈
      (finalState (exampleJob 1) "app" "v1" schedAA).trace ∧
    ¬ (∀ (i : Nat) (n : String) (dg : Digest),
        Event.HasLayer i n dg (.ok true) ∈
          (finalState (exampleJob 1) "app" "v1" schedAA).trace →
        (∀ (k : Nat) (n2 : String) (rd : Reader) (err : Option Err),
          Event.UploadLayer k n2 dg rd err ∉
            (finalState (exampleJob 1) "app" "v1" schedAA).trace) ∧
        (∀ (k : Nat) (n2 : String) (rd : Option Reader) (len : Int) (err : Option Err),
          Event.DownloadLayerLength k n2 dg rd len err ∉
            (finalState (exampleJob 1) "app" "v1" schedAA).trace)) := by
  refine ⟨by rfl, by rfl, by decide, by decide, by decide, by decide, by decide, ?_⟩
  intro h
  exact (h 1 "app" "A" (by decide)).1 0 "app" 1 none (by decide)

/-- C2 (exactly the absent layers are transferred, amended): take a run of
`Copy` in which no registry call failed and which has completed or, for a job
with at least one thread, cannot be continued. Then `Copy` has returned and,
for any number of threads, the following holds per layer reference (work
item) of the manifest: a work item whose `HasLayer` call answered false has
exactly one `DownloadLayerLength` and one `UploadLayer` call, for the same
digest; a work item whose `HasLayer` call answered true has neither; every
`UploadLayer` and `DownloadLayerLength` call belongs to a work item whose
`HasLayer` call answered false for that digest, so that the digests uploaded
are exactly the digests for which some `HasLayer` call answered false; when no
`HasLayer` call answered false the run made no `UploadLayer` and no
`DownloadLayerLength` call; and the run made exactly one `PutManifest` call.
With at least one thread every layer reference of the manifest had exactly
one `HasLayer` call. When the digests of the manifest are pairwise distinct,
the statement holds per digest as well: no `UploadLayer` and no
`DownloadLayerLength` call is made, by any work item, for a digest for which a
`HasLayer` call answered true. -/
theorem C2_transfers_exactly_absent (d : Dupe) (name tag : String) (ls : List Label)
    (s : State) (hrun : run (Copy d name tag) ls = some s)
    (hend : s.pc = .done ∨ (1 ≤ d.threads ∧ ∀ l, step s l = none))
    (hok : ∀ e ∈ s.trace, e.failed = false) :
    s.pc = .done ∧
    (∀ (i : Nat) (n : String) (dg : Digest), Event.HasLayer i n dg (.ok false) ∈ s.trace →
      uploadsOf i s.trace = 1 ∧ downloadsOf i s.trace = 1 ∧
      ∃ rd, Event.UploadLayer i n dg rd none ∈ s.trace) ∧
    (∀ (i : Nat) (n : String) (dg : Digest), Event.HasLayer i n dg (.ok true) ∈ s.trace →
      uploadsOf i s.trace = 0 ∧ downloadsOf i s.trace = 0) ∧
    (∀ (i : Nat) (n : String) (dg : Digest) (rd : Reader) (err : Option Err),
      Event.UploadLayer i n dg rd err ∈ s.trace →
      Event.HasLayer i n dg (.ok false) ∈ s.trace) ∧
    (∀ (i : Nat) (n : String) (dg : Digest) (rd : Option Reader) (len : Int)
      (err : Option Err), Event.DownloadLayerLength i n dg rd len err ∈ s.trace →
      Event.HasLayer i n dg (.ok false) ∈ s.trace) ∧
    (∀ (dg : Digest),
      (∃ (i : Nat) (n : String) (rd : Reader) (err : Option Err),
        Event.UploadLayer i n dg rd err ∈ s.trace) ↔
      (∃ (i : Nat) (n : String), Event.HasLayer i n dg (.ok false) ∈ s.trace)) ∧
    ((∀ (i : Nat) (n : String) (dg : Digest), Event.HasLayer i n dg (.ok false) ∉ s.trace) →
      s.trace.countP Event.isUploadLayer = 0 ∧ s.trace.countP Event.isDownload = 0) ∧
    s.trace.countP Event.isPutManifest = 1 ∧
    (1 ≤ d.threads → ∀ (i : Nat) (layer : FSLayer), s.layers[i]? = some layer →
      checksOf i s.trace = 1 ∧
      ∃ b, Event.HasLayer i name layer.BlobSum (.ok b) ∈ s.trace) ∧
    ((s.layers.map FSLayer.BlobSum).Nodup →
      ∀ (i : Nat) (n : String) (dg : Digest), Event.HasLayer i n dg (.ok true) ∈ s.trace →
      (∀ (k : Nat) (n2 : String) (rd : Reader) (err : Option Err),
        Event.UploadLayer k n2 dg rd err ∉ s.trace) ∧
      (∀ (k : Nat) (n2 : String) (rd : Option Reader) (len : Int) (err : Option Err),
        Event.DownloadLayerLength k n2 dg rd len err ∉ s.trace)) := by
  have hinv := run_inv hrun
  have hdone : s.pc = .done := by
    rcases hend with h | ⟨hT, hstuck⟩
    · exact h
    · exact done_of_terminal hT hrun hstuck hok
  have hp : s.pc.pastWait = true := by simp [hdone, CopyPc.pastWait]
  have hupl : ∀ (i : Nat) (n : String) (dg : Digest) (rd : Reader) (err : Option Err),
      Event.UploadLayer i n dg rd err ∈ s.trace →
      Event.HasLayer i n dg (.ok false) ∈ s.trace := by
    intro i n dg rd err hup
    obtain ⟨l, _, hn, hdg, hh⟩ := upload_has_false hinv hup
    rw [hn, hdg]
    exact hh
  have hdl : ∀ (i : Nat) (n : String) (dg : Digest) (rd : Option Reader) (len : Int)
      (err : Option Err), Event.DownloadLayerLength i n dg rd len err ∈ s.trace →
      Event.HasLayer i n dg (.ok false) ∈ s.trace := by
    intro i n dg rd len err hd
    obtain ⟨l, _, hn, hdg, hh⟩ := download_has_false hinv hd
    rw [hn, hdg]
    exact hh
  have hfalse : ∀ (i : Nat) (n : String) (dg : Digest),
      Event.HasLayer i n dg (.ok false) ∈ s.trace →
      uploadsOf i s.trace = 1 ∧ downloadsOf i s.trace = 1 ∧
      ∃ rd, Event.UploadLayer i n dg rd none ∈ s.trace := by
    intro i n dg hh
    obtain ⟨l, rd, len, err, uerr, _, hn, hdg, hev⟩ := has_false_copied hinv hp hh
    have hmem : Event.UploadLayer i name l.BlobSum rd uerr ∈ s.trace := by
      apply mem_trace_of_layerEvents (i := i)
      rw [hev]
      simp [copiedEvents]
    have hnone : uerr = none := by
      have := hok _ hmem
      cases uerr with
      | none => rfl
      | some x => simp [Event.failed] at this
    subst hnone
    refine ⟨?_, ?_, rd, ?_⟩
    · simp [uploadsOf, hev, copiedEvents, Event.isUploadLayer]
    · simp [downloadsOf, hev, copiedEvents, Event.isDownload]
    · rw [hn, hdg]
      exact hmem
  refine ⟨hdone, hfalse, ?_, hupl, hdl, ?_, ?_, ?_, ?_, ?_⟩
  · intro i n dg hh
    obtain ⟨l, _, _, _, hev⟩ := has_true_skipped hinv hh
    constructor
    · simp [uploadsOf, hev, skippedEvents, Event.isUploadLayer]
    · simp [downloadsOf, hev, skippedEvents, Event.isDownload]
  · intro dg
    constructor
    · rintro ⟨i, n, rd, err, hup⟩
      exact ⟨i, n, hupl i n dg rd err hup⟩
    · rintro ⟨i, n, hh⟩
      obtain ⟨_, _, rd, hup⟩ := hfalse i n dg hh
      exact ⟨i, n, rd, none, hup⟩
  · intro hnone
    constructor
    · rw [List.countP_eq_zero]
      intro e he hpe
      cases e <;> simp [Event.isUploadLayer] at hpe
      exact hnone _ _ _ (hupl _ _ _ _ _ he)
    · rw [List.countP_eq_zero]
      intro e he hpe
      cases e <;> simp [Event.isDownload] at hpe
      exact hnone _ _ _ (hdl _ _ _ _ _ _ he)
  · obtain ⟨m, _, hev⟩ := mainEvents_done hinv.ctl hdone
    rw [List.countP_eq_length_filter, filter_isPut_main, hev]
    rfl
  · intro hT i layer hl
    have hi : i < taken s := by
      rw [taken_pastWait hinv hT hp]
      rcases List.getElem?_eq_some.mp hl with ⟨hlt, _⟩
      exact hlt
    obtain ⟨l, hl', hr⟩ := retired_pastWait hinv hp i hi
    rw [hl] at hl'
    injection hl' with hl'
    subst hl'
    rcases hr with hr | ⟨rd, len, err, uerr, hr⟩
    · refine ⟨by simp [checksOf, hr, skippedEvents, Event.isHasLayer], true, ?_⟩
      apply mem_trace_of_layerEvents (i := i)
      rw [hr]
      simp [skippedEvents]
    · refine ⟨by simp [checksOf, hr, copiedEvents, Event.isHasLayer], false, ?_⟩
      apply mem_trace_of_layerEvents (i := i)
      rw [hr]
      simp [copiedEvents]
  · intro hnd i n dg hh
    obtain ⟨l, hl, _, hdg, hev⟩ := has_true_skipped hinv hh
    constructor
    · intro k n2 rd err hup
      obtain ⟨l2, hl2, _, hdg2, _⟩ := upload_has_false hinv hup
      have hik : i = k := nodup_index hnd hl hl2 (hdg.symm.trans hdg2)
      subst hik
      have hz : uploadsOf i s.trace = 0 := by
        simp [uploadsOf, hev, skippedEvents, Event.isUploadLayer]
      have hmem : Event.UploadLayer i n2 dg rd err ∈ layerEvents i s.trace :=
        mem_layerEvents.mpr ⟨hup, rfl⟩
      rw [uploadsOf, List.countP_eq_zero] at hz
      exact absurd rfl (hz _ hmem)
    · intro k n2 rd len err hd
      obtain ⟨l2, hl2, _, hdg2, _⟩ := download_has_false hinv hd
      have hik : i = k := nodup_index hnd hl hl2 (hdg.symm.trans hdg2)
      subst hik
      have hz : downloadsOf i s.trace = 0 := by
        simp [downloadsOf, hev, skippedEvents, Event.isDownload]
      have hmem : Event.DownloadLayerLength i n2 dg rd len err ∈ layerEvents i s.trace :=
        mem_layerEvents.mpr ⟨hd, rfl⟩
      rw [downloadsOf, List.countP_eq_zero] at hz
      exact absurd rfl (hz _ hmem)

/-- Witness of C2: two workers, `B` present at the destination, `A` and `C`
absent. -/
theorem C2_witness :
    (finalState (exampleJob 2) "app" "v1" schedABC).pc = .done ∧
    (∀ (i : Nat) (n : String) (dg : Digest),
      Event.HasLayer i n dg (.ok false) ∈
        (finalState (exampleJob 2) "app" "v1" schedABC).trace →
      uploadsOf i (finalState (exampleJob 2) "app" "v1" schedABC).trace = 1 ∧
      downloadsOf i (finalState (exampleJob 2) "app" "v1" schedABC).trace = 1 ∧
      ∃ rd, Event.UploadLayer i n dg rd none ∈
        (finalState (exampleJob 2) "app" "v1" schedABC).trace) ∧
    (∀ (i : Nat) (n : String) (dg : Digest),
      Event.HasLayer i n dg (.ok true) ∈
        (finalState (exampleJob 2) "app" "v1" schedABC).trace →
      uploadsOf i (finalState (exampleJob 2) "app" "v1" schedABC).trace = 0 ∧
      downloadsOf i (finalState (exampleJob 2) "app" "v1" schedABC).trace = 0) ∧
    (∀ (i : Nat) (n : String) (dg : Digest) (rd : Reader) (err : Option Err),
      Event.UploadLayer i n dg rd err ∈
        (finalState (exampleJob 2) "app" "v1" schedABC).trace →
      Event.HasLayer i n dg (.ok false) ∈
        (finalState (exampleJob 2) "app" "v1" schedABC).trace) ∧
    (∀ (i : Nat) (n : String) (dg : Digest) (rd : Option Reader) (len : Int)
      (err : Option Err),
      Event.DownloadLayerLength i n dg rd len err ∈
        (finalState (exampleJob 2) "app" "v1" schedABC).trace →
      Event.HasLayer i n dg (.ok false) ∈
        (finalState (exampleJob 2) "app" "v1" schedABC).trace) ∧
    (∀ (dg : Digest),
      (∃ (i : Nat) (n : String) (rd : Reader) (err : Option Err),
        Event.UploadLayer i n dg rd err ∈
          (finalState (exampleJob 2) "app" "v1" schedABC).trace) ↔
      (∃ (i : Nat) (n : String), Event.HasLayer i n dg (.ok false) ∈
          (finalState (exampleJob 2) "app" "v1" schedABC).trace)) ∧
    ((∀ (i : Nat) (n : String) (dg : Digest),
      Event.HasLayer i n dg (.ok false) ∉
        (finalState (exampleJob 2) "app" "v1" schedABC).trace) →
      (finalState (exampleJob 2) "app" "v1" schedABC).trace.countP Event.isUploadLayer = 0 ∧
      (finalState (exampleJob 2) "app" "v1" schedABC).trace.countP Event.isDownload = 0) ∧
    (finalState (exampleJob 2) "app" "v1" schedABC).trace.countP Event.isPutManifest = 1 ∧
    ((1 : Int) ≤ (exampleJob 2).threads → ∀ (i : Nat) (layer : FSLayer),
      (finalState (exampleJob 2) "app" "v1" schedABC).layers[i]? = some layer →
      checksOf i (finalState (exampleJob 2) "app" "v1" schedABC).trace = 1 ∧
      ∃ b, Event.HasLayer i "app" layer.BlobSum (.ok b) ∈
        (finalState (exampleJob 2) "app" "v1" schedABC).trace) ∧
    (((finalState (exampleJob 2) "app" "v1" schedABC).layers.map FSLayer.BlobSum).Nodup →
      ∀ (i : Nat) (n : String) (dg : Digest),
      Event.HasLayer i n dg (.ok true) ∈
        (finalState (exampleJob 2) "app" "v1" schedABC).trace →
      (∀ (k : Nat) (n2 : String) (rd : Reader) (err : Option Err),
        Event.UploadLayer k n2 dg rd err ∉
          (finalState (exampleJob 2) "app" "v1" schedABC).trace) ∧
      (∀ (k : Nat) (n2 : String) (rd : Option Reader) (len : Int) (err : Option Err),
        Event.DownloadLayerLength k n2 dg rd len err ∉
          (finalState (exampleJob 2) "app" "v1" schedABC).trace)) :=
  C2_transfers_exactly_absent (exampleJob 2) "app" "v1" schedABC
    (finalState (exampleJob 2) "app" "v1" schedABC) (by rfl) (Or.inl (by rfl)) (by decide)

/-- C3 (layer transfer failure), evaluation at the failing input: one worker,
the manifest `[A]`, `A` absent from the destination, and `UploadLayer`
returning an error. The error is dropped: the reader is closed, `copyLayer`
returns, `PutManifest` is called and `Copy` returns without exiting. -/
theorem C3_upload_error_ignored :
    (run (Copy (exampleJob 1) "app" "v1") schedUploadFails).map
        (fun s => (s.pc, s.exit, s.trace)) =
      some (.done, none,
        [.Manifest "app" "v1" (.ok manifestA),
         .copyLayer 0 { BlobSum := "A" },
         .HasLayer 0 "app" "A" (.ok false),
         .DownloadLayerLength 0 "app" "A" (some 7) 10 none,
         .UploadLayer 0 "app" "A" 7 (some "unexpected EOF"),
         .Close 0 7,
         .copyLayerReturn 0,
         .PutManifest "app" "v1" manifestA none]) := by
  decide

/-- C4 (existence-check failure is fatal): in every execution of `Copy`, once
a `HasLayer` call for the work item `i` has returned an error, no
`DownloadLayerLength` or `UploadLayer` call has been made for that item, no
`PutManifest` call has been made, `Copy` has not returned, and the process
has exited with code 1 or the worker is inside `log.Fatalf` with `os.Exit(1)`
as its next step. The trace only grows, so this holds from the failure on,
and the length of the execution is bounded, so the exit is all that is left
once the other goroutines have nothing to do. -/
theorem C4_hasLayer_failure_fatal (d : Dupe) (name tag : String) (ls : List Label)
    (s : State) (i : Nat) (n : String) (dg : Digest) (e : Err)
    (hrun : run (Copy d name tag) ls = some s)
    (herr : Event.HasLayer i n dg (.error e) ∈ s.trace) :
    downloadsOf i s.trace = 0 ∧ uploadsOf i s.trace = 0 ∧
    (∀ ev ∈ s.trace, ev.isPutManifest = false) ∧
    s.pc ≠ .done ∧
    (s.exit = some 1 ∨
      (s.exit = none ∧ ∃ (j : Nat) (s' : State),
        step s (.worker j .tick) = some s' ∧ s'.exit = some 1)) ∧
    ls.length ≤ 2 * d.threads.toNat + 7 * s.layers.length + 7 := by
  have hinv := run_inv hrun
  obtain ⟨j, t, hw, _, hform⟩ := hasLayer_error_worker hinv herr
  have hp := not_pastWait_of_running hinv.ctl hw (by simp [WorkerPc.running])
  refine ⟨?_, ?_, no_put_before_barrier hinv.ctl hp, ?_, ?_, run_bounded hrun⟩
  · simp [downloadsOf, hform, Event.isDownload]
  · simp [uploadsOf, hform, Event.isUploadLayer]
  · intro hdone
    rw [hdone] at hp
    simp [CopyPc.pastWait] at hp
  · cases hx : s.exit with
    | some c =>
      left
      rw [(hinv.ctl.exitOne c hx).1]
    | none =>
      right
      refine ⟨rfl, j, { s with exit := some 1 }, ?_, rfl⟩
      simp [step, hx, stepWorker, copyLayer, hw]

/-- Witness of C4: the existence check of `B` fails while `A` is in flight. -/
theorem C4_witness :
    downloadsOf 1 (finalState (exampleJob 2) "app" "v1" schedHasLayerFails).trace = 0 ∧
    uploadsOf 1 (finalState (exampleJob 2) "app" "v1" schedHasLayerFails).trace = 0 ∧
    (∀ ev ∈ (finalState (exampleJob 2) "app" "v1" schedHasLayerFails).trace,
      ev.isPutManifest = false) ∧
    (finalState (exampleJob 2) "app" "v1" schedHasLayerFails).pc ≠ .done ∧
    ((finalState (exampleJob 2) "app" "v1" schedHasLayerFails).exit = some 1 ∨
      ((finalState (exampleJob 2) "app" "v1" schedHasLayerFails).exit = none ∧
        ∃ (j : Nat) (s' : State),
          step (finalState (exampleJob 2) "app" "v1" schedHasLayerFails)
            (.worker j .tick) = some s' ∧ s'.exit = some 1)) ∧
    schedHasLayerFails.length ≤ 2 * (exampleJob 2).threads.toNat +
      7 * (finalState (exampleJob 2) "app" "v1" schedHasLayerFails).layers.length + 7 :=
  C4_hasLayer_failure_fatal (exampleJob 2) "app" "v1" schedHasLayerFails
    (finalState (exampleJob 2) "app" "v1" schedHasLayerFails) 1 "app" "B" "transport"
    (by rfl) (by decide)

/-- C5, counterexample: a configuration with `Threads = 0` is accepted by
`New`, and `Copy` on the resulting job returns normally after uploading the
manifest without having copied its layer. -/
theorem C5_counterexample :
    ∃ d, New connectOk configZero = .ok d ∧
      (run (Copy d "app" "v1") schedNoWorkers).map (fun s => (s.pc, s.exit, s.trace)) =
        some (.done, none,
          [.Manifest "app" "v1" (.ok manifestA), .PutManifest "app" "v1" manifestA none]) :=
  ⟨_, rfl, by decide⟩

/-- C5 (concurrency below 1, amended): `New` performs no validation of
`Threads`: for a configuration with `Threads < 1` it fails exactly when a
registry connection fails, and otherwise returns a job with that number of
threads. In every execution of `Copy` on such a job no worker is spawned and
no `HasLayer`, `DownloadLayerLength` or `UploadLayer` call is made; the
process exits only with code 1 and only after the manifest fetch or the
`PutManifest` call has returned an error; and a run that completes has made
exactly one `PutManifest` call. -/
theorem C5_threads_not_validated
    (connect : String → String → String → Result Registry) (config : DupeConfig)
    (hthreads : config.Threads < 1) :
    (∀ (fromReg toReg : Registry),
      connect config.UrlFrom config.UserFrom config.PasswordFrom = .ok fromReg →
      connect config.UrlTo config.UserTo config.PasswordTo = .ok toReg →
      ∃ d, New connect config = .ok d ∧ d.threads = config.Threads) ∧
    (∀ (d : Dupe), New connect config = .ok d →
      d.threads = config.Threads ∧
      ∀ (name tag : String) (ls : List Label) (s : State),
        run (Copy d name tag) ls = some s →
        s.workers = [] ∧
        s.trace.countP Event.isHasLayer = 0 ∧ s.trace.countP Event.isDownload = 0 ∧
        s.trace.countP Event.isUploadLayer = 0 ∧
        (∀ c, s.exit = some c → c = 1 ∧
          ((∃ e, Event.Manifest name tag (.error e) ∈ s.trace) ∨
           ∃ m e, Event.PutManifest name tag m (some e) ∈ s.trace)) ∧
        (s.pc = .done → s.trace.countP Event.isPutManifest = 1)) := by
  constructor
  · intro fromReg toReg h1 h2
    refine ⟨{ manifestName := "", manifestTag := "", manifest := none, fromReg := fromReg,
              toReg := toReg, threads := config.Threads }, ?_, rfl⟩
    simp only [New, h1, h2]
  · intro d hd
    have hth : d.threads = config.Threads := by
      unfold New at hd
      split at hd
      · cases hd
      · split at hd
        · cases hd
        · injection hd with hd
          rw [← hd]
    refine ⟨hth, ?_⟩
    intro name tag ls s hrun
    have hT : d.threads ≤ 0 := by omega
    have hinv := run_inv hrun
    have hn := reach_noWorkers hT (run_reach hrun)
    have hc := noWorkers_calls hn
    refine ⟨hn.workers, hc.2.2, hc.2.1, hc.1, ?_, put_count_done hinv.ctl⟩
    intro c hx
    obtain ⟨hc1, hf⟩ := hinv.ctl.exitOne c hx
    refine ⟨hc1, ?_⟩
    have hmf := hinv.ctl.mainForm
    rcases hf with hf | hf | ⟨j, t, hf | hf⟩
    · left
      rw [hf] at hmf
      simp only [MainForm] at hmf
      obtain ⟨e, hev⟩ := hmf
      exact ⟨e, mem_of_mainEvents (by rw [hev]; simp)⟩
    · right
      rw [hf] at hmf
      simp only [MainForm] at hmf
      obtain ⟨m, e, _, hev⟩ := hmf
      exact ⟨m, e, mem_of_mainEvents (by rw [hev]; simp)⟩
    · rw [hn.workers] at hf
      simp at hf
    · rw [hn.workers] at hf
      simp at hf

/-- Witness of C5: the configuration with `Threads = 0` and registries that
accept every connection. -/
theorem C5_witness :
    (∀ (fromReg toReg : Registry),
      connectOk configZero.UrlFrom configZero.UserFrom configZero.PasswordFrom = .ok fromReg →
      connectOk configZero.UrlTo configZero.UserTo configZero.PasswordTo = .ok toReg →
      ∃ d, New connectOk configZero = .ok d ∧ d.threads = configZero.Threads) ∧
    (∀ (d : Dupe), New connectOk configZero = .ok d →
      d.threads = configZero.Threads ∧
      ∀ (name tag : String) (ls : List Label) (s : State),
        run (Copy d name tag) ls = some s →
        s.workers = [] ∧
        s.trace.countP Event.isHasLayer = 0 ∧ s.trace.countP Event.isDownload = 0 ∧
        s.trace.countP Event.isUploadLayer = 0 ∧
        (∀ c, s.exit = some c → c = 1 ∧
          ((∃ e, Event.Manifest name tag (.error e) ∈ s.trace) ∨
           ∃ m e, Event.PutManifest name tag m (some e) ∈ s.trace)) ∧
        (s.pc = .done → s.trace.countP Event.isPutManifest = 1)) :=
  C5_threads_not_validated connectOk configZero (by decide)

/-- C6 (manifest passthrough): a run of `Copy(name, tag)` that completes has
made exactly one `PutManifest` call; its arguments are `name`, `tag` and the
manifest value returned by the fetch `Manifest(name, tag)`, which is also the
value still held in `dupe.manifest`. -/
theorem C6_manifest_passthrough (d : Dupe) (name tag : String) (ls : List Label) (s : State)
    (hrun : run (Copy d name tag) ls = some s) (hdone : s.pc = .done) :
    ∃ m, s.dupe.manifest = some m ∧
      mainEvents s.trace = [.Manifest name tag (.ok m), .PutManifest name tag m none] ∧
      s.trace.filter Event.isPutManifest = [.PutManifest name tag m none] ∧
      s.trace.countP Event.isPutManifest = 1 := by
  obtain ⟨m, hm, hev⟩ := mainEvents_done (run_inv hrun).ctl hdone
  have hf : s.trace.filter Event.isPutManifest = [.PutManifest name tag m none] := by
    rw [filter_isPut_main, hev]
    rfl
  refine ⟨m, hm, hev, hf, ?_⟩
  rw [List.countP_eq_length_filter, hf]
  rfl

/-- Witness of C6: the run with two workers uploads `manifestABC` once. -/
theorem C6_witness :
    ∃ m, (finalState (exampleJob 2) "app" "v1" schedABC).dupe.manifest = some m ∧
      mainEvents (finalState (exampleJob 2) "app" "v1" schedABC).trace =
        [.Manifest "app" "v1" (.ok m), .PutManifest "app" "v1" m none] ∧
      (finalState (exampleJob 2) "app" "v1" schedABC).trace.filter Event.isPutManifest =
        [.PutManifest "app" "v1" m none] ∧
      (finalState (exampleJob 2) "app" "v1" schedABC).trace.countP Event.isPutManifest = 1 :=
  C6_manifest_passthrough (exampleJob 2) "app" "v1" schedABC
    (finalState (exampleJob 2) "app" "v1" schedABC) (by rfl) (by rfl)

/-- C7 (idempotence), evaluation at the failing input: one worker, the
manifest `[A]` and a destination that holds no blob. In the first run
`UploadLayer` returns an error for `A`; `copyLayer` drops it, so `Copy`
returns after one `PutManifest` call and the destination still holds no blob.
The second run of the same job is answered `HasLayer = false` for `A` and makes
one `DownloadLayerLength` and one `UploadLayer` call, after which the
destination holds `A`. -/
theorem C7_second_run_uploads :
    (run (Copy (exampleJob 1) "app" "v1") schedUploadFails).map
        (fun s => (s.pc, s.exit, s.trace)) =
      some (.done, none,
        [.Manifest "app" "v1" (.ok manifestA),
         .copyLayer 0 { BlobSum := "A" },
         .HasLayer 0 "app" "A" (.ok false),
         .DownloadLayerLength 0 "app" "A" (some 7) 10 none,
         .UploadLayer 0 "app" "A" 7 (some "unexpected EOF"),
         .Close 0 7,
         .copyLayerReturn 0,
         .PutManifest "app" "v1" manifestA none]) ∧
    (run (Copy (exampleJob 1) "app" "v1") schedUploadFails).map
        (fun s => s.trace.countP Event.isPutManifest) = some 1 ∧
    (run (Copy (exampleJob 1) "app" "v1") schedUploadFails).bind
        (fun s => destRun [] s.trace) = some [] ∧
    (run (Copy (finalState (exampleJob 1) "app" "v1" schedUploadFails).dupe "app" "v1")
        schedUploadOk).map (fun s => (s.pc, s.exit, s.trace)) =
      some (.done, none,
        [.Manifest "app" "v1" (.ok manifestA),
         .copyLayer 0 { BlobSum := "A" },
         .HasLayer 0 "app" "A" (.ok false),
         .DownloadLayerLength 0 "app" "A" (some 8) 10 none,
         .UploadLayer 0 "app" "A" 8 none,
         .Close 0 8,
         .copyLayerReturn 0,
         .PutManifest "app" "v1" manifestA none]) ∧
    (run (Copy (finalState (exampleJob 1) "app" "v1" schedUploadFails).dupe "app" "v1")
        schedUploadOk).map (fun s => s.trace.countP Event.isUploadLayer) = some 1 ∧
    (run (Copy (finalState (exampleJob 1) "app" "v1" schedUploadFails).dupe "app" "v1")
        schedUploadOk).map (fun s => s.trace.countP Event.isPutManifest) = some 1 ∧
    (run (Copy (finalState (exampleJob 1) "app" "v1" schedUploadFails).dupe "app" "v1")
        schedUploadOk).bind (fun s => destRun [] s.trace) = some ["A"] := by
  refine ⟨by decide, by decide, by decide, by decide, by decide, by decide, by decide⟩

/-- C8 (source stream release): in every execution of `Copy`, once
`DownloadLayerLength` has handed a reader `rd` to the `copyLayer` call of work
item `i`, the events of that item are the first three, the first four or all
six of: invocation, `HasLayer` answering false, the download, the
`UploadLayer` call on `rd` with any result `uerr`, `Close` of `rd`, return.
Hence `Close` is called at most once, only after `UploadLayer` has returned,
and when `copyLayer` has returned it has been called exactly once, right
before the return. -/
theorem C8_reader_closed_once (d : Dupe) (name tag : String) (ls : List Label) (s : State)
    (i : Nat) (n : String) (dg : Digest) (rd : Reader) (len : Int) (err : Option Err)
    (hrun : run (Copy d name tag) ls = some s)
    (hdl : Event.DownloadLayerLength i n dg (some rd) len err ∈ s.trace) :
    ∃ (layer : FSLayer) (uerr : Option Err), s.layers[i]? = some layer ∧
      (layerEvents i s.trace =
          (copiedEvents name { index := i, layer := layer } rd len err uerr).take 3 ∨
       layerEvents i s.trace =
          (copiedEvents name { index := i, layer := layer } rd len err uerr).take 4 ∨
       layerEvents i s.trace =
          copiedEvents name { index := i, layer := layer } rd len err uerr) ∧
      closesOf i s.trace ≤ 1 ∧
      (Event.copyLayerReturn i ∈ s.trace →
        layerEvents i s.trace =
          copiedEvents name { index := i, layer := layer } rd len err uerr ∧
        closesOf i s.trace = 1) := by
  obtain ⟨layer, uerr, hl, hcases⟩ := reader_cases (run_inv hrun) hdl
  refine ⟨layer, uerr, hl, hcases, ?_, ?_⟩
  · rcases hcases with hc | hc | hc <;>
      simp [closesOf, hc, copiedEvents, Event.isClose]
  · intro hret
    have hmem : Event.copyLayerReturn i ∈ layerEvents i s.trace :=
      mem_layerEvents.mpr ⟨hret, rfl⟩
    rcases hcases with hc | hc | hc
    · rw [hc] at hmem
      simp [copiedEvents] at hmem
    · rw [hc] at hmem
      simp [copiedEvents] at hmem
    · exact ⟨hc, by simp [closesOf, hc, copiedEvents, Event.isClose]⟩

/-- Witness of C8: the reader of `A` in the run whose upload fails. -/
theorem C8_witness :
    ∃ (layer : FSLayer) (uerr : Option Err),
      (finalState (exampleJob 1) "app" "v1" schedUploadFails).layers[0]? = some layer ∧
      (layerEvents 0 (finalState (exampleJob 1) "app" "v1" schedUploadFails).trace =
          (copiedEvents "app" { index := 0, layer := layer } 7 10 none uerr).take 3 ∨
       layerEvents 0 (finalState (exampleJob 1) "app" "v1" schedUploadFails).trace =
          (copiedEvents "app" { index := 0, layer := layer } 7 10 none uerr).take 4 ∨
       layerEvents 0 (finalState (exampleJob 1) "app" "v1" schedUploadFails).trace =
          copiedEvents "app" { index := 0, layer := layer } 7 10 none uerr) ∧
      closesOf 0 (finalState (exampleJob 1) "app" "v1" schedUploadFails).trace ≤ 1 ∧
      (Event.copyLayerReturn 0 ∈ (finalState (exampleJob 1) "app" "v1" schedUploadFails).trace →
        layerEvents 0 (finalState (exampleJob 1) "app" "v1" schedUploadFails).trace =
          copiedEvents "app" { index := 0, layer := layer } 7 10 none uerr ∧
        closesOf 0 (finalState (exampleJob 1) "app" "v1" schedUploadFails).trace = 1) :=
  C8_reader_closed_once (exampleJob 1) "app" "v1" schedUploadFails
    (finalState (exampleJob 1) "app" "v1" schedUploadFails) 0 "app" "A" 7 10 none
    (by rfl) (by decide)

/-- C9, counterexample: a command line that asks for the version and omits
the required options fails to parse with an error other than a help request,
and the process exits with code 10, not 1. -/
theorem C9_counterexample :
    main (some (.other 7)) optsVersionOnly connectOk [] = some 10 ∧
    main (some (.other 7)) optsVersionOnly connectOk [] ≠ some 1 := by
  decide

/-- C9 (exit codes, amended): whatever the schedule of the copy, `main` exits
with code 0 when the parse error is a help request; otherwise with code 10
when the version flag is set, also when parsing failed; otherwise with code 1
when parsing failed; and otherwise, when `New` succeeds and `Copy` completes,
with code 0. -/
theorem C9_exit_codes (err : Option ErrorType) (opts : Opts)
    (connect : String → String → String → Result Registry) (ls : List Label) :
    (err = some .ErrHelp → main err opts connect ls = some 0) ∧
    (err ≠ some .ErrHelp → opts.DoVersion = true → main err opts connect ls = some 10) ∧
    (∀ typ, err = some typ → typ ≠ .ErrHelp → opts.DoVersion = false →
      main err opts connect ls = some 1) ∧
    (err = none → opts.DoVersion = false →
      ∀ (d : Dupe) (s : State), New connect (mainConfig opts) = .ok d →
        run (Copy d opts.ManifestName opts.ManifestTag) ls = some s → s.pc = .done →
        main err opts connect ls = some 0) := by
  refine ⟨?_, ?_, ?_, ?_⟩
  · intro h
    subst h
    simp [main]
  · intro h hv
    cases err with
    | none => simp [main, mainRest, hv]
    | some typ =>
      have : typ ≠ .ErrHelp := fun hh => h (by rw [hh])
      simp [main, mainRest, hv, this]
  · intro typ h hne hv
    subst h
    simp [main, hne, hv]
  · intro h hv d s hnew hrun hdone
    subst h
    simp [main, mainRest, hv, hnew, hrun, hdone]

/-- Witness of C9: a help request, a version request without the required
options, a parse failure, and a complete command line whose copy of the
manifest `[A]` completes. -/
theorem C9_witness :
    main (some .ErrHelp) optsVersionOnly connectOk [] = some 0 ∧
    main (some (.other 7)) optsVersionOnly connectOk [] = some 10 ∧
    main (some (.other 7)) optsCopy connectOk [] = some 1 ∧
    main none optsCopy connectOk schedUploadFails = some 0 :=
  ⟨(C9_exit_codes (some .ErrHelp) optsVersionOnly connectOk []).1 rfl,
   (C9_exit_codes (some (.other 7)) optsVersionOnly connectOk []).2.1 (by decide) rfl,
   (C9_exit_codes (some (.other 7)) optsCopy connectOk []).2.2.1 (.other 7) rfl
     (by decide) rfl,
   (C9_exit_codes none optsCopy connectOk schedUploadFails).2.2.2 rfl rfl
     (exampleJobOf optsCopy)
     (finalState (exampleJobOf optsCopy) "app" "v1" schedUploadFails) rfl (by rfl) (by rfl)⟩

/-- C10, counterexample: with concurrency 0 and a manifest of 65 layer
references no execution of `Copy` ever calls `PutManifest` or even closes the
channel: the producer blocks on the 65th send. -/
theorem C10_counterexample :
    ¬ ∃ (ls : List Label) (s : State),
      run (Copy (exampleJob 0) "app" "v1") ls = some s ∧
      Event.Manifest "app" "v1" (.ok manifest65) ∈ s.trace ∧
      0 < s.trace.countP Event.isPutManifest := by
  rintro ⟨ls, s, hrun, hm, hput⟩
  have h := noWorkers_overflow (d := exampleJob 0) (by decide) (by decide)
    (run_reach hrun) hm
  omega

/-- C10 (zero concurrency, amended): with concurrency 0, in every execution
of `Copy` no worker is spawned, the wait group stays at zero and no
`HasLayer`, `DownloadLayerLength` or `UploadLayer` call is made; and for a
manifest `m` of at most 64 layer references there is an execution that
fetches `m` and then calls `PutManifest` with `m`, with no event in between,
no execution that has fetched `m` gets stuck before `PutManifest` is called,
and every execution is of bounded length. -/
theorem C10_zero_concurrency (d : Dupe) (name tag : String) (m : SignedManifest)
    (hthreads : d.threads = 0) (hlen : m.FSLayers.length ≤ 64) :
    (∀ (ls : List Label) (s : State), run (Copy d name tag) ls = some s →
      s.workers = [] ∧ s.wg = 0 ∧
      s.trace.countP Event.isHasLayer = 0 ∧ s.trace.countP Event.isDownload = 0 ∧
      s.trace.countP Event.isUploadLayer = 0) ∧
    (∀ (err : Option Err), ∃ (ls : List Label) (s : State),
      run (Copy d name tag) ls = some s ∧
      s.trace = [.Manifest name tag (.ok m), .PutManifest name tag m err] ∧
      s.workers = [] ∧ s.exit = none) ∧
    (∀ (ls : List Label) (s : State), run (Copy d name tag) ls = some s →
      Event.Manifest name tag (.ok m) ∈ s.trace →
      s.trace.countP Event.isPutManifest = 0 →
      ∃ (l : Label) (s' : State), step s l = some s') ∧
    (∀ (ls : List Label) (s : State), run (Copy d name tag) ls = some s →
      ls.length ≤ 7 * s.layers.length + 7) := by
  have hT : d.threads ≤ 0 := by omega
  refine ⟨?_, ?_, ?_, ?_⟩
  · intro ls s hrun
    have hn := reach_noWorkers hT (run_reach hrun)
    have hc := noWorkers_calls hn
    have hwg : s.wg = 0 := by
      rw [(run_inv hrun).ctl.wg, hn.workers]
      rfl
    exact ⟨hn.workers, hwg, hc.2.2, hc.2.1, hc.1⟩
  · intro err
    obtain ⟨ls, s, hrun, htr, hw, hx, _⟩ := noWorkers_run d name tag m err hT hlen
    exact ⟨ls, s, hrun, htr, hw, hx⟩
  · intro ls s hrun hm hput
    exact noWorkers_progress hT hlen (run_reach hrun) hm hput
  · intro ls s hrun
    have := run_bounded hrun
    rw [hthreads] at this
    simpa using this

/-- Witness of C10: concurrency 0 and the manifest `[A]`. -/
theorem C10_witness :
    (∀ (ls : List Label) (s : State), run (Copy (exampleJob 0) "app" "v1") ls = some s →
      s.workers = [] ∧ s.wg = 0 ∧
      s.trace.countP Event.isHasLayer = 0 ∧ s.trace.countP Event.isDownload = 0 ∧
      s.trace.countP Event.isUploadLayer = 0) ∧
    (∀ (err : Option Err), ∃ (ls : List Label) (s : State),
      run (Copy (exampleJob 0) "app" "v1") ls = some s ∧
      s.trace = [.Manifest "app" "v1" (.ok manifestA), .PutManifest "app" "v1" manifestA err] ∧
      s.workers = [] ∧ s.exit = none) ∧
    (∀ (ls : List Label) (s : State), run (Copy (exampleJob 0) "app" "v1") ls = some s →
      Event.Manifest "app" "v1" (.ok manifestA) ∈ s.trace →
      s.trace.countP Event.isPutManifest = 0 →
      ∃ (l : Label) (s' : State), step s l = some s') ∧
    (∀ (ls : List Label) (s : State), run (Copy (exampleJob 0) "app" "v1") ls = some s →
      ls.length ≤ 7 * s.layers.length + 7) :=
  C10_zero_concurrency (exampleJob 0) "app" "v1" manifestA (by rfl) (by decide)

end DockerDupe
